import Mathlib

/-!
# Synchronisation primitives of the typewriting-station simulation

A shallow embedding of `Offline-3/x.cpp`: the classes `Station`, `Group` and `Logbook`,
each with the threads that use it, and the whole program made of `main`,
`operative_thread` and `staff_thread`.

Conventions of the embedding.

* Every method of the three classes runs between `pthread_mutex_lock(&mtx)` and either
  `pthread_mutex_unlock(&mtx)` or a `pthread_cond_wait(&cv, &mtx)`.  Such a stretch is
  atomic with respect to every other method of the same object, and is one step here.
* A thread table `pc : List _` records, for every thread, where it stands with respect
  to the object: outside, asleep on a condition variable, woken but not yet through
  the re-test of its `while` guard, or holding the resource.
* `pthread_cond_broadcast` moves every sleeper to "woken"; `pthread_cond_signal` moves
  one chosen sleeper; a sleeper may also wake spuriously, as POSIX allows.
* C++ `int` fields are `Int`.  In x.cpp every counter is bounded by the number of
  threads, which is itself an `int`, so no operation of the program reaches the word
  size.
* `write_output` and `get_time` only produce log text and are left out.
-/

namespace Sim

/-! ## Runs and condition variables -/

/-- Run a list of events from a state; `none` as soon as an event is not enabled. -/
def runFrom {σ ε : Type} (step : σ → ε → Option σ) : σ → List ε → Option σ
  | s, [] => some s
  | s, e :: es =>
    match step s e with
    | none => none
    | some s' => runFrom step s' es

/-- The effect of `pthread_cond_broadcast`: every thread asleep on the condition
variable becomes runnable and will re-test its guard. -/
def condBroadcast {α : Type} [DecidableEq α] (asleep woken : α) (pcs : List α) : List α :=
  pcs.map (fun p => if p = asleep then woken else p)

/-- The effect of `pthread_cond_signal`: when some thread is asleep on the condition
variable, the chosen thread `w` must be one of them and becomes runnable; when nobody
is asleep the call has no effect. -/
def condSignal {α : Type} [DecidableEq α] (asleep woken : α) (w : Nat) (pcs : List α) :
    Option (List α) :=
  if asleep ∈ pcs then
    if pcs[w]? = some asleep then some (pcs.set w woken) else none
  else some pcs

/-! ## Station (x.cpp, lines 111-159) -/

/-- The data of `class Station` that the methods read and write. -/
structure Station where
  in_use : Bool
deriving DecidableEq, Repr

/-- The constructor `Station() : in_use(false)`. -/
def Station.new : Station := { in_use := false }

/-- One pass of `Station::acquire` from the test of `while (in_use)` to the next
`pthread_cond_wait` or to `pthread_mutex_unlock`, with `mtx` held.  The Boolean says
whether `acquire` completed (`true`) or the caller went to sleep on `cv` (`false`). -/
def Station.acquire (s : Station) : Station × Bool :=
  if s.in_use then (s, false) else ({ s with in_use := true }, true)

/-- The state change of `Station::release`: `in_use = false`. -/
def Station.release (s : Station) : Station := { s with in_use := false }

/-- Where a thread stands with respect to one station. -/
inductive StationPc
  | idle
  | asleep
  | woken
  | holding
deriving DecidableEq, Repr

/-- One station together with the thread table of its clients. -/
structure StationSys where
  station : Station
  pc : List StationPc
deriving DecidableEq, Repr

/-- A fresh station with `k` client threads, none of them inside `acquire`. -/
def StationSys.init (k : Nat) : StationSys :=
  { station := Station.new, pc := List.replicate k StationPc.idle }

/-- The atomic steps of the clients of a station. -/
inductive StationEv
  | acquire (t : Nat)
  | spurious (t : Nat)
  | recheck (t : Nat)
  | release (t : Nat)
deriving DecidableEq, Repr

/-- Thread `t` runs the guarded part of `acquire` once. -/
def StationSys.pass (σ : StationSys) (t : Nat) : StationSys :=
  let r := σ.station.acquire
  { station := r.1, pc := σ.pc.set t (if r.2 then StationPc.holding else StationPc.asleep) }

/-- The step function of a station and its clients.  `acquire t` is a call of
`acquire` by a thread outside; `recheck t` is the re-test of `while (in_use)` by a
woken thread; `release t` is a call of `release` by the thread that holds the station,
with its `pthread_cond_broadcast(&cv)`. -/
def StationSys.step (σ : StationSys) : StationEv → Option StationSys
  | .acquire t => if σ.pc[t]? = some .idle then some (σ.pass t) else none
  | .spurious t =>
    if σ.pc[t]? = some .asleep then some { σ with pc := σ.pc.set t .woken } else none
  | .recheck t => if σ.pc[t]? = some .woken then some (σ.pass t) else none
  | .release t =>
    if σ.pc[t]? = some .holding then
      some { station := σ.station.release,
             pc := condBroadcast .asleep .woken (σ.pc.set t .idle) }
    else none

/-- The number of threads that hold the station: `acquire` completed, no `release` yet. -/
def StationSys.holders (σ : StationSys) : Nat :=
  σ.pc.countP (fun p => decide (p = StationPc.holding))

/-! ## Logbook (x.cpp, lines 216-324) -/

/-- The data of `class Logbook` that the methods read and write. -/
structure Logbook where
  reader_count : Int
  writing : Bool
  completed_operations : Int
  waiting_writers : Int
deriving DecidableEq, Repr

/-- The constructor
`Logbook() : reader_count(0), writing(false), completed_operations(0), waiting_writers(0)`. -/
def Logbook.new : Logbook :=
  { reader_count := 0, writing := false, completed_operations := 0, waiting_writers := 0 }

/-- One pass of `Logbook::start_reading` from the test of
`while (writing || waiting_writers > 0)` to the next `pthread_cond_wait` or to the
unlock.  The Boolean says whether read access was granted. -/
def Logbook.start_reading (b : Logbook) : Logbook × Bool :=
  if b.writing || decide (b.waiting_writers > 0) then (b, false)
  else ({ b with reader_count := b.reader_count + 1 }, true)

/-- The body of `Logbook::stop_reading`: `reader_count--`; the Boolean is the test
`reader_count == 0` that guards `pthread_cond_signal(&writer_cv)`. -/
def Logbook.stop_reading (b : Logbook) : Logbook × Bool :=
  let b' := { b with reader_count := b.reader_count - 1 }
  (b', decide (b'.reader_count = 0))

/-- The entry of `Logbook::start_writing`: `waiting_writers++`. -/
def Logbook.start_writing_enter (b : Logbook) : Logbook :=
  { b with waiting_writers := b.waiting_writers + 1 }

/-- One pass of `Logbook::start_writing` from the test of
`while (reader_count > 0 || writing)` to the next `pthread_cond_wait` or, through
`waiting_writers--; writing = true;`, to the unlock.  The Boolean says whether write
access was granted. -/
def Logbook.start_writing_pass (b : Logbook) : Logbook × Bool :=
  if decide (b.reader_count > 0) || b.writing then (b, false)
  else ({ b with waiting_writers := b.waiting_writers - 1, writing := true }, true)

/-- The body of `Logbook::stop_writing`: `writing = false; completed_operations++;` and
the test `waiting_writers > 0` that chooses between `pthread_cond_signal(&writer_cv)`
(`true`) and `pthread_cond_broadcast(&reader_cv)` (`false`). -/
def Logbook.stop_writing (b : Logbook) : Logbook × Bool :=
  let b' := { b with writing := false, completed_operations := b.completed_operations + 1 }
  (b', decide (b'.waiting_writers > 0))

/-- The accessor `Logbook::get_completed_operations`. -/
def Logbook.get_completed_operations (b : Logbook) : Int := b.completed_operations

/-- Where a thread stands with respect to the logbook. -/
inductive LogbookPc
  | idle
  | rAsleep
  | rWoken
  | reading
  | wAsleep
  | wWoken
  | writing
deriving DecidableEq, Repr

/-- The logbook together with the thread table of its clients. -/
structure LogbookSys where
  book : Logbook
  pc : List LogbookPc
deriving DecidableEq, Repr

/-- A fresh logbook with `k` client threads, all outside. -/
def LogbookSys.init (k : Nat) : LogbookSys :=
  { book := Logbook.new, pc := List.replicate k LogbookPc.idle }

/-- The atomic steps of the clients of the logbook.  In `stop_reading t w` and
`stop_writing t w`, `w` is the thread that a `pthread_cond_signal(&writer_cv)` made in
this step picks among the sleepers. -/
inductive LogbookEv
  | start_reading (t : Nat)
  | recheck_read (t : Nat)
  | stop_reading (t w : Nat)
  | start_writing (t : Nat)
  | recheck_write (t : Nat)
  | stop_writing (t w : Nat)
  | spurious (t : Nat)
deriving DecidableEq, Repr

/-- Thread `t` runs the guarded part of `start_reading` once. -/
def LogbookSys.readPass (σ : LogbookSys) (t : Nat) : LogbookSys :=
  let r := σ.book.start_reading
  { book := r.1, pc := σ.pc.set t (if r.2 then LogbookPc.reading else LogbookPc.rAsleep) }

/-- Thread `t` runs the guarded part of `start_writing` once. -/
def LogbookSys.writePass (σ : LogbookSys) (t : Nat) : LogbookSys :=
  let r := σ.book.start_writing_pass
  { book := r.1, pc := σ.pc.set t (if r.2 then LogbookPc.writing else LogbookPc.wAsleep) }

/-- The step function of the logbook and its clients.  `stop_reading` is enabled only
for a thread that holds read access and `stop_writing` only for the thread that holds
write access, as in `staff_thread` and `operative_thread`. -/
def LogbookSys.step (σ : LogbookSys) : LogbookEv → Option LogbookSys
  | .start_reading t => if σ.pc[t]? = some .idle then some (σ.readPass t) else none
  | .recheck_read t => if σ.pc[t]? = some .rWoken then some (σ.readPass t) else none
  | .stop_reading t w =>
    if σ.pc[t]? = some .reading then
      let r := σ.book.stop_reading
      let pcs := σ.pc.set t .idle
      if r.2 then (condSignal .wAsleep .wWoken w pcs).map (fun q => { book := r.1, pc := q })
      else some { book := r.1, pc := pcs }
    else none
  | .start_writing t =>
    if σ.pc[t]? = some .idle then
      some (LogbookSys.writePass { σ with book := σ.book.start_writing_enter } t)
    else none
  | .recheck_write t => if σ.pc[t]? = some .wWoken then some (σ.writePass t) else none
  | .stop_writing t w =>
    if σ.pc[t]? = some .writing then
      let r := σ.book.stop_writing
      let pcs := σ.pc.set t .idle
      if r.2 then (condSignal .wAsleep .wWoken w pcs).map (fun q => { book := r.1, pc := q })
      else some { book := r.1, pc := condBroadcast .rAsleep .rWoken pcs }
    else none
  | .spurious t =>
    match σ.pc[t]? with
    | some .rAsleep => some { σ with pc := σ.pc.set t .rWoken }
    | some .wAsleep => some { σ with pc := σ.pc.set t .wWoken }
    | _ => none

/-- Holds read access: `start_reading` returned, `stop_reading` not yet called. -/
def LogbookPc.isReading : LogbookPc → Bool
  | .reading => true
  | _ => false

/-- Holds write access: `start_writing` returned, `stop_writing` not yet called. -/
def LogbookPc.isWriting : LogbookPc → Bool
  | .writing => true
  | _ => false

/-- Has entered `start_writing` and has not been granted write access yet. -/
def LogbookPc.isWaitingWriter : LogbookPc → Bool
  | .wAsleep => true
  | .wWoken => true
  | _ => false

/-- The counting invariant of the logbook: the three synchronisation fields agree with
the thread table, and a writer excludes readers. -/
structure LogbookSys.Inv (σ : LogbookSys) : Prop where
  readers : σ.book.reader_count = (σ.pc.countP LogbookPc.isReading : Nat)
  waiters : σ.book.waiting_writers = (σ.pc.countP LogbookPc.isWaitingWriter : Nat)
  writers : σ.pc.countP LogbookPc.isWriting = if σ.book.writing then 1 else 0
  excl : σ.book.writing = true → σ.book.reader_count = 0

/-! ## Group (x.cpp, lines 164-211) -/

/-- The data of `class Group` that the methods read and write. -/
structure Group where
  counter : Int
deriving DecidableEq, Repr

/-- The constructor `Group() : counter(0)`. -/
def Group.new : Group := { counter := 0 }

/-- The state change of `Group::non_leader_completed`: `counter++` (followed by
`pthread_cond_signal(&cv)`). -/
def Group.non_leader_completed (g : Group) : Group := { g with counter := g.counter + 1 }

/-- The test of `while (counter < m)` in `Group::leader_completed_and_wait`: `true` when
the leader has to call `pthread_cond_wait`. -/
def Group.must_wait (g : Group) (m : Int) : Bool := decide (g.counter < m)

/-- `Group::leader_completed_and_wait(m)` from the lock to the first
`pthread_cond_wait` or to the unlock: `counter++`, then the first test of
`while (counter < m)`.  The Boolean says whether the call returned without waiting. -/
def Group.leader_completed_and_wait (g : Group) (m : Int) : Group × Bool :=
  let g' := { g with counter := g.counter + 1 }
  (g', !g'.must_wait m)

/-- Where a member stands with respect to the barrier of its group. -/
inductive GroupPc
  | before
  | asleep
  | woken
  | passed
  | finished
deriving DecidableEq, Repr

/-- One group of `operative_thread`s at their barrier: the `Group` object, the global
`m`, the index of the member for which `id == leader_id`, and the thread table. -/
structure GroupSys where
  group : Group
  m : Int
  leader : Nat
  pc : List GroupPc
deriving DecidableEq, Repr

/-- A fresh group of `M` members, none of which has arrived; member `l` is the leader. -/
def GroupSys.init (M l : Nat) : GroupSys :=
  { group := Group.new, m := M, leader := l, pc := List.replicate M GroupPc.before }

/-- The atomic steps of the members of a group.  In `non_leader_completed t w`, `w` is
the thread picked by `pthread_cond_signal(&cv)`. -/
inductive GroupEv
  | non_leader_completed (t w : Nat)
  | leader_completed_and_wait (t : Nat)
  | spurious (t : Nat)
  | recheck (t : Nat)
deriving DecidableEq, Repr

/-- The step function of a group barrier.  Every member arrives once, from `before`:
the leader through `leader_completed_and_wait(m)`, every other member through
`non_leader_completed()`, as in the `if (id == leader_id)` of `operative_thread`. -/
def GroupSys.step (σ : GroupSys) : GroupEv → Option GroupSys
  | .non_leader_completed t w =>
    if σ.pc[t]? = some .before ∧ t ≠ σ.leader then
      (condSignal .asleep .woken w (σ.pc.set t .finished)).map
        (fun q => { σ with group := σ.group.non_leader_completed, pc := q })
    else none
  | .leader_completed_and_wait t =>
    if σ.pc[t]? = some .before ∧ t = σ.leader then
      let r := σ.group.leader_completed_and_wait σ.m
      some { σ with group := r.1, pc := σ.pc.set t (if r.2 then .passed else .asleep) }
    else none
  | .spurious t =>
    if σ.pc[t]? = some .asleep then some { σ with pc := σ.pc.set t .woken } else none
  | .recheck t =>
    if σ.pc[t]? = some .woken then
      some { σ with pc := σ.pc.set t (if σ.group.must_wait σ.m then .asleep else .passed) }
    else none

/-- Has arrived at the barrier: its `counter++` has been executed. -/
def GroupPc.arrived : GroupPc → Bool
  | .before => false
  | _ => true

/-- The invariant of a group of `M` members: the table has `M` rows, `counter` is the
number of members that have arrived, and a member that is past the barrier has seen
`counter >= m`. -/
structure GroupSys.Inv (M : Nat) (σ : GroupSys) : Prop where
  size : σ.m = M
  rows : σ.pc.length = M
  count : σ.group.counter = (σ.pc.countP GroupPc.arrived : Nat)
  gate : ∀ t : Nat, σ.pc[t]? = some GroupPc.passed → σ.m ≤ σ.group.counter

/-! ## Identities, groups and stations (x.cpp, lines 391-393) -/

/-- `int station_index = id % TYPEWRITING_STATIONS_COUNT;` with the remainder of C++. -/
def station_index (id : Int) : Int := id.tmod 4

/-- `int group_index = (id - 1) / m;` with the truncating division of C++. -/
def group_index (id m : Int) : Int := (id - 1).tdiv m

/-- `int leader_id = group_index * m + m;`. -/
def leader_id (id m : Int) : Int := group_index id m * m + m

/-! ## The whole simulation (x.cpp, lines 326-483) -/

/-- Where an operative stands in `operative_thread`.  `start` is before
`stations[station_index].acquire()`, `holding` between `acquire` and `release`,
`released` before the `if (id == leader_id)` of line 406, `passed` after
`leader_completed_and_wait`, `writing` between `start_writing` and `stop_writing`, and
`done` is `return NULL`; the other values are the sleeps and wake-ups inside `acquire`,
`leader_completed_and_wait` and `start_writing`. -/
inductive OpPc
  | start
  | stAsleep
  | stWoken
  | holding
  | released
  | barAsleep
  | barWoken
  | passed
  | wAsleep
  | wWoken
  | writing
  | done
deriving DecidableEq, Repr

/-- Where a staff member stands in one round of the loop of `staff_thread`. -/
inductive StaffPc
  | idle
  | rAsleep
  | rWoken
  | reading
  | done
deriving DecidableEq, Repr

/-- A staff thread: the loop variable `i` of `for (int i = 0; i < 50; i++)` and the
position in the current round. -/
structure Staff where
  iter : Nat
  pc : StaffPc
deriving DecidableEq, Repr

/-- The globals of x.cpp that the threads share (`m`, `stations`, `groups`, `logbook`)
and the two thread tables; operative `i` of the table has `id = i + 1`. -/
structure World where
  m : Int
  stations : List Station
  groups : List Group
  logbook : Logbook
  ops : List OpPc
  staff : List Staff
deriving DecidableEq, Repr

/-- The state that `main` builds for the input `n m` (with `m` not 0, since `main`
evaluates `n / m`): `TYPEWRITING_STATIONS_COUNT = 4` stations, `num_groups = n / m`
groups, `INTELLIGENCE_STAFF_COUNT = 2` staff threads and `n` operative threads. -/
def World.init (n m : Int) : World :=
  { m := m
    stations := List.replicate 4 Station.new
    groups := List.replicate (n.tdiv m).toNat Group.new
    logbook := Logbook.new
    ops := List.replicate n.toNat OpPc.start
    staff := List.replicate 2 { iter := 0, pc := StaffPc.idle } }

/-- `v[i]` for a `vector` and an `int` index; `none` when the index is out of range. -/
def getAt {α : Type} (l : List α) (i : Int) : Option α :=
  if 0 ≤ i then l[i.toNat]? else none

/-- `v[i] = a` for a `vector` and an `int` index that is in range. -/
def setAt {α : Type} (l : List α) (i : Int) (a : α) : List α := l.set i.toNat a

/-- `pthread_cond_broadcast` on a condition variable whose sleepers are the rows
selected by `sel`. -/
def wakeAll {α : Type} (sel : Nat → α → Bool) (wake : α → α) (pcs : List α) : List α :=
  pcs.mapIdx (fun i p => if sel i p then wake p else p)

/-- `pthread_cond_signal` on a condition variable whose sleepers are the rows selected
by `sel`: when there is a sleeper the chosen row `w` must be one; otherwise no effect. -/
def wakeOne {α : Type} (sel : Nat → α → Bool) (wake : α → α) (w : Nat) (pcs : List α) :
    Option (List α) :=
  if (pcs.mapIdx sel).any id then
    match pcs[w]? with
    | some p => if sel w p then some (pcs.set w (wake p)) else none
    | none => none
  else some pcs

/-- The return from `pthread_cond_wait` for an operative. -/
def OpPc.wake : OpPc → OpPc
  | .stAsleep => .stWoken
  | .barAsleep => .barWoken
  | .wAsleep => .wWoken
  | p => p

/-- The return from `pthread_cond_wait` for a staff member. -/
def Staff.wake (s : Staff) : Staff :=
  match s.pc with
  | .rAsleep => { s with pc := .rWoken }
  | _ => s

/-- The test `id == leader_id` of `operative_thread` for the operative in row `i`. -/
def isLeader (i : Nat) (m : Int) : Bool := decide (((i : Int) + 1) = leader_id ((i : Int) + 1) m)

/-- The next atomic stretch of operative `i` (`id = i + 1`).  `w` is the thread picked
by a `pthread_cond_signal` made in this stretch.  An operative that is asleep or has
returned has no step; an index outside `stations` or `groups` has no defined effect. -/
def World.opStep (W : World) (i w : Nat) : Option World :=
  let id : Int := (i : Int) + 1
  let k := station_index id
  let g := group_index id W.m
  match W.ops[i]? with
  | some .start | some .stWoken =>
    (getAt W.stations k).map fun s =>
      { W with stations := setAt W.stations k s.acquire.1
               ops := W.ops.set i (if s.acquire.2 then .holding else .stAsleep) }
  | some .holding =>
    (getAt W.stations k).map fun s =>
      { W with stations := setAt W.stations k s.release
               ops := wakeAll (fun j p => decide (p = .stAsleep ∧ station_index ((j : Int) + 1) = k))
                        OpPc.wake (W.ops.set i .released) }
  | some .released =>
    (getAt W.groups g).bind fun gr =>
      if id = leader_id id W.m then
        some { W with groups := setAt W.groups g (gr.leader_completed_and_wait W.m).1
                      ops := W.ops.set i
                        (if (gr.leader_completed_and_wait W.m).2 then .passed else .barAsleep) }
      else
        (wakeOne (fun j p => decide (p = .barAsleep ∧ group_index ((j : Int) + 1) W.m = g))
            OpPc.wake w (W.ops.set i .done)).map fun q =>
          { W with groups := setAt W.groups g gr.non_leader_completed, ops := q }
  | some .barWoken =>
    (getAt W.groups g).map fun gr =>
      { W with ops := W.ops.set i (if gr.must_wait W.m then .barAsleep else .passed) }
  | some .passed =>
    let r := W.logbook.start_writing_enter.start_writing_pass
    some { W with logbook := r.1, ops := W.ops.set i (if r.2 then .writing else .wAsleep) }
  | some .wWoken =>
    let r := W.logbook.start_writing_pass
    some { W with logbook := r.1, ops := W.ops.set i (if r.2 then .writing else .wAsleep) }
  | some .writing =>
    let r := W.logbook.stop_writing
    if r.2 then
      (wakeOne (fun _ p => decide (p = .wAsleep)) OpPc.wake w (W.ops.set i .done)).map fun q =>
        { W with logbook := r.1, ops := q }
    else
      some { W with logbook := r.1, ops := W.ops.set i .done
                    staff := wakeAll (fun _ s => decide (s.pc = .rAsleep)) Staff.wake W.staff }
  | _ => none

/-- The next atomic stretch of staff member `j`: a pass through `start_reading`, or
`stop_reading` followed by the loop test `i < 50`. -/
def World.staffStep (W : World) (j w : Nat) : Option World :=
  match W.staff[j]? with
  | none => none
  | some s =>
    match s.pc with
    | .idle | .rWoken =>
      let r := W.logbook.start_reading
      some { W with logbook := r.1
                    staff := W.staff.set j { s with pc := if r.2 then .reading else .rAsleep } }
    | .reading =>
      let r := W.logbook.stop_reading
      let st := W.staff.set j
        { iter := s.iter + 1, pc := if s.iter + 1 < 50 then .idle else .done }
      if r.2 then
        (wakeOne (fun _ p => decide (p = .wAsleep)) OpPc.wake w W.ops).map fun q =>
          { W with logbook := r.1, ops := q, staff := st }
      else some { W with logbook := r.1, staff := st }
    | _ => none

/-- The atomic steps of the simulation. -/
inductive WorldEv
  | op (i w : Nat)
  | staff (j w : Nat)
  | spuriousOp (i : Nat)
  | spuriousStaff (j : Nat)
deriving DecidableEq, Repr

/-- The step function of the simulation: a step of an operative, a step of a staff
member, or a spurious return from `pthread_cond_wait`. -/
def World.step (W : World) : WorldEv → Option World
  | .op i w => W.opStep i w
  | .staff j w => W.staffStep j w
  | .spuriousOp i =>
    match W.ops[i]? with
    | some p => if p.wake ≠ p then some { W with ops := W.ops.set i p.wake } else none
    | none => none
  | .spuriousStaff j =>
    match W.staff[j]? with
    | some s => if s.wake ≠ s then some { W with staff := W.staff.set j s.wake } else none
    | none => none

/-- The operative has returned from `operative_thread`. -/
def OpPc.isDone : OpPc → Bool
  | .done => true
  | _ => false

/-- The operative is inside the leader's branch: at or after the barrier wait and not
yet returned. -/
def OpPc.pastBarrier : OpPc → Bool
  | .barAsleep => true
  | .barWoken => true
  | .passed => true
  | .wAsleep => true
  | .wWoken => true
  | .writing => true
  | _ => false

/-- The number of leaders that have returned from `operative_thread`. -/
def leadersDone (ops : List OpPc) (m : Int) : Nat :=
  (List.range ops.length).countP (fun i => decide (ops[i]? = some OpPc.done) && isLeader i m)

/-- Every operative has returned. -/
def World.allDone (W : World) : Bool := W.ops.all OpPc.isDone

/-- The table `ops'` is the table `ops` after some sleepers have returned from
`pthread_cond_wait`. -/
def WakeRel (ops ops' : List OpPc) : Prop :=
  ops'.length = ops.length ∧
    ∀ (j : Nat) (y : OpPc), ops[j]? = some y → ops'[j]? = some y ∨ ops'[j]? = some y.wake

/-- The control flow of `operative_thread` from one atomic stretch to the next;
`leader` is the value of `id == leader_id`. -/
def OpFlow (leader : Bool) : OpPc → OpPc → Bool
  | .start, q => decide (q = .holding ∨ q = .stAsleep)
  | .stWoken, q => decide (q = .holding ∨ q = .stAsleep)
  | .holding, q => decide (q = .released)
  | .released, q => if leader then decide (q = .passed ∨ q = .barAsleep) else decide (q = .done)
  | .barWoken, q => decide (q = .passed ∨ q = .barAsleep)
  | .passed, q => decide (q = .writing ∨ q = .wAsleep)
  | .wWoken, q => decide (q = .writing ∨ q = .wAsleep)
  | .writing, q => decide (q = .done)
  | _, _ => false

/-- The invariant of the simulation for `N` operatives and group size `M`: only leaders
are inside the leader's branch, and `completed_operations` is the number of leaders
that have returned. -/
structure World.Inv (N : Nat) (M : Int) (W : World) : Prop where
  size : W.m = M
  rows : W.ops.length = N
  lead : ∀ (i : Nat) (p : OpPc), W.ops[i]? = some p → p.pastBarrier = true → isLeader i M = true
  count : W.logbook.completed_operations = (leadersDone W.ops M : Nat)

/-- The schedule in which operatives `0 .. i-1` run one after the other, each from
`acquire` to `return NULL` without interruption: three steps for a member (acquire,
release, `non_leader_completed`), five for a leader (acquire, release,
`leader_completed_and_wait`, `start_writing`, `stop_writing`). -/
def World.sequential (m : Int) : Nat → List WorldEv
  | 0 => []
  | i + 1 =>
    World.sequential m i ++ List.replicate (if isLeader i m then 5 else 3) (WorldEv.op i 0)

/-- The states met by the sequential schedule after the first `i` operatives have
returned: everything is at rest, `i / M` groups are complete, and each group's counter
is the number of its members among the first `i` operatives. -/
structure SeqInv (N M i : Nat) (W : World) : Prop where
  m_eq : W.m = M
  stations : W.stations = List.replicate 4 Station.new
  logbook : W.logbook = { reader_count := 0, writing := false,
                          completed_operations := ((i / M : Nat) : Int), waiting_writers := 0 }
  staff : W.staff = List.replicate 2 { iter := 0, pc := StaffPc.idle }
  rows : W.ops.length = N
  ops : ∀ j : Nat, j < N → W.ops[j]? = some (if j < i then OpPc.done else OpPc.start)
  groups : ∀ g : Nat, g < N / M →
    W.groups[g]? = some { counter := ((min M (i - g * M) : Nat) : Int) }

/-- Recognises the `stop_writing` steps of a run. -/
def LogbookEv.isStopWriting : LogbookEv → Bool
  | .stop_writing _ _ => true
  | _ => false


/-! ## Leader rules and start-up of the variants -/

/-- Shadows_of_Small_Health.cpp, lines 125-126: `int group_id = (id - 1) / M;` and
`int leader_id = (group_id + 1) * M;`. -/
def Shadows.leader_id (id M : Int) : Int := (group_index id M + 1) * M

/-- The leader rule of y.cpp, line 242, `bool is_leader = (i % M == 0);`, which is also
that of z.cpp, line 66, `is_leader = id % m == 0;`. -/
def is_leader (id m : Int) : Bool := decide (id.tmod m = 0)

/-- How `main` ends its start-up: with the usage message and `return 0` (no thread
exists); with undefined behaviour (the integer division by zero, or an array
`pthread_t operative_threads[n]` of negative size); with the exception thrown for a
negative number of groups, which ends the process before any thread exists; or with all
threads created. -/
inductive MainResult (α : Type)
  | usage
  | undefined
  | aborted
  | spawned (a : α)
deriving DecidableEq, Repr

/-- The function `main` of x.cpp from its first line to the end of the two
`pthread_create` loops (lines 428-467), as a function of `argc` and of the `n` and `m`
read from the input.  The only test is `argc != 3`; `num_groups = n / m` is computed
without any test on `n` and `m`.  With a negative `num_groups`,
`groups.resize(num_groups)` (line 448) throws `std::length_error`, before the first
`pthread_create`; with a negative `n` the arrays `operative_threads[n]` and
`operative_args[n]` have no defined size. -/
def World.main (argc : Nat) (n m : Int) : MainResult World :=
  if argc ≠ 3 then .usage
  else if m = 0 then .undefined
  else if n.tdiv m < 0 then .aborted
  else if n < 0 then .undefined
  else .spawned (World.init n m)

/-- What `main` of Shadows_of_Small_Health.cpp has set up when its last
`pthread_create` returns: `G`, the array `group_counter = new int[G]()`, and the numbers
of operative and staff threads. -/
structure Shadows.Start where
  G : Int
  group_counter : List Int
  op_threads : Nat
  staff_threads : Nat
deriving DecidableEq, Repr

/-- The function `main` of Shadows_of_Small_Health.cpp from its first line to the end of
the two `pthread_create` loops (lines 202-263): the only test is `argc != 3`, and
`G = N / M` is computed without any test on `N` and `M`.  With a negative `G`,
`new int[G]()` (line 242) throws, before any thread is created; with a negative `N` the
array `op_threads[N]` has no defined size. -/
def Shadows.main (argc : Nat) (N M : Int) : MainResult Shadows.Start :=
  if argc ≠ 3 then .usage
  else if M = 0 then .undefined
  else if N.tdiv M < 0 then .aborted
  else if N < 0 then .undefined
  else .spawned { G := N.tdiv M, group_counter := List.replicate (N.tdiv M).toNat 0,
                  op_threads := N.toNat, staff_threads := 2 }


/-- The wake-up invariant of the logbook: a reader sleeps on `reader_cv` only while a
writer is active or waiting, and while writers wait on an idle logbook one of them has
been woken and has its re-test still to come. -/
structure LogbookSys.Awake (σ : LogbookSys) : Prop where
  reader : ∀ u : Nat, σ.pc[u]? = some LogbookPc.rAsleep →
    σ.book.writing = true ∨ σ.book.waiting_writers > 0
  writer : σ.book.waiting_writers > 0 →
    σ.book.writing = true ∨ σ.book.reader_count > 0 ∨
      ∃ u : Nat, σ.pc[u]? = some LogbookPc.wWoken

/-! ## The order of the calls of an operative (x.cpp, lines 387-426) -/

/-- Where a member stands with respect to the semaphore of its group: `before` its
`sem_post`; for the leader, at the test `i < M` of `for (int i = 0; i < M; i++)` with
the loop variable `i`, and `passed` after the loop; `finished` for a member that is not
the leader and has posted. -/
inductive SemPc
  | before
  | loop (i : Int)
  | passed
  | finished
deriving DecidableEq, Repr

/-- One group at its semaphore: the value of `group_sems[group_id]`, the global `M`, the
row of the member with `is_leader`, and the thread table. -/
structure SemBarrier where
  sem : Int
  M : Int
  leader : Nat
  pc : List SemPc
deriving DecidableEq, Repr

/-- A group of `M` members after `sem_init(&group_sems[i], 0, 0)`; member `l` is the
leader. -/
def SemBarrier.init (M l : Nat) : SemBarrier :=
  { sem := 0, M := M, leader := l, pc := List.replicate M SemPc.before }

/-- The atomic steps of the members: the `sem_post` of member `t`, and the next round of
the leader's loop (the test `i < M` and, when it holds, one `sem_wait`). -/
inductive SemEv
  | post (t : Nat)
  | next (t : Nat)
deriving DecidableEq, Repr

/-- The step function of the semaphore barrier.  `sem_post` adds one to the value;
`sem_wait` is enabled only when the value is positive and takes one from it. -/
def SemBarrier.step (σ : SemBarrier) : SemEv → Option SemBarrier
  | .post t =>
    if σ.pc[t]? = some .before then
      some { σ with sem := σ.sem + 1
                    pc := σ.pc.set t (if t = σ.leader then .loop 0 else .finished) }
    else none
  | .next t =>
    match σ.pc[t]? with
    | some (.loop i) =>
      if i < σ.M then
        if 0 < σ.sem then some { σ with sem := σ.sem - 1, pc := σ.pc.set t (.loop (i + 1)) }
        else none
      else some { σ with pc := σ.pc.set t .passed }
    | _ => none

/-- Has executed its `sem_post`. -/
def SemPc.posted : SemPc → Bool
  | .before => false
  | _ => true

/-- The number of `sem_wait` calls that a member at this position has completed. -/
def SemPc.waits (M : Int) : SemPc → Int
  | .loop i => i
  | .passed => M
  | _ => 0

/-- The number of `sem_wait` calls that the leader has completed. -/
def SemBarrier.taken (σ : SemBarrier) : Int :=
  match σ.pc[σ.leader]? with
  | some p => p.waits σ.M
  | none => 0

/-- The invariant of the semaphore barrier of a group of `M` members: the value of the
semaphore is the number of posts minus the number of completed waits, only the leader
is in the loop, and its loop variable stays within `0..M`. -/
structure SemBarrier.Inv (M l : Nat) (σ : SemBarrier) : Prop where
  size : σ.M = M
  lead : σ.leader = l
  rows : σ.pc.length = M
  nonneg : 0 ≤ σ.sem
  count : σ.sem + σ.taken = (σ.pc.countP SemPc.posted : Nat)
  range : ∀ i : Int, σ.pc[l]? = some (SemPc.loop i) → 0 ≤ i ∧ i ≤ M
  others : ∀ (t : Nat) (p : SemPc), t ≠ l → σ.pc[t]? = some p →
    p = SemPc.before ∨ p = SemPc.finished

/-! ## Producer and consumer (pthread_materials/prod_cons_with_mutex.cpp) -/

/-- Where `ProducerFunc` or `ConsumerFunc` stands in a round of its loop: at the loop
test `i <= 10` followed by `sem_wait`, before `pthread_mutex_lock(&lock)`, holding the
lock before its queue operation, before `pthread_mutex_unlock(&lock)`, before
`sem_post`, or after `return NULL`. -/
inductive Stage
  | atWait
  | atLock
  | atQueue
  | atUnlock
  | atPost
  | returned
deriving DecidableEq, Repr

/-- A thread of the program: its loop variable `i` and its position. -/
structure Worker where
  i : Int
  stage : Stage
deriving DecidableEq, Repr

/-- The globals `sem_empty`, `sem_full`, `q` and `lock` (`true` while held), the two
threads, and the items named by the lines "producer produced item" and "consumer
consumed item" printed so far, oldest first. -/
structure ProdCons where
  sem_empty : Int
  sem_full : Int
  q : List Int
  lock : Bool
  producer : Worker
  consumer : Worker
  produced : List Int
  consumed : List Int
deriving DecidableEq, Repr

/-- The state after `init_semaphore()` and the two `pthread_create` calls:
`sem_empty` is 5, `sem_full` is 0, the queue is empty and both loops start at `i = 1`. -/
def init_semaphore : ProdCons :=
  { sem_empty := 5, sem_full := 0, q := [], lock := false
    producer := { i := 1, stage := .atWait }
    consumer := { i := 1, stage := .atWait }
    produced := [], consumed := [] }

/-- The two threads; an event is the next atomic step of the thread named. -/
inductive PcEv
  | producer
  | consumer
deriving DecidableEq, Repr

/-- The next step of `ProducerFunc`: `sem_wait(&sem_empty)` (enabled when the value is
positive), `pthread_mutex_lock` (enabled when the lock is free), `q.push(i)`,
`pthread_mutex_unlock`, and `sem_post(&sem_full)` followed by `i++`. -/
def ProducerFunc (σ : ProdCons) : Option ProdCons :=
  match σ.producer.stage with
  | .atWait =>
    if σ.producer.i ≤ 10 then
      if 0 < σ.sem_empty then
        some { σ with sem_empty := σ.sem_empty - 1
                      producer := { σ.producer with stage := .atLock } }
      else none
    else some { σ with producer := { σ.producer with stage := .returned } }
  | .atLock =>
    if σ.lock then none
    else some { σ with lock := true, producer := { σ.producer with stage := .atQueue } }
  | .atQueue =>
    some { σ with q := σ.q ++ [σ.producer.i], produced := σ.produced ++ [σ.producer.i]
                  producer := { σ.producer with stage := .atUnlock } }
  | .atUnlock =>
    some { σ with lock := false, producer := { σ.producer with stage := .atPost } }
  | .atPost =>
    some { σ with sem_full := σ.sem_full + 1
                  producer := { i := σ.producer.i + 1, stage := .atWait } }
  | .returned => none

/-- The next step of `ConsumerFunc`, like that of the producer with the semaphores
exchanged; its queue operation is `q.front()` followed by `q.pop()`, which has no
defined effect on an empty queue. -/
def ConsumerFunc (σ : ProdCons) : Option ProdCons :=
  match σ.consumer.stage with
  | .atWait =>
    if σ.consumer.i ≤ 10 then
      if 0 < σ.sem_full then
        some { σ with sem_full := σ.sem_full - 1
                      consumer := { σ.consumer with stage := .atLock } }
      else none
    else some { σ with consumer := { σ.consumer with stage := .returned } }
  | .atLock =>
    if σ.lock then none
    else some { σ with lock := true, consumer := { σ.consumer with stage := .atQueue } }
  | .atQueue =>
    match σ.q with
    | [] => none
    | item :: rest =>
      some { σ with q := rest, consumed := σ.consumed ++ [item]
                    consumer := { σ.consumer with stage := .atUnlock } }
  | .atUnlock =>
    some { σ with lock := false, consumer := { σ.consumer with stage := .atPost } }
  | .atPost =>
    some { σ with sem_empty := σ.sem_empty + 1
                  consumer := { i := σ.consumer.i + 1, stage := .atWait } }
  | .returned => none

/-- The step function of the producer and consumer program. -/
def ProdCons.step (σ : ProdCons) : PcEv → Option ProdCons
  | .producer => ProducerFunc σ
  | .consumer => ConsumerFunc σ

/-- The thread has taken a unit from its semaphore and its queue operation is still to
come. -/
def Stage.holds : Stage → Int
  | .atLock => 1
  | .atQueue => 1
  | _ => 0

/-- The thread has done its queue operation and its `sem_post` is still to come. -/
def Stage.owes : Stage → Int
  | .atUnlock => 1
  | .atPost => 1
  | _ => 0

/-- The list `1, 2, ..., n`. -/
def items (n : Nat) : List Int := (List.range n).map (fun (k : Nat) => (k : Int) + 1)

/-- The invariant of the producer and consumer program. -/
structure ProdCons.Inv (σ : ProdCons) : Prop where
  e_nonneg : 0 ≤ σ.sem_empty
  f_nonneg : 0 ≤ σ.sem_full
  e_bal : σ.sem_empty + σ.producer.stage.holds + σ.q.length + σ.consumer.stage.owes = 5
  f_bal : σ.sem_full + σ.consumer.stage.holds + σ.producer.stage.owes = σ.q.length
  fifo : σ.consumed ++ σ.q = σ.produced
  made : σ.produced = items (σ.producer.i - 1 + σ.producer.stage.owes).toNat
  used : (σ.consumed.length : Int) = σ.consumer.i - 1 + σ.consumer.stage.owes
  p_low : 1 ≤ σ.producer.i
  p_high : σ.producer.i ≤ 11
  p_round : σ.producer.stage ≠ .atWait → σ.producer.stage ≠ .returned → σ.producer.i ≤ 10
  c_low : 1 ≤ σ.consumer.i
  c_high : σ.consumer.i ≤ 11
  c_round : σ.consumer.stage ≠ .atWait → σ.consumer.stage ≠ .returned → σ.consumer.i ≤ 10
  c_end : σ.consumer.stage = .returned → σ.consumer.i = 11

/-! ## The logbook of Shadows_of_Small_Health.cpp (lines 145-151 and 168-199) -/

/-- Where a leader stands with respect to its write section: before `sem_wait(&wrt)`,
between `sem_wait(&wrt)` and `sem_post(&wrt)`, or after `sem_post(&wrt)`. -/
inductive SemWriterPc
  | before
  | writing
  | after
deriving DecidableEq, Repr

/-- Where a staff thread stands in `staff_function`: at the test of
`while (simulation_running)`; at `if (!simulation_running) break;`; before the
`sem_wait(&mutex)` of the entry protocol; holding `mutex` before `read_count++`; holding
`mutex` before `sem_wait(&wrt)`, having seen `read_count == 1`; holding `mutex` before
the `sem_post(&mutex)` of the entry protocol; in the read section; holding `mutex`
before `read_count--`; holding `mutex` before `sem_post(&wrt)`, having seen
`read_count == 0`; holding `mutex` before the `sem_post(&mutex)` of the exit protocol;
after `return NULL`. -/
inductive SemReaderPc
  | top
  | slept
  | enter
  | counting
  | first
  | admitted
  | reading
  | leaving
  | last
  | release
  | returned
deriving DecidableEq, Repr

/-- The globals `read_count`, `wrt`, `mutex` (semaphore values), `completed_operations`
and `simulation_running`, and the tables of the leaders and of the staff threads. -/
structure ShadowsBook where
  read_count : Int
  wrt : Int
  mutex : Int
  completed_operations : Int
  simulation_running : Bool
  writers : List SemWriterPc
  readers : List SemReaderPc
deriving DecidableEq, Repr

/-- The state after `sem_init(&wrt, 0, 1)` and `sem_init(&mutex, 0, 1)`, with `g`
leaders that have reached their write section and the two staff threads. -/
def ShadowsBook.init (g : Nat) : ShadowsBook :=
  { read_count := 0, wrt := 1, mutex := 1, completed_operations := 0
    simulation_running := true
    writers := List.replicate g SemWriterPc.before
    readers := List.replicate 2 SemReaderPc.top }

/-- The atomic steps: the next step of leader `t`, the next step of staff thread `t`, and
the assignment `simulation_running = false` of `main`. -/
inductive ShadowsEv
  | writer (t : Nat)
  | reader (t : Nat)
  | stop
deriving DecidableEq, Repr

/-- The next step of a leader in its write section: `sem_wait(&wrt)`, enabled when the
value is positive; then `completed_operations++` and `sem_post(&wrt)`. -/
def ShadowsBook.operative_function (σ : ShadowsBook) (t : Nat) : Option ShadowsBook :=
  match σ.writers[t]? with
  | some .before =>
    if 0 < σ.wrt then
      some { σ with wrt := σ.wrt - 1, writers := σ.writers.set t .writing }
    else none
  | some .writing =>
    some { σ with completed_operations := σ.completed_operations + 1
                  wrt := σ.wrt + 1, writers := σ.writers.set t .after }
  | _ => none

/-- The next step of a staff thread in `staff_function`; every `sem_wait`, `sem_post`,
test and update of `read_count` is a step of its own. -/
def ShadowsBook.staff_function (σ : ShadowsBook) (t : Nat) : Option ShadowsBook :=
  match σ.readers[t]? with
  | some .top =>
    some { σ with
      readers := σ.readers.set t (if σ.simulation_running then .slept else .returned) }
  | some .slept =>
    some { σ with
      readers := σ.readers.set t (if !σ.simulation_running then .returned else .enter) }
  | some .enter =>
    if 0 < σ.mutex then
      some { σ with mutex := σ.mutex - 1, readers := σ.readers.set t .counting }
    else none
  | some .counting =>
    some { σ with
      read_count := σ.read_count + 1
      readers := σ.readers.set t (if σ.read_count + 1 = 1 then .first else .admitted) }
  | some .first =>
    if 0 < σ.wrt then
      some { σ with wrt := σ.wrt - 1, readers := σ.readers.set t .admitted }
    else none
  | some .admitted =>
    some { σ with mutex := σ.mutex + 1, readers := σ.readers.set t .reading }
  | some .reading =>
    if 0 < σ.mutex then
      some { σ with mutex := σ.mutex - 1, readers := σ.readers.set t .leaving }
    else none
  | some .leaving =>
    some { σ with
      read_count := σ.read_count - 1
      readers := σ.readers.set t (if σ.read_count - 1 = 0 then .last else .release) }
  | some .last =>
    some { σ with wrt := σ.wrt + 1, readers := σ.readers.set t .release }
  | some .release =>
    some { σ with mutex := σ.mutex + 1, readers := σ.readers.set t .top }
  | _ => none

/-- The step function of the logbook protocol of Shadows_of_Small_Health.cpp; `main`
clears `simulation_running` after it has joined the operatives, so when every leader
has left its write section. -/
def ShadowsBook.step (σ : ShadowsBook) : ShadowsEv → Option ShadowsBook
  | .writer t => σ.operative_function t
  | .reader t => σ.staff_function t
  | .stop =>
    if σ.writers.all (fun p => decide (p = SemWriterPc.after)) then
      some { σ with simulation_running := false }
    else none

/-- The number of staff threads at position `x`. -/
def ShadowsBook.n (σ : ShadowsBook) (x : SemReaderPc) : Nat :=
  σ.readers.countP (fun p => decide (p = x))

/-- The number of leaders inside the write section. -/
def ShadowsBook.w (σ : ShadowsBook) : Nat :=
  σ.writers.countP (fun p => decide (p = SemWriterPc.writing))

/-- The invariant of the semaphore protocol: `mutex` is 1 minus the number of staff
threads between its `sem_wait` and `sem_post`; `read_count` is the number of staff
threads between the increment and the decrement; `wrt` is 1 minus the number of leaders
writing, and 0 with no leader writing while the staff threads hold it; and the tests
`read_count == 1` and `read_count == 0` are still true while `mutex` is held. -/
structure ShadowsBook.Inv (σ : ShadowsBook) : Prop where
  m_nonneg : 0 ≤ σ.mutex
  m_bal : σ.mutex + ((σ.n .counting + σ.n .first + σ.n .admitted + σ.n .leaving
            + σ.n .last + σ.n .release : Nat) : Int) = 1
  rc : σ.read_count = ((σ.n .first + σ.n .admitted + σ.n .reading + σ.n .leaving : Nat) : Int)
  w_nonneg : 0 ≤ σ.wrt
  w_held : 0 < σ.n .admitted + σ.n .reading + σ.n .leaving + σ.n .last →
    σ.wrt + (σ.w : Int) = 0
  w_free : σ.n .admitted + σ.n .reading + σ.n .leaving + σ.n .last = 0 →
    σ.wrt + (σ.w : Int) = 1
  first_one : 0 < σ.n .first → σ.read_count = 1
  last_zero : 0 < σ.n .last → σ.read_count = 0

/-! ## The logbook of z.cpp (lines 69-108 and 138-157) -/

/-- Where a staff thread stands in `intelligence_reader`: at the test of
`while (operations_completed < N / M)`; before the `pthread_mutex_lock(&logbook_mutex)`
of line 76; holding `logbook_mutex` after a test of `while (is_writer_active)` that was
true, before the unlock of line 80; between that unlock and `pthread_cond_wait`; asleep
in `pthread_cond_wait(&cond, &cond_mutex)`; woken, before the lock of line 84 and the
next test; an active reader, before it reads `operations_completed` (line 90); before
the exit section (line 97); after `return nullptr`. -/
inductive ZReaderPc
  | top
  | arrive
  | checked
  | unlocked
  | asleep
  | woken
  | entered
  | reviewing
  | returned
deriving DecidableEq, Repr

/-- Where a leader stands in the write section of `operative_worker`: before the
`pthread_mutex_lock(&logbook_mutex)` of line 138; holding `logbook_mutex` after a test
of the `while` of line 139 that was true, before the unlock of line 141; between that
unlock and `pthread_cond_wait`; asleep in `pthread_cond_wait(&cond, &cond_mutex)`;
woken, before the lock of line 145 and the next test; writing (lines 148-150); after
the unlock of line 157. -/
inductive ZWriterPc
  | arrive
  | checked
  | unlocked
  | asleep
  | woken
  | writing
  | returned
deriving DecidableEq, Repr

/-- The globals `N`, `M`, `active_readers`, `operations_completed`, `waiting_readers`,
`is_writer_active`, the mutex `logbook_mutex` (`true` while held) and the tables of the
staff threads and of the leaders.  `cond_mutex` is held only inside a step (it is taken
right before `pthread_cond_wait`, which releases it, and released right after the
wake-up), so it is free in every state and has no field. -/
structure ZBook where
  N : Int
  M : Int
  active_readers : Int
  operations_completed : Int
  waiting_readers : Int
  is_writer_active : Bool
  logbook_mutex : Bool
  readers : List ZReaderPc
  writers : List ZWriterPc
deriving DecidableEq, Repr

/-- The state built by `main` of z.cpp for the input `N M`, with the two staff threads
at the top of their loop and every leader (an operative with `id % M == 0`) at the
entry of its write section. -/
def ZBook.init (N M : Int) : ZBook :=
  { N := N, M := M, active_readers := 0, operations_completed := 0, waiting_readers := 0
    is_writer_active := false, logbook_mutex := false
    readers := List.replicate 2 ZReaderPc.top
    writers := List.replicate
      ((List.range N.toNat).countP (fun i => is_leader ((i : Int) + 1) M)) ZWriterPc.arrive }

/-- The effect of `pthread_cond_broadcast(&cond)`: every staff thread and every leader
asleep on `cond` becomes runnable. -/
def ZBook.broadcast (σ : ZBook) : ZBook :=
  { σ with readers := condBroadcast ZReaderPc.asleep ZReaderPc.woken σ.readers
           writers := condBroadcast ZWriterPc.asleep ZWriterPc.woken σ.writers }

/-- The next step of staff thread `t` in `intelligence_reader`.  A step that begins with
`pthread_mutex_lock(&logbook_mutex)` is enabled when the mutex is free; a thread that
is asleep or has returned has no step. -/
def ZBook.intelligence_reader (σ : ZBook) (t : Nat) : Option ZBook :=
  match σ.readers[t]? with
  | some .top =>
    some { σ with
      readers := σ.readers.set t
        (if σ.operations_completed < σ.N.tdiv σ.M then .arrive else .returned) }
  | some .arrive =>
    if σ.logbook_mutex then none
    else if σ.is_writer_active then
      some { σ with waiting_readers := σ.waiting_readers + 1, logbook_mutex := true
                    readers := σ.readers.set t .checked }
    else
      some { σ with waiting_readers := σ.waiting_readers + 1 - 1
                    active_readers := σ.active_readers + 1
                    readers := σ.readers.set t .entered }
  | some .checked =>
    some { σ with logbook_mutex := false, readers := σ.readers.set t .unlocked }
  | some .unlocked =>
    some { σ with readers := σ.readers.set t .asleep }
  | some .woken =>
    if σ.logbook_mutex then none
    else if σ.is_writer_active then
      some { σ with logbook_mutex := true, readers := σ.readers.set t .checked }
    else
      some { σ with waiting_readers := σ.waiting_readers - 1
                    active_readers := σ.active_readers + 1
                    readers := σ.readers.set t .entered }
  | some .entered =>
    if σ.logbook_mutex then none
    else some { σ with readers := σ.readers.set t .reviewing }
  | some .reviewing =>
    if σ.logbook_mutex then none
    else
      let σ1 := { σ with active_readers := σ.active_readers - 1
                         readers := σ.readers.set t .top }
      some (if σ1.active_readers = 0 then σ1.broadcast else σ1)
  | _ => none

/-- The next step of leader `t` in its write section, under the same conventions. -/
def ZBook.operative_worker (σ : ZBook) (t : Nat) : Option ZBook :=
  let test (σ : ZBook) : Option ZBook :=
    if σ.logbook_mutex then none
    else if 0 < σ.active_readers ∨ 0 < σ.waiting_readers ∨ σ.is_writer_active = true then
      some { σ with logbook_mutex := true, writers := σ.writers.set t .checked }
    else
      some { σ with is_writer_active := true, writers := σ.writers.set t .writing }
  match σ.writers[t]? with
  | some .arrive => test σ
  | some .woken => test σ
  | some .checked =>
    some { σ with logbook_mutex := false, writers := σ.writers.set t .unlocked }
  | some .unlocked =>
    some { σ with writers := σ.writers.set t .asleep }
  | some .writing =>
    if σ.logbook_mutex then none
    else
      some (ZBook.broadcast
        { σ with operations_completed := σ.operations_completed + 1
                 is_writer_active := false
                 writers := σ.writers.set t .returned })
  | _ => none

/-- The atomic steps of the logbook protocol of z.cpp: the next step of a staff thread,
the next step of a leader, and a spurious return from `pthread_cond_wait`. -/
inductive ZEv
  | reader (t : Nat)
  | writer (t : Nat)
  | spuriousReader (t : Nat)
  | spuriousWriter (t : Nat)
deriving DecidableEq, Repr

/-- The step function of the logbook protocol of z.cpp. -/
def ZBook.step (σ : ZBook) : ZEv → Option ZBook
  | .reader t => σ.intelligence_reader t
  | .writer t => σ.operative_worker t
  | .spuriousReader t =>
    if σ.readers[t]? = some .asleep then
      some { σ with readers := σ.readers.set t .woken }
    else none
  | .spuriousWriter t =>
    if σ.writers[t]? = some .asleep then
      some { σ with writers := σ.writers.set t .woken }
    else none

/-! # Theorems -/

/-! ## Counting threads in a thread table -/

theorem runFrom_invariant {σ ε : Type} (step : σ → ε → Option σ) (P : σ → Prop)
    (hstep : ∀ s e s', P s → step s e = some s' → P s') :
    ∀ (tr : List ε) (s s' : σ), P s → runFrom step s tr = some s' → P s' := by
  intro tr
  induction tr with
  | nil =>
    intro s s' hs h
    simp only [runFrom, Option.some.injEq] at h
    exact h ▸ hs
  | cons e es ih =>
    intro s s' hs h
    simp only [runFrom] at h
    cases hse : step s e with
    | none => simp [hse] at h
    | some s1 =>
      simp only [hse] at h
      exact ih s1 s' (hstep s e s1 hs hse) h

theorem countP_set_add {α : Type} (p : α → Bool) :
    ∀ (l : List α) (i : Nat) (a b : α), l[i]? = some a →
      List.countP p (l.set i b) + (if p a = true then 1 else 0)
        = List.countP p l + (if p b = true then 1 else 0) := by
  intro l
  induction l with
  | nil => intro i a b h; simp at h
  | cons x xs ih =>
    intro i a b h
    cases i with
    | zero =>
      simp only [List.getElem?_cons_zero, Option.some.injEq] at h
      subst h
      simp only [List.set_cons_zero, List.countP_cons]
      omega
    | succ j =>
      simp only [List.getElem?_cons_succ] at h
      have := ih j a b h
      simp only [List.set_cons_succ, List.countP_cons]
      omega

theorem countP_condBroadcast {α : Type} [DecidableEq α] (p : α → Bool) (asleep woken : α)
    (hp : p asleep = p woken) (l : List α) :
    List.countP p (condBroadcast asleep woken l) = List.countP p l := by
  unfold condBroadcast
  rw [List.countP_map]
  congr 1
  funext x
  by_cases hx : x = asleep
  · simp [hx, hp]
  · simp [hx]

theorem countP_condSignal {α : Type} [DecidableEq α] (p : α → Bool) (asleep woken : α)
    (hp : p asleep = p woken) (w : Nat) (l l' : List α)
    (h : condSignal asleep woken w l = some l') :
    List.countP p l' = List.countP p l := by
  unfold condSignal at h
  split at h
  · split at h
    · rename_i hw
      simp only [Option.some.injEq] at h
      subst h
      have := countP_set_add p l w asleep woken hw
      rw [hp] at this
      omega
    · simp at h
  · simp only [Option.some.injEq] at h
    rw [h]

theorem countP_le_one_unique {α : Type} (p : α → Bool) :
    ∀ (l : List α) (i j : Nat) (a b : α), List.countP p l ≤ 1 →
      l[i]? = some a → p a = true → l[j]? = some b → p b = true → i = j := by
  intro l
  induction l with
  | nil => intro i j a b _ h; simp at h
  | cons x xs ih =>
    intro i j a b hc hi ha hj hb
    have hpos : ∀ (n : Nat) (c : α), xs[n]? = some c → p c = true → 0 < List.countP p xs := by
      intro n c hn hpc
      exact List.countP_pos_iff.mpr ⟨c, List.getElem?_mem hn, hpc⟩
    rw [List.countP_cons] at hc
    cases i with
    | zero =>
      cases j with
      | zero => rfl
      | succ j' =>
        simp only [List.getElem?_cons_zero, Option.some.injEq] at hi
        simp only [List.getElem?_cons_succ] at hj
        have := hpos j' b hj hb
        subst hi
        simp only [ha, if_true] at hc
        omega
    | succ i' =>
      cases j with
      | zero =>
        simp only [List.getElem?_cons_zero, Option.some.injEq] at hj
        simp only [List.getElem?_cons_succ] at hi
        have := hpos i' a hi ha
        subst hj
        simp only [hb, if_true] at hc
        omega
      | succ j' =>
        simp only [List.getElem?_cons_succ] at hi hj
        have hc' : List.countP p xs ≤ 1 := by omega
        rw [ih i' j' a b hc' hi ha hj hb]

theorem countP_pos_index {α : Type} (p : α → Bool) (l : List α) :
    0 < List.countP p l ↔ ∃ (i : Nat) (a : α), l[i]? = some a ∧ p a = true := by
  rw [List.countP_pos_iff]
  constructor
  · rintro ⟨a, hmem, hpa⟩
    obtain ⟨i, hi⟩ := List.mem_iff_getElem?.mp hmem
    exact ⟨i, a, hi, hpa⟩
  · rintro ⟨i, a, hi, hpa⟩
    exact ⟨a, List.getElem?_mem hi, hpa⟩

theorem set_origin {α : Type} (l : List α) (j i : Nat) (b x : α)
    (h : (l.set j b)[i]? = some x) (hx : x ≠ b) : l[i]? = some x := by
  rw [List.getElem?_set] at h
  split at h
  · split at h
    · simp only [Option.some.injEq] at h
      exact absurd h.symm hx
    · cases h
  · exact h

theorem condBroadcast_origin {α : Type} [DecidableEq α] (asleep woken : α) (l : List α)
    (i : Nat) (x : α) (h : (condBroadcast asleep woken l)[i]? = some x) (hx : x ≠ woken) :
    l[i]? = some x := by
  unfold condBroadcast at h
  rw [List.getElem?_map] at h
  obtain ⟨y, hy, hyx⟩ := Option.map_eq_some'.mp h
  by_cases hya : y = asleep
  · simp only [hya, if_true] at hyx
    exact absurd hyx.symm hx
  · simp only [hya, if_false] at hyx
    rw [hy, hyx]

theorem condSignal_origin {α : Type} [DecidableEq α] (asleep woken : α) (w : Nat)
    (l l' : List α) (hs : condSignal asleep woken w l = some l')
    (i : Nat) (x : α) (h : l'[i]? = some x) (hx : x ≠ woken) : l[i]? = some x := by
  unfold condSignal at hs
  split at hs
  · split at hs
    · simp only [Option.some.injEq] at hs
      subst hs
      exact set_origin l w i woken x h hx
    · cases hs
  · simp only [Option.some.injEq] at hs
    subst hs
    exact h

theorem runFrom_append {σ ε : Type} (step : σ → ε → Option σ) :
    ∀ (pre post : List ε) (s s' : σ), runFrom step s (pre ++ post) = some s' →
      ∃ m, runFrom step s pre = some m ∧ runFrom step m post = some s' := by
  intro pre
  induction pre with
  | nil => intro post s s' h; exact ⟨s, rfl, h⟩
  | cons e es ih =>
    intro post s s' h
    simp only [List.cons_append, runFrom] at h ⊢
    cases hse : step s e with
    | none => simp [hse] at h
    | some s1 =>
      simp only [hse] at h ⊢
      exact ih post s1 s' h

/-! ## Station -/

theorem StationSys.step_holders (σ σ' : StationSys) (e : StationEv)
    (hinv : σ.holders = if σ.station.in_use then 1 else 0)
    (h : σ.step e = some σ') :
    σ'.holders = if σ'.station.in_use then 1 else 0 := by
  have hpass : ∀ (t : Nat) (a : StationPc), σ.pc[t]? = some a → a ≠ StationPc.holding →
      (σ.pass t).holders = if (σ.pass t).station.in_use then 1 else 0 := by
    intro t a ht ha
    have hadd := countP_set_add (fun p => decide (p = StationPc.holding)) σ.pc t a
    unfold StationSys.holders at hinv ⊢
    cases hu : σ.station.in_use with
    | true =>
      have := hadd StationPc.asleep ht
      simp only [hu, if_true] at hinv
      simp [StationSys.pass, Station.acquire, hu, ha] at this ⊢
      omega
    | false =>
      have := hadd StationPc.holding ht
      simp only [hu, Bool.false_eq_true, if_false] at hinv
      simp [StationSys.pass, Station.acquire, hu, ha] at this ⊢
      omega
  cases e with
  | acquire t =>
    simp only [StationSys.step] at h
    split at h
    · rename_i ht
      simp only [Option.some.injEq] at h
      subst h
      exact hpass t _ ht (by decide)
    · simp at h
  | spurious t =>
    simp only [StationSys.step] at h
    split at h
    · rename_i ht
      simp only [Option.some.injEq] at h
      subst h
      have := countP_set_add (fun p => decide (p = StationPc.holding)) σ.pc t _
        StationPc.woken ht
      unfold StationSys.holders at hinv ⊢
      simp at this ⊢
      omega
    · simp at h
  | recheck t =>
    simp only [StationSys.step] at h
    split at h
    · rename_i ht
      simp only [Option.some.injEq] at h
      subst h
      exact hpass t _ ht (by decide)
    · simp at h
  | release t =>
    simp only [StationSys.step] at h
    split at h
    · rename_i ht
      simp only [Option.some.injEq] at h
      subst h
      have := countP_set_add (fun p => decide (p = StationPc.holding)) σ.pc t _
        StationPc.idle ht
      unfold StationSys.holders at hinv ⊢
      rw [countP_condBroadcast _ _ _ (by decide)]
      simp at this
      simp only [Station.release, Bool.false_eq_true, if_false]
      split at hinv <;> omega
    · simp at h

theorem StationSys.reachable_holders (k : Nat) (tr : List StationEv) (σ : StationSys)
    (h : runFrom StationSys.step (StationSys.init k) tr = some σ) :
    σ.holders = if σ.station.in_use then 1 else 0 := by
  refine runFrom_invariant StationSys.step
    (fun s => s.holders = if s.station.in_use then 1 else 0)
    (fun s e s' hs hstep => StationSys.step_holders s s' e hs hstep) tr _ σ ?_ h
  simp [StationSys.init, StationSys.holders, Station.new, List.countP_replicate]

/-! ## Logbook -/

theorem LogbookSys.book_inv_init (k : Nat) : (LogbookSys.init k).Inv := by
  constructor <;>
    simp [LogbookSys.init, Logbook.new, List.countP_replicate, LogbookPc.isReading,
      LogbookPc.isWaitingWriter, LogbookPc.isWriting]

theorem LogbookSys.inv_of_counts (σ σ' : LogbookSys) (hinv : σ.Inv)
    (hb : σ'.book.reader_count = σ.book.reader_count ∧
      σ'.book.waiting_writers = σ.book.waiting_writers ∧ σ'.book.writing = σ.book.writing)
    (hR : σ'.pc.countP LogbookPc.isReading = σ.pc.countP LogbookPc.isReading)
    (hW : σ'.pc.countP LogbookPc.isWaitingWriter = σ.pc.countP LogbookPc.isWaitingWriter)
    (hX : σ'.pc.countP LogbookPc.isWriting = σ.pc.countP LogbookPc.isWriting) : σ'.Inv := by
  obtain ⟨h1, h2, h3⟩ := hb
  constructor
  · rw [h1, hR]; exact hinv.readers
  · rw [h2, hW]; exact hinv.waiters
  · rw [h3, hX]; exact hinv.writers
  · rw [h3, h1]; exact hinv.excl

theorem LogbookSys.readPass_inv (σ : LogbookSys) (t : Nat) (a : LogbookPc) (hinv : σ.Inv)
    (ht : σ.pc[t]? = some a) (ha : a = LogbookPc.idle ∨ a = LogbookPc.rWoken) :
    (σ.readPass t).Inv := by
  obtain ⟨h1, h2, h3, h4⟩ := hinv
  by_cases hg : (σ.book.writing || decide (σ.book.waiting_writers > 0)) = true
  · have e : σ.book.start_reading = (σ.book, false) := by
      simp only [Logbook.start_reading, hg, if_true]
    have eR := countP_set_add LogbookPc.isReading σ.pc t a LogbookPc.rAsleep ht
    have eW := countP_set_add LogbookPc.isWaitingWriter σ.pc t a LogbookPc.rAsleep ht
    have eX := countP_set_add LogbookPc.isWriting σ.pc t a LogbookPc.rAsleep ht
    simp only [LogbookSys.readPass, e, Bool.false_eq_true, if_false]
    rcases ha with ha | ha <;> subst ha <;>
      simp only [LogbookPc.isReading, LogbookPc.isWaitingWriter, LogbookPc.isWriting,
        Bool.false_eq_true, if_false, Nat.add_zero] at eR eW eX <;>
      constructor <;> simp only [eR, eW, eX] <;> assumption
  · have e : σ.book.start_reading
        = ({ σ.book with reader_count := σ.book.reader_count + 1 }, true) := by
      simp only [Logbook.start_reading, hg, Bool.false_eq_true, if_false]
    have eR := countP_set_add LogbookPc.isReading σ.pc t a LogbookPc.reading ht
    have eW := countP_set_add LogbookPc.isWaitingWriter σ.pc t a LogbookPc.reading ht
    have eX := countP_set_add LogbookPc.isWriting σ.pc t a LogbookPc.reading ht
    have hw : σ.book.writing = false := by
      cases hwr : σ.book.writing with
      | false => rfl
      | true => simp [hwr] at hg
    simp only [LogbookSys.readPass, e, if_true]
    rcases ha with ha | ha <;> subst ha <;>
      simp only [LogbookPc.isReading, LogbookPc.isWaitingWriter, LogbookPc.isWriting,
        Bool.false_eq_true, if_false, if_true, Nat.add_zero] at eR eW eX <;>
      constructor <;> simp only [eR, eW, eX] <;>
      first
        | assumption
        | (push_cast; omega)
        | (intro hc; rw [hw] at hc; cases hc)

theorem LogbookSys.writePass_inv (σ : LogbookSys) (t : Nat) (a : LogbookPc)
    (ht : σ.pc[t]? = some a) (ha : a = LogbookPc.idle ∨ a = LogbookPc.wWoken)
    (h1 : σ.book.reader_count = (σ.pc.countP LogbookPc.isReading : Nat))
    (h2 : σ.book.waiting_writers
      = (σ.pc.countP LogbookPc.isWaitingWriter : Nat) + (if a = LogbookPc.idle then 1 else 0))
    (h3 : σ.pc.countP LogbookPc.isWriting = if σ.book.writing then 1 else 0)
    (h4 : σ.book.writing = true → σ.book.reader_count = 0) : (σ.writePass t).Inv := by
  by_cases hg : (decide (σ.book.reader_count > 0) || σ.book.writing) = true
  · have e : σ.book.start_writing_pass = (σ.book, false) := by
      simp only [Logbook.start_writing_pass, hg, if_true]
    have eR := countP_set_add LogbookPc.isReading σ.pc t a LogbookPc.wAsleep ht
    have eW := countP_set_add LogbookPc.isWaitingWriter σ.pc t a LogbookPc.wAsleep ht
    have eX := countP_set_add LogbookPc.isWriting σ.pc t a LogbookPc.wAsleep ht
    simp only [LogbookSys.writePass, e, Bool.false_eq_true, if_false]
    rcases ha with ha | ha <;> subst ha <;>
      simp only [LogbookPc.isReading, LogbookPc.isWaitingWriter, LogbookPc.isWriting,
        Bool.false_eq_true, if_false, if_true, Nat.add_zero, reduceCtorEq] at eR eW eX h2 <;>
      constructor <;> simp only [eR, eX] <;>
      first
        | assumption
        | omega
  · have e : σ.book.start_writing_pass
        = ({ σ.book with waiting_writers := σ.book.waiting_writers - 1, writing := true },
            true) := by
      simp only [Logbook.start_writing_pass, hg, Bool.false_eq_true, if_false]
    have eR := countP_set_add LogbookPc.isReading σ.pc t a LogbookPc.writing ht
    have eW := countP_set_add LogbookPc.isWaitingWriter σ.pc t a LogbookPc.writing ht
    have eX := countP_set_add LogbookPc.isWriting σ.pc t a LogbookPc.writing ht
    have hw : σ.book.writing = false := by
      cases hwr : σ.book.writing with
      | false => rfl
      | true => simp [hwr] at hg
    have hr : ¬ σ.book.reader_count > 0 := by
      intro hc; simp [hc] at hg
    simp only [hw, Bool.false_eq_true, if_false] at h3
    simp only [LogbookSys.writePass, e, if_true]
    rcases ha with ha | ha <;> subst ha <;>
      simp only [LogbookPc.isReading, LogbookPc.isWaitingWriter, LogbookPc.isWriting,
        Bool.false_eq_true, if_false, if_true, Nat.add_zero, reduceCtorEq] at eR eW eX h2 <;>
      constructor <;> simp only [eR, eX, if_true] <;>
      first
        | assumption
        | omega

theorem LogbookSys.signal_inv (σ : LogbookSys) (b : Logbook) (pcs : List LogbookPc) (w : Nat)
    (hinv : LogbookSys.Inv { book := b, pc := pcs })
    (h : (condSignal LogbookPc.wAsleep LogbookPc.wWoken w pcs).map
      (fun q => ({ book := b, pc := q } : LogbookSys)) = some σ) : σ.Inv := by
  obtain ⟨q, hq, rfl⟩ := Option.map_eq_some'.mp h
  exact LogbookSys.inv_of_counts _ _ hinv ⟨rfl, rfl, rfl⟩
    (countP_condSignal LogbookPc.isReading .wAsleep .wWoken rfl w pcs q hq)
    (countP_condSignal LogbookPc.isWaitingWriter .wAsleep .wWoken rfl w pcs q hq)
    (countP_condSignal LogbookPc.isWriting .wAsleep .wWoken rfl w pcs q hq)

theorem LogbookSys.book_step_inv (σ σ' : LogbookSys) (e : LogbookEv) (hinv : σ.Inv)
    (h : σ.step e = some σ') : σ'.Inv := by
  cases e with
  | start_reading t =>
    simp only [LogbookSys.step] at h
    split at h
    · rename_i ht
      simp only [Option.some.injEq] at h
      exact h ▸ LogbookSys.readPass_inv σ t _ hinv ht (Or.inl rfl)
    · simp at h
  | recheck_read t =>
    simp only [LogbookSys.step] at h
    split at h
    · rename_i ht
      simp only [Option.some.injEq] at h
      exact h ▸ LogbookSys.readPass_inv σ t _ hinv ht (Or.inr rfl)
    · simp at h
  | start_writing t =>
    simp only [LogbookSys.step] at h
    split at h
    · rename_i ht
      simp only [Option.some.injEq] at h
      obtain ⟨h1, h2, h3, h4⟩ := hinv
      refine h ▸ LogbookSys.writePass_inv _ t _ ht (Or.inl rfl) h1 ?_ h3 h4
      simp only [Logbook.start_writing_enter, if_true]
      omega
    · simp at h
  | recheck_write t =>
    simp only [LogbookSys.step] at h
    split at h
    · rename_i ht
      simp only [Option.some.injEq] at h
      obtain ⟨h1, h2, h3, h4⟩ := hinv
      refine h ▸ LogbookSys.writePass_inv _ t _ ht (Or.inr rfl) h1 ?_ h3 h4
      simp only [reduceCtorEq, if_false]
      omega
    · simp at h
  | stop_reading t w =>
    simp only [LogbookSys.step] at h
    split at h
    · rename_i ht
      obtain ⟨h1, h2, h3, h4⟩ := hinv
      have eR := countP_set_add LogbookPc.isReading σ.pc t _ LogbookPc.idle ht
      have eW := countP_set_add LogbookPc.isWaitingWriter σ.pc t _ LogbookPc.idle ht
      have eX := countP_set_add LogbookPc.isWriting σ.pc t _ LogbookPc.idle ht
      simp only [LogbookPc.isReading, LogbookPc.isWaitingWriter, LogbookPc.isWriting,
        Bool.false_eq_true, if_false, if_true, Nat.add_zero] at eR eW eX
      have hw : σ.book.writing = false := by
        cases hwr : σ.book.writing with
        | false => rfl
        | true => have := h4 hwr; omega
      have hmid : LogbookSys.Inv
          { book := σ.book.stop_reading.1, pc := σ.pc.set t LogbookPc.idle } := by
        constructor <;> simp only [Logbook.stop_reading, eW, eX]
        · omega
        · assumption
        · assumption
        · intro hc; rw [hw] at hc; cases hc
      split at h
      · exact LogbookSys.signal_inv σ' _ _ w hmid h
      · simp only [Option.some.injEq] at h
        exact h ▸ hmid
    · simp at h
  | stop_writing t w =>
    simp only [LogbookSys.step] at h
    split at h
    · rename_i ht
      obtain ⟨h1, h2, h3, h4⟩ := hinv
      have eR := countP_set_add LogbookPc.isReading σ.pc t _ LogbookPc.idle ht
      have eW := countP_set_add LogbookPc.isWaitingWriter σ.pc t _ LogbookPc.idle ht
      have eX := countP_set_add LogbookPc.isWriting σ.pc t _ LogbookPc.idle ht
      simp only [LogbookPc.isReading, LogbookPc.isWaitingWriter, LogbookPc.isWriting,
        Bool.false_eq_true, if_false, if_true, Nat.add_zero] at eR eW eX
      have hmid : LogbookSys.Inv
          { book := σ.book.stop_writing.1, pc := σ.pc.set t LogbookPc.idle } := by
        constructor <;> simp only [Logbook.stop_writing, eR, eW]
        · assumption
        · assumption
        · simp only [Bool.false_eq_true, if_false]
          split at h3 <;> omega
        · intro hc; cases hc
      split at h
      · exact LogbookSys.signal_inv σ' _ _ w hmid h
      · simp only [Option.some.injEq] at h
        subst h
        exact LogbookSys.inv_of_counts _ _ hmid ⟨rfl, rfl, rfl⟩
          (countP_condBroadcast LogbookPc.isReading .rAsleep .rWoken rfl _)
          (countP_condBroadcast LogbookPc.isWaitingWriter .rAsleep .rWoken rfl _)
          (countP_condBroadcast LogbookPc.isWriting .rAsleep .rWoken rfl _)
    · simp at h
  | spurious t =>
    simp only [LogbookSys.step] at h
    split at h
    · rename_i ht
      simp only [Option.some.injEq] at h
      subst h
      have eR := countP_set_add LogbookPc.isReading σ.pc t _ LogbookPc.rWoken ht
      have eW := countP_set_add LogbookPc.isWaitingWriter σ.pc t _ LogbookPc.rWoken ht
      have eX := countP_set_add LogbookPc.isWriting σ.pc t _ LogbookPc.rWoken ht
      simp only [LogbookPc.isReading, LogbookPc.isWaitingWriter, LogbookPc.isWriting,
        Bool.false_eq_true, if_false, if_true, Nat.add_zero] at eR eW eX
      exact LogbookSys.inv_of_counts _ _ hinv ⟨rfl, rfl, rfl⟩ eR eW eX
    · rename_i ht
      simp only [Option.some.injEq] at h
      subst h
      have eR := countP_set_add LogbookPc.isReading σ.pc t _ LogbookPc.wWoken ht
      have eW := countP_set_add LogbookPc.isWaitingWriter σ.pc t _ LogbookPc.wWoken ht
      have eX := countP_set_add LogbookPc.isWriting σ.pc t _ LogbookPc.wWoken ht
      simp only [LogbookPc.isReading, LogbookPc.isWaitingWriter, LogbookPc.isWriting,
        Bool.false_eq_true, if_false, if_true, Nat.add_zero] at eR eW eX
      exact LogbookSys.inv_of_counts _ _ hinv ⟨rfl, rfl, rfl⟩ eR (Nat.add_right_cancel eW) eX
    · simp at h

theorem LogbookSys.book_reachable_inv (k : Nat) (tr : List LogbookEv) (σ : LogbookSys)
    (h : runFrom LogbookSys.step (LogbookSys.init k) tr = some σ) : σ.Inv :=
  runFrom_invariant LogbookSys.step LogbookSys.Inv
    (fun s e s' hs hstep => LogbookSys.book_step_inv s s' e hs hstep) tr _ σ
    (LogbookSys.book_inv_init k) h

theorem LogbookSys.step_book (σ σ' : LogbookSys) (e : LogbookEv) (h : σ.step e = some σ') :
    σ'.book =
      match e with
      | .start_reading _ => σ.book.start_reading.1
      | .recheck_read _ => σ.book.start_reading.1
      | .stop_reading _ _ => σ.book.stop_reading.1
      | .start_writing _ => σ.book.start_writing_enter.start_writing_pass.1
      | .recheck_write _ => σ.book.start_writing_pass.1
      | .stop_writing _ _ => σ.book.stop_writing.1
      | .spurious _ => σ.book := by
  cases e <;> simp only [LogbookSys.step] at h <;> split at h <;>
    first
      | (simp only [Option.some.injEq] at h; subst h; rfl)
      | (cases h)
      | (split at h
         · obtain ⟨q, _, rfl⟩ := Option.map_eq_some'.mp h
           rfl
         · simp only [Option.some.injEq] at h
           subst h
           rfl)

theorem LogbookSys.step_gain (σ σ' : LogbookSys) (e : LogbookEv) (h : σ.step e = some σ')
    (t : Nat) (x : LogbookPc) (hx : x = LogbookPc.reading ∨ x = LogbookPc.writing)
    (hnew : σ'.pc[t]? = some x) (hold : σ.pc[t]? ≠ some x) :
    (x = LogbookPc.reading ∧ (e = .start_reading t ∨ e = .recheck_read t)
        ∧ σ.book.start_reading.2 = true) ∨
    (x = LogbookPc.writing ∧ (e = .start_writing t ∧ σ.book.start_writing_enter.start_writing_pass.2 = true
        ∨ e = .recheck_write t ∧ σ.book.start_writing_pass.2 = true)) := by
  have hset : ∀ (u : Nat) (b : LogbookPc) (pcs : List LogbookPc),
      pcs[t]? = some x → (pcs = σ.pc.set u b) → x ≠ b → False := by
    intro u b pcs h1 h2 h3
    subst h2
    exact hold (set_origin σ.pc u t b x h1 h3)
  have hxw : x ≠ LogbookPc.wWoken := by rcases hx with rfl | rfl <;> decide
  have hxr : x ≠ LogbookPc.rWoken := by rcases hx with rfl | rfl <;> decide
  have hxi : x ≠ LogbookPc.idle := by rcases hx with rfl | rfl <;> decide
  have hpass : ∀ (u : Nat) (g : Bool) (a b : LogbookPc),
      (σ.pc.set u (if g = true then a else b))[t]? = some x → x ≠ b → u = t ∧ g = true ∧ x = a := by
    intro u g a b h1 hb
    cases g with
    | false =>
      simp only [Bool.false_eq_true, if_false] at h1
      exact absurd (set_origin σ.pc u t b x h1 hb) hold
    | true =>
      simp only [if_true] at h1
      by_cases hxa : x = a
      · refine ⟨?_, rfl, hxa⟩
        by_contra hne
        rw [List.getElem?_set_ne hne] at h1
        exact hold h1
      · exact absurd (set_origin σ.pc u t a x h1 hxa) hold
  cases e with
  | start_reading u =>
    simp only [LogbookSys.step] at h
    split at h
    · simp only [Option.some.injEq] at h
      subst h
      obtain ⟨rfl, hg, hxa⟩ := hpass u _ _ _ hnew (by rcases hx with rfl | rfl <;> decide)
      exact Or.inl ⟨hxa, Or.inl rfl, hg⟩
    · cases h
  | recheck_read u =>
    simp only [LogbookSys.step] at h
    split at h
    · simp only [Option.some.injEq] at h
      subst h
      obtain ⟨rfl, hg, hxa⟩ := hpass u _ _ _ hnew (by rcases hx with rfl | rfl <;> decide)
      exact Or.inl ⟨hxa, Or.inr rfl, hg⟩
    · cases h
  | start_writing u =>
    simp only [LogbookSys.step] at h
    split at h
    · simp only [Option.some.injEq] at h
      subst h
      obtain ⟨rfl, hg, hxa⟩ := hpass u _ _ _ hnew (by rcases hx with rfl | rfl <;> decide)
      exact Or.inr ⟨hxa, Or.inl ⟨rfl, hg⟩⟩
    · cases h
  | recheck_write u =>
    simp only [LogbookSys.step] at h
    split at h
    · simp only [Option.some.injEq] at h
      subst h
      obtain ⟨rfl, hg, hxa⟩ := hpass u _ _ _ hnew (by rcases hx with rfl | rfl <;> decide)
      exact Or.inr ⟨hxa, Or.inr ⟨rfl, hg⟩⟩
    · cases h
  | stop_reading u w =>
    exfalso
    simp only [LogbookSys.step] at h
    split at h
    · split at h
      · obtain ⟨q, hq, rfl⟩ := Option.map_eq_some'.mp h
        exact hset u _ _ (condSignal_origin _ _ w _ q hq t x hnew hxw) rfl hxi
      · simp only [Option.some.injEq] at h
        subst h
        exact hset u _ _ hnew rfl hxi
    · cases h
  | stop_writing u w =>
    exfalso
    simp only [LogbookSys.step] at h
    split at h
    · split at h
      · obtain ⟨q, hq, rfl⟩ := Option.map_eq_some'.mp h
        exact hset u _ _ (condSignal_origin _ _ w _ q hq t x hnew hxw) rfl hxi
      · simp only [Option.some.injEq] at h
        subst h
        exact hset u _ _ (condBroadcast_origin _ _ _ t x hnew hxr) rfl hxi
    · cases h
  | spurious u =>
    exfalso
    simp only [LogbookSys.step] at h
    split at h
    · simp only [Option.some.injEq] at h
      subst h
      exact hset u _ _ hnew rfl hxr
    · simp only [Option.some.injEq] at h
      subst h
      exact hset u _ _ hnew rfl hxw
    · cases h

theorem LogbookSys.step_read_self (σ σ' : LogbookSys) (t : Nat) (e : LogbookEv)
    (he : e = .start_reading t ∨ e = .recheck_read t) (h : σ.step e = some σ') :
    σ' = σ.readPass t ∧ t < σ.pc.length := by
  rcases he with rfl | rfl <;> simp only [LogbookSys.step] at h <;> split at h
  · rename_i ht
    simp only [Option.some.injEq] at h
    exact ⟨h.symm, (List.getElem?_eq_some_iff.mp ht).1⟩
  · cases h
  · rename_i ht
    simp only [Option.some.injEq] at h
    exact ⟨h.symm, (List.getElem?_eq_some_iff.mp ht).1⟩
  · cases h

theorem Logbook.start_reading_granted (b : Logbook) (h : b.start_reading.2 = true) :
    b.writing = false ∧ ¬ b.waiting_writers > 0 ∧
      b.start_reading.1 = { b with reader_count := b.reader_count + 1 } := by
  unfold Logbook.start_reading at h ⊢
  split at h
  · cases h
  · rename_i hg
    simp only [Bool.or_eq_true, decide_eq_true_eq, not_or, Bool.not_eq_true] at hg
    simp only [Bool.or_eq_true, decide_eq_true_eq, hg.1, Bool.false_eq_true, hg.2, or_self,
      if_false, and_self, not_false_eq_true]

theorem Logbook.start_reading_blocked (b : Logbook)
    (h : b.writing = true ∨ b.waiting_writers > 0) : b.start_reading = (b, false) := by
  unfold Logbook.start_reading
  have : (b.writing || decide (b.waiting_writers > 0)) = true := by
    rcases h with h | h <;> simp [h]
  simp only [this, if_true]

theorem Logbook.start_writing_pass_granted (b : Logbook) (h : b.start_writing_pass.2 = true) :
    ¬ b.reader_count > 0 ∧ b.writing = false ∧
      b.start_writing_pass.1
        = { b with waiting_writers := b.waiting_writers - 1, writing := true } := by
  unfold Logbook.start_writing_pass at h ⊢
  split at h
  · cases h
  · rename_i hg
    simp only [Bool.or_eq_true, decide_eq_true_eq, not_or, Bool.not_eq_true] at hg
    simp only [Bool.or_eq_true, decide_eq_true_eq, hg.1, hg.2, Bool.false_eq_true, or_self,
      if_false, and_self, not_false_eq_true]

theorem Logbook.start_writing_pass_blocked (b : Logbook) (h : b.start_writing_pass.2 = false) :
    b.start_writing_pass.1 = b := by
  unfold Logbook.start_writing_pass at h ⊢
  split at h
  · rename_i hg
    simp only [hg, if_true]
  · cases h

theorem LogbookSys.step_write_self (σ σ' : LogbookSys) (t : Nat) (e : LogbookEv)
    (he : e = .start_writing t ∨ e = .recheck_write t) (h : σ.step e = some σ') :
    σ'.pc[t]? = some (if σ'.book.writing = true ∧ σ.book.writing = false
      then LogbookPc.writing else LogbookPc.wAsleep) := by
  have hpass : ∀ τ : LogbookSys, τ.book.writing = σ.book.writing → t < τ.pc.length →
      σ' = τ.writePass t →
      σ'.pc[t]? = some (if σ'.book.writing = true ∧ σ.book.writing = false
        then LogbookPc.writing else LogbookPc.wAsleep) := by
    intro τ hw hlen hσ'
    subst hσ'
    cases hg : τ.book.start_writing_pass.2 with
    | false =>
      have hb := Logbook.start_writing_pass_blocked _ hg
      simp only [LogbookSys.writePass, hg, hb, Bool.false_eq_true, if_false,
        List.getElem?_set_self hlen, hw]
      cases σ.book.writing <;> simp
    | true =>
      obtain ⟨_, h2, h3⟩ := Logbook.start_writing_pass_granted _ hg
      simp only [LogbookSys.writePass, hg, h3, if_true, List.getElem?_set_self hlen]
      rw [← hw, h2]
      simp
  rcases he with rfl | rfl <;> simp only [LogbookSys.step] at h <;> split at h
  · rename_i ht
    simp only [Option.some.injEq] at h
    exact hpass { book := σ.book.start_writing_enter, pc := σ.pc } rfl
      (List.getElem?_eq_some_iff.mp ht).1 h.symm
  · cases h
  · rename_i ht
    simp only [Option.some.injEq] at h
    exact hpass σ rfl (List.getElem?_eq_some_iff.mp ht).1 h.symm
  · cases h

theorem LogbookSys.step_waiting (σ σ' : LogbookSys) (e : LogbookEv) (h : σ.step e = some σ') :
    σ'.book.waiting_writers = σ.book.waiting_writers +
      match e with
      | .start_writing t => if σ'.pc[t]? = some LogbookPc.writing then 0 else 1
      | .recheck_write t => if σ'.pc[t]? = some LogbookPc.writing then -1 else 0
      | _ => 0 := by
  have hbook := LogbookSys.step_book σ σ' e h
  cases e with
  | start_writing t =>
    have hself := LogbookSys.step_write_self σ σ' t _ (Or.inl rfl) h
    simp only [] at hbook ⊢
    rw [hself, hbook]
    cases hg : σ.book.start_writing_enter.start_writing_pass.2 with
    | false =>
      have hb := Logbook.start_writing_pass_blocked _ hg
      have hne : ¬ (σ.book.start_writing_enter.writing = true ∧ σ.book.writing = false) := by
        simp [Logbook.start_writing_enter]
      simp [hb, hne]
      simp [Logbook.start_writing_enter]
    | true =>
      obtain ⟨_, h2, h3⟩ := Logbook.start_writing_pass_granted _ hg
      simp only [Logbook.start_writing_enter] at h2
      simp [h3, h2]
      simp [Logbook.start_writing_enter]
  | recheck_write t =>
    have hself := LogbookSys.step_write_self σ σ' t _ (Or.inr rfl) h
    simp only [] at hbook ⊢
    rw [hself, hbook]
    cases hg : σ.book.start_writing_pass.2 with
    | false =>
      have hb := Logbook.start_writing_pass_blocked _ hg
      have hne : ¬ (σ.book.writing = true ∧ σ.book.writing = false) := by
        cases σ.book.writing <;> simp
      simp [hb, hne]
    | true =>
      obtain ⟨_, h2, h3⟩ := Logbook.start_writing_pass_granted _ hg
      simp [h3, h2]
      omega
  | start_reading t =>
    simp only [] at hbook ⊢
    rw [hbook]
    unfold Logbook.start_reading
    split <;> simp
  | recheck_read t =>
    simp only [] at hbook ⊢
    rw [hbook]
    unfold Logbook.start_reading
    split <;> simp
  | stop_reading t w => simp only [] at hbook ⊢; rw [hbook]; simp [Logbook.stop_reading]
  | stop_writing t w => simp only [] at hbook ⊢; rw [hbook]; simp [Logbook.stop_writing]
  | spurious t => simp only [] at hbook ⊢; rw [hbook]; simp

theorem LogbookSys.step_completed (σ σ' : LogbookSys) (e : LogbookEv)
    (h : σ.step e = some σ') :
    σ'.book.completed_operations
      = σ.book.completed_operations + (if e.isStopWriting = true then 1 else 0) := by
  have hbook := LogbookSys.step_book σ σ' e h
  cases e <;> simp only [] at hbook <;> rw [hbook] <;>
    simp only [LogbookEv.isStopWriting, Bool.false_eq_true, if_false, if_true, add_zero]
  · unfold Logbook.start_reading; split <;> rfl
  · unfold Logbook.start_reading; split <;> rfl
  · rfl
  · unfold Logbook.start_writing_pass; split <;> rfl
  · unfold Logbook.start_writing_pass; split <;> rfl
  · rfl

theorem LogbookSys.run_completed :
    ∀ (tr : List LogbookEv) (σ σ' : LogbookSys), runFrom LogbookSys.step σ tr = some σ' →
      σ'.book.completed_operations
        = σ.book.completed_operations + (tr.countP LogbookEv.isStopWriting : Nat) := by
  intro tr
  induction tr with
  | nil =>
    intro σ σ' h
    simp only [runFrom, Option.some.injEq] at h
    subst h
    simp
  | cons e es ih =>
    intro σ σ' h
    simp only [runFrom] at h
    cases hse : σ.step e with
    | none => simp [hse] at h
    | some σ1 =>
      simp only [hse] at h
      have h1 := LogbookSys.step_completed σ σ1 e hse
      have h2 := ih σ1 σ' h
      rw [h2, h1, List.countP_cons]
      by_cases hc : e.isStopWriting = true
      · simp only [hc, if_true]
        push_cast
        omega
      · simp only [hc, if_false]
        push_cast
        omega

/-! ## Group -/

theorem GroupSys.group_inv_init (M l : Nat) : (GroupSys.init M l).Inv M := by
  constructor
  · rfl
  · simp [GroupSys.init]
  · simp [GroupSys.init, Group.new, List.countP_replicate, GroupPc.arrived]
  · intro t ht
    simp only [GroupSys.init, List.getElem?_replicate] at ht
    split at ht <;> cases ht

theorem GroupSys.step_counter (σ σ' : GroupSys) (e : GroupEv) (h : σ.step e = some σ') :
    σ.group.counter ≤ σ'.group.counter := by
  cases e <;> simp only [GroupSys.step] at h <;> split at h
  · obtain ⟨q, _, rfl⟩ := Option.map_eq_some'.mp h
    simp only [Group.non_leader_completed]
    omega
  · cases h
  · simp only [Option.some.injEq] at h
    subst h
    simp only [Group.leader_completed_and_wait]
    omega
  · cases h
  · simp only [Option.some.injEq] at h
    subst h
    exact le_refl _
  · cases h
  · simp only [Option.some.injEq] at h
    subst h
    exact le_refl _
  · cases h

theorem GroupSys.group_step_inv (M : Nat) (σ σ' : GroupSys) (e : GroupEv) (hinv : σ.Inv M)
    (h : σ.step e = some σ') : σ'.Inv M := by
  obtain ⟨h1, h2, h3, h4⟩ := hinv
  cases e with
  | non_leader_completed t w =>
    simp only [GroupSys.step] at h
    split at h
    · rename_i ht
      obtain ⟨q, hq, rfl⟩ := Option.map_eq_some'.mp h
      have e1 := countP_set_add GroupPc.arrived σ.pc t _ GroupPc.finished ht.1
      have e2 := countP_condSignal GroupPc.arrived .asleep .woken rfl w _ q hq
      simp only [GroupPc.arrived, Bool.false_eq_true, if_false, if_true, Nat.add_zero] at e1
      have hlen : q.length = σ.pc.length := by
        unfold condSignal at hq
        split at hq
        · split at hq
          · simp only [Option.some.injEq] at hq
            rw [← hq, List.length_set, List.length_set]
          · cases hq
        · simp only [Option.some.injEq] at hq
          rw [← hq, List.length_set]
      refine ⟨h1, by rw [hlen]; exact h2, ?_, ?_⟩
      · simp only [Group.non_leader_completed, e2, e1]
        push_cast
        omega
      · intro u hu
        have := h4 u (set_origin σ.pc t u _ _
          (condSignal_origin _ _ w _ q hq u _ hu (by decide)) (by decide))
        simp only [Group.non_leader_completed]
        omega
    · cases h
  | leader_completed_and_wait t =>
    simp only [GroupSys.step] at h
    split at h
    · rename_i ht
      simp only [Option.some.injEq] at h
      subst h
      cases hg : (σ.group.leader_completed_and_wait σ.m).2 with
      | false =>
        have e1 := countP_set_add GroupPc.arrived σ.pc t _ GroupPc.asleep ht.1
        simp only [GroupPc.arrived, Bool.false_eq_true, if_false, if_true, Nat.add_zero] at e1
        refine ⟨h1, by simp only [List.length_set]; exact h2, ?_, ?_⟩
        · simp only [Group.leader_completed_and_wait, Bool.false_eq_true, if_false, e1]
          push_cast
          omega
        · intro u hu
          simp only [Bool.false_eq_true, if_false] at hu
          have := h4 u (set_origin σ.pc t u _ _ hu (by decide))
          simp only [Group.leader_completed_and_wait]
          omega
      | true =>
        have e1 := countP_set_add GroupPc.arrived σ.pc t _ GroupPc.passed ht.1
        simp only [GroupPc.arrived, Bool.false_eq_true, if_false, if_true, Nat.add_zero] at e1
        refine ⟨h1, by simp only [List.length_set]; exact h2, ?_, ?_⟩
        · simp only [Group.leader_completed_and_wait, if_true, e1]
          push_cast
          omega
        · intro u _
          simp only [Group.leader_completed_and_wait, Group.must_wait, Bool.not_eq_true',
            decide_eq_false_iff_not, not_lt] at hg
          simp only [Group.leader_completed_and_wait]
          exact hg
    · cases h
  | spurious t =>
    simp only [GroupSys.step] at h
    split at h
    · rename_i ht
      simp only [Option.some.injEq] at h
      subst h
      have e1 := countP_set_add GroupPc.arrived σ.pc t _ GroupPc.woken ht
      simp only [GroupPc.arrived, if_true] at e1
      refine ⟨h1, by simp only [List.length_set]; exact h2, ?_, ?_⟩
      · simp only [Nat.add_right_cancel e1]
        exact h3
      · intro u hu
        exact h4 u (set_origin σ.pc t u _ _ hu (by decide))
    · cases h
  | recheck t =>
    simp only [GroupSys.step] at h
    split at h
    · rename_i ht
      simp only [Option.some.injEq] at h
      subst h
      cases hg : σ.group.must_wait σ.m with
      | true =>
        have e1 := countP_set_add GroupPc.arrived σ.pc t _ GroupPc.asleep ht
        simp only [GroupPc.arrived, if_true] at e1
        refine ⟨h1, by simp only [List.length_set]; exact h2, ?_, ?_⟩
        · simp only [if_true, Nat.add_right_cancel e1]
          exact h3
        · intro u hu
          simp only [if_true] at hu
          exact h4 u (set_origin σ.pc t u _ _ hu (by decide))
      | false =>
        have e1 := countP_set_add GroupPc.arrived σ.pc t _ GroupPc.passed ht
        simp only [GroupPc.arrived, if_true] at e1
        refine ⟨h1, by simp only [List.length_set]; exact h2, ?_, ?_⟩
        · simp only [Bool.false_eq_true, if_false, Nat.add_right_cancel e1]
          exact h3
        · intro u _
          simpa [Group.must_wait] using hg
    · cases h

theorem GroupSys.group_reachable_inv (M l : Nat) (tr : List GroupEv) (σ : GroupSys)
    (h : runFrom GroupSys.step (GroupSys.init M l) tr = some σ) : σ.Inv M :=
  runFrom_invariant GroupSys.step (GroupSys.Inv M)
    (fun s e s' hs hstep => GroupSys.group_step_inv M s s' e hs hstep) tr _ σ
    (GroupSys.group_inv_init M l) h

/-! ## The whole simulation -/

theorem WakeRel.refl (ops : List OpPc) : WakeRel ops ops :=
  ⟨rfl, fun _ _ h => Or.inl h⟩

theorem WakeRel.of_set (ops : List OpPc) (i : Nat) (p : OpPc) (h : ops[i]? = some p) :
    WakeRel ops (ops.set i p.wake) := by
  refine ⟨List.length_set _ _ _, ?_⟩
  intro j y hj
  by_cases hij : i = j
  · subst hij
    rw [h] at hj
    cases hj
    exact Or.inr (List.getElem?_set_self (List.getElem?_eq_some_iff.mp h).1)
  · exact Or.inl (by rw [List.getElem?_set_ne hij]; exact hj)

theorem WakeRel.of_wakeAll (sel : Nat → OpPc → Bool) (ops : List OpPc) :
    WakeRel ops (wakeAll sel OpPc.wake ops) := by
  refine ⟨by simp [wakeAll], ?_⟩
  intro j y hj
  simp only [wakeAll, List.getElem?_mapIdx, hj, Option.map_some']
  by_cases hs : sel j y = true
  · exact Or.inr (by simp only [hs, if_true])
  · exact Or.inl (by simp only [hs, Bool.false_eq_true, if_false])

theorem WakeRel.of_wakeOne (sel : Nat → OpPc → Bool) (w : Nat) (ops ops' : List OpPc)
    (h : wakeOne sel OpPc.wake w ops = some ops') : WakeRel ops ops' := by
  unfold wakeOne at h
  split at h
  · split at h
    · rename_i p hp
      split at h
      · simp only [Option.some.injEq] at h
        exact h ▸ WakeRel.of_set ops w p hp
      · cases h
    · cases h
  · simp only [Option.some.injEq] at h
    exact h ▸ WakeRel.refl ops

theorem WakeRel.back (ops ops' : List OpPc) (h : WakeRel ops ops') (j : Nat) (x : OpPc)
    (hx : ops'[j]? = some x) : ∃ y : OpPc, ops[j]? = some y ∧ (x = y ∨ x = y.wake) := by
  have hj : j < ops.length := h.1 ▸ (List.getElem?_eq_some_iff.mp hx).1
  refine ⟨ops[j], List.getElem?_eq_getElem hj, ?_⟩
  rcases h.2 j _ (List.getElem?_eq_getElem hj) with h1 | h1
  · rw [hx] at h1
    exact Or.inl (Option.some.inj h1)
  · rw [hx] at h1
    exact Or.inr (Option.some.inj h1)

theorem WakeRel.done_iff (ops ops' : List OpPc) (h : WakeRel ops ops') (j : Nat) :
    ops'[j]? = some OpPc.done ↔ ops[j]? = some OpPc.done := by
  constructor
  · intro hx
    obtain ⟨y, hy, hxy⟩ := h.back ops ops' j _ hx
    rcases hxy with rfl | hxy
    · exact hy
    · cases y <;> simp [OpPc.wake] at hxy
      exact hy
  · intro hy
    rcases h.2 j _ hy with h1 | h1
    · exact h1
    · exact h1

theorem countP_range_point (f g : Nat → Bool) (i : Nat) :
    ∀ n : Nat, i < n → (∀ j : Nat, j ≠ i → g j = f j) → f i = false →
      List.countP g (List.range n) = List.countP f (List.range n) + (if g i = true then 1 else 0) := by
  intro n
  induction n with
  | zero => intro hi; omega
  | succ n ih =>
    intro hi hne hfi
    rw [List.range_succ, List.countP_append, List.countP_append]
    by_cases hin : i = n
    · subst hin
      have hcongr : List.countP g (List.range i) = List.countP f (List.range i) := by
        apply List.countP_congr
        intro x hx
        rw [hne x (by have := List.mem_range.mp hx; omega)]
      rw [hcongr]
      simp only [List.countP_cons, List.countP_nil, hfi, Bool.false_eq_true, if_false]
      omega
    · have := ih (by omega) hne hfi
      rw [this]
      simp only [List.countP_cons, List.countP_nil, hne n (fun h => hin h.symm)]
      omega

theorem leadersDone_congr (ops ops' : List OpPc) (m : Int) (hlen : ops'.length = ops.length)
    (h : ∀ j : Nat, ops'[j]? = some OpPc.done ↔ ops[j]? = some OpPc.done) :
    leadersDone ops' m = leadersDone ops m := by
  unfold leadersDone
  rw [hlen]
  apply List.countP_congr
  intro x _
  simp only [Bool.and_eq_true, decide_eq_true_eq, h x]

theorem leadersDone_set (ops : List OpPc) (i : Nat) (p q : OpPc) (m : Int)
    (hi : ops[i]? = some p) (hp : p ≠ OpPc.done) :
    leadersDone (ops.set i q) m
      = leadersDone ops m + (if q = OpPc.done ∧ isLeader i m = true then 1 else 0) := by
  unfold leadersDone
  have hlen := (List.getElem?_eq_some_iff.mp hi).1
  rw [List.length_set]
  rw [countP_range_point (fun j => decide (ops[j]? = some OpPc.done) && isLeader j m)
    (fun j => decide ((ops.set i q)[j]? = some OpPc.done) && isLeader j m) i ops.length hlen]
  · simp only [List.getElem?_set_self hlen, Option.some.injEq, Bool.and_eq_true,
      decide_eq_true_eq]
  · intro j hj
    rw [List.getElem?_set_ne (fun h => hj h.symm)]
  · simp only [hi, Option.some.injEq, hp, decide_False, Bool.false_and]

theorem Logbook.start_writing_pass_completed (b : Logbook) :
    b.start_writing_pass.1.completed_operations = b.completed_operations := by
  unfold Logbook.start_writing_pass
  split <;> rfl

theorem Logbook.start_reading_completed (b : Logbook) :
    b.start_reading.1.completed_operations = b.completed_operations := by
  unfold Logbook.start_reading
  split <;> rfl

theorem OpFlow.of_ite (l c : Bool) (p a b : OpPc) (ha : OpFlow l p a = true)
    (hb : OpFlow l p b = true) : OpFlow l p (if c = true then a else b) = true := by
  cases c
  · simpa using hb
  · simpa using ha

theorem World.opStep_summary (W W' : World) (i w : Nat) (h : W.opStep i w = some W') :
    W'.m = W.m ∧ ∃ p q : OpPc, W.ops[i]? = some p ∧ OpFlow (isLeader i W.m) p q = true ∧
      WakeRel (W.ops.set i q) W'.ops ∧
      W'.logbook.completed_operations
        = W.logbook.completed_operations + (if p = OpPc.writing then 1 else 0) := by
  unfold World.opStep at h
  simp only [] at h
  split at h
  · rename_i hp
    obtain ⟨s, _, rfl⟩ := Option.map_eq_some'.mp h
    exact ⟨rfl, _, _, hp, OpFlow.of_ite _ _ _ _ _ (by rfl) (by rfl), WakeRel.refl _, by simp⟩
  · rename_i hp
    obtain ⟨s, _, rfl⟩ := Option.map_eq_some'.mp h
    exact ⟨rfl, _, _, hp, OpFlow.of_ite _ _ _ _ _ (by rfl) (by rfl), WakeRel.refl _, by simp⟩
  · rename_i hp
    obtain ⟨s, _, rfl⟩ := Option.map_eq_some'.mp h
    exact ⟨rfl, _, .released, hp, by rfl, WakeRel.of_wakeAll _ _, by simp⟩
  · rename_i hp
    obtain ⟨gr, _, hgr⟩ := Option.bind_eq_some.mp h
    split at hgr
    · rename_i hl
      have hlead : isLeader i W.m = true := by simpa [isLeader] using hl
      simp only [Option.some.injEq] at hgr
      subst hgr
      refine ⟨rfl, _, _, hp, ?_, WakeRel.refl _, by simp⟩
      rw [hlead]
      exact OpFlow.of_ite _ _ _ _ _ (by rfl) (by rfl)
    · rename_i hl
      have hlead : isLeader i W.m = false := by simpa [isLeader] using hl
      obtain ⟨q, hq, rfl⟩ := Option.map_eq_some'.mp hgr
      refine ⟨rfl, _, .done, hp, ?_, WakeRel.of_wakeOne _ _ _ _ hq, by simp⟩
      rw [hlead]
      rfl
  · rename_i hp
    obtain ⟨gr, _, rfl⟩ := Option.map_eq_some'.mp h
    exact ⟨rfl, _, _, hp, OpFlow.of_ite _ _ _ _ _ (by rfl) (by rfl), WakeRel.refl _, by simp⟩
  · rename_i hp
    simp only [Option.some.injEq] at h
    subst h
    refine ⟨rfl, _, _, hp, OpFlow.of_ite _ _ _ _ _ (by rfl) (by rfl), WakeRel.refl _, ?_⟩
    simp [Logbook.start_writing_pass_completed, Logbook.start_writing_enter]
  · rename_i hp
    simp only [Option.some.injEq] at h
    subst h
    refine ⟨rfl, _, _, hp, OpFlow.of_ite _ _ _ _ _ (by rfl) (by rfl), WakeRel.refl _, ?_⟩
    simp [Logbook.start_writing_pass_completed]
  · rename_i hp
    split at h
    · obtain ⟨q, hq, rfl⟩ := Option.map_eq_some'.mp h
      exact ⟨rfl, _, .done, hp, by rfl, WakeRel.of_wakeOne _ _ _ _ hq, by simp [Logbook.stop_writing]⟩
    · simp only [Option.some.injEq] at h
      subst h
      exact ⟨rfl, _, .done, hp, by rfl, WakeRel.refl _, by simp [Logbook.stop_writing]⟩
  · cases h

theorem World.staffStep_summary (W W' : World) (j w : Nat) (h : W.staffStep j w = some W') :
    W'.m = W.m ∧ WakeRel W.ops W'.ops ∧
      W'.logbook.completed_operations = W.logbook.completed_operations := by
  unfold World.staffStep at h
  split at h
  · cases h
  · split at h
    · simp only [Option.some.injEq] at h
      subst h
      exact ⟨rfl, WakeRel.refl _, Logbook.start_reading_completed _⟩
    · simp only [Option.some.injEq] at h
      subst h
      exact ⟨rfl, WakeRel.refl _, Logbook.start_reading_completed _⟩
    · simp only [] at h
      split at h
      · obtain ⟨q, hq, rfl⟩ := Option.map_eq_some'.mp h
        exact ⟨rfl, WakeRel.of_wakeOne _ _ _ _ hq, rfl⟩
      · simp only [Option.some.injEq] at h
        subst h
        exact ⟨rfl, WakeRel.refl _, rfl⟩
    · cases h

theorem World.step_summary (W W' : World) (e : WorldEv) (h : W.step e = some W') :
    W'.m = W.m ∧
    ((WakeRel W.ops W'.ops ∧
        W'.logbook.completed_operations = W.logbook.completed_operations) ∨
      ∃ (i : Nat) (p q : OpPc), W.ops[i]? = some p ∧ OpFlow (isLeader i W.m) p q = true ∧
        WakeRel (W.ops.set i q) W'.ops ∧
        W'.logbook.completed_operations
          = W.logbook.completed_operations + (if p = OpPc.writing then 1 else 0)) := by
  cases e with
  | op i w =>
    obtain ⟨h1, p, q, h2⟩ := World.opStep_summary W W' i w h
    exact ⟨h1, Or.inr ⟨i, p, q, h2⟩⟩
  | staff j w =>
    obtain ⟨h1, h2⟩ := World.staffStep_summary W W' j w h
    exact ⟨h1, Or.inl h2⟩
  | spuriousOp i =>
    simp only [World.step] at h
    split at h
    · rename_i p hp
      split at h
      · simp only [Option.some.injEq] at h
        subst h
        exact ⟨rfl, Or.inl ⟨WakeRel.of_set _ _ _ hp, rfl⟩⟩
      · cases h
    · cases h
  | spuriousStaff j =>
    simp only [World.step] at h
    split at h
    · split at h
      · simp only [Option.some.injEq] at h
        subst h
        exact ⟨rfl, Or.inl ⟨WakeRel.refl _, rfl⟩⟩
      · cases h
    · cases h

theorem OpPc.pastBarrier_wake (y : OpPc) : y.wake.pastBarrier = y.pastBarrier := by
  cases y <;> rfl

theorem OpFlow.pastBarrier_of (l : Bool) (p q : OpPc) (h : OpFlow l p q = true)
    (hq : q.pastBarrier = true) : p.pastBarrier = true ∨ l = true := by
  cases l <;> cases p <;> cases q <;> simp [OpFlow, OpPc.pastBarrier] at h hq ⊢

theorem OpFlow.done (l : Bool) (p q : OpPc) (h : OpFlow l p q = true) :
    p ≠ OpPc.done ∧ (p = OpPc.writing → q = OpPc.done) ∧
      (q = OpPc.done → p = OpPc.writing ∨ l = false) := by
  cases l <;> cases p <;> cases q <;> simp [OpFlow] at h ⊢

theorem World.Inv.of_wake (N : Nat) (M : Int) (W' : World) (ops1 : List OpPc)
    (hm : W'.m = M) (hrows : ops1.length = N)
    (hlead : ∀ (i : Nat) (p : OpPc), ops1[i]? = some p → p.pastBarrier = true →
      isLeader i M = true)
    (hcount : W'.logbook.completed_operations = (leadersDone ops1 M : Nat))
    (hw : WakeRel ops1 W'.ops) : W'.Inv N M := by
  refine ⟨hm, by rw [hw.1, hrows], ?_, ?_⟩
  · intro i x hx hpb
    obtain ⟨y, hy, hxy⟩ := hw.back ops1 W'.ops i x hx
    rcases hxy with rfl | rfl
    · exact hlead i _ hy hpb
    · rw [OpPc.pastBarrier_wake] at hpb
      exact hlead i _ hy hpb
  · rw [hcount, leadersDone_congr ops1 W'.ops M hw.1 (fun j => hw.done_iff ops1 W'.ops j)]

theorem World.world_step_inv (N : Nat) (M : Int) (W W' : World) (e : WorldEv) (hinv : W.Inv N M)
    (h : W.step e = some W') : W'.Inv N M := by
  obtain ⟨h1, h2, h3, h4⟩ := hinv
  obtain ⟨hm, hcase⟩ := World.step_summary W W' e h
  rcases hcase with ⟨hw, hco⟩ | ⟨i, p, q, hp, hflow, hw, hco⟩
  · exact World.Inv.of_wake N M W' W.ops (hm.trans h1) h2 h3 (hco.trans h4) hw
  · rw [h1] at hflow
    obtain ⟨hpd, hpw, hqd⟩ := OpFlow.done _ p q hflow
    have hi : i < W.ops.length := (List.getElem?_eq_some_iff.mp hp).1
    refine World.Inv.of_wake N M W' (W.ops.set i q) (hm.trans h1)
      (by rw [List.length_set]; exact h2) ?_ ?_ hw
    · intro j x hx hpb
      by_cases hij : i = j
      · subst hij
        rw [List.getElem?_set_self hi] at hx
        cases hx
        rcases OpFlow.pastBarrier_of _ p q hflow hpb with hpp | hl
        · exact h3 i p hp hpp
        · exact hl
      · rw [List.getElem?_set_ne hij] at hx
        exact h3 j x hx hpb
    · rw [hco, h4, leadersDone_set W.ops i p q M hp hpd]
      by_cases hpwr : p = OpPc.writing
      · have hl := h3 i p hp (by rw [hpwr]; rfl)
        simp only [hpwr, if_true, hpw hpwr, hl, and_self]
        push_cast
        rfl
      · have hnot : ¬ (q = OpPc.done ∧ isLeader i M = true) := by
          rintro ⟨hq, hl⟩
          rcases hqd hq with hc | hc
          · exact hpwr hc
          · rw [hl] at hc
            cases hc
        simp only [hpwr, if_false, hnot, add_zero, Nat.add_zero]

theorem World.world_inv_init (N : Nat) (M : Int) : (World.init N M).Inv N M := by
  refine ⟨rfl, by simp [World.init], ?_, ?_⟩
  · intro i p hp hpb
    simp only [World.init, Int.toNat_ofNat, List.getElem?_replicate] at hp
    split at hp
    · cases hp
      cases hpb
    · cases hp
  · simp only [World.init, Logbook.new, leadersDone, Int.toNat_ofNat, List.length_replicate,
      List.getElem?_replicate]
    have : List.countP (fun i => decide ((if i < N then some OpPc.start else none)
        = some OpPc.done) && isLeader i M) (List.range N) = 0 := by
      rw [List.countP_eq_zero]
      intro a _
      split <;> simp
    rw [this]
    rfl

theorem World.world_reachable_inv (N : Nat) (M : Int) (tr : List WorldEv) (W : World)
    (h : runFrom World.step (World.init N M) tr = some W) : W.Inv N M :=
  runFrom_invariant World.step (World.Inv N M)
    (fun s e s' hs hstep => World.world_step_inv N M s s' e hs hstep) tr _ W
    (World.world_inv_init N M) h

theorem isLeader_iff_dvd (i M : Nat) (hM : 1 ≤ M) : isLeader i M = true ↔ M ∣ i + 1 := by
  have hdm := Nat.div_add_mod i M
  have hr := Nat.mod_lt i (by omega : M > 0)
  have hcomm : M * (i / M) = i / M * M := Nat.mul_comm _ _
  have hdiv : ((i : Int) + 1 - 1).tdiv (M : Int) = ((i / M : Nat) : Int) := by
    rw [add_sub_cancel_right, Int.tdiv_eq_ediv (by omega) (by omega)]
    rfl
  simp only [isLeader, leader_id, group_index, hdiv, decide_eq_true_eq]
  have hcast : ((i : Int) + 1 = ((i / M : Nat) : Int) * (M : Int) + (M : Int))
      ↔ i + 1 = i / M * M + M := by
    constructor
    · intro h; exact_mod_cast h
    · intro h; exact_mod_cast h
  rw [hcast, Nat.dvd_iff_mod_eq_zero]
  have hmod : (i + 1) % M = (i % M + 1) % M := by
    conv_lhs => rw [← hdm, Nat.add_assoc, Nat.mul_add_mod]
  rw [hmod]
  constructor
  · intro h
    have : i % M + 1 = M := by omega
    rw [this, Nat.mod_self]
  · intro h
    by_cases hlt : i % M + 1 < M
    · rw [Nat.mod_eq_of_lt hlt] at h
      omega
    · omega

theorem countP_range_multiples (N M : Nat) :
    List.countP (fun i => decide (M ∣ i + 1)) (List.range N) = N / M := by
  have hcount : ∀ n : Nat, List.countP (fun i => decide (M ∣ i + 1)) (List.range n)
      = Nat.count (fun i => M ∣ i + 1) n := by
    intro n
    induction n with
    | zero => rfl
    | succ n ih =>
      rw [List.range_succ, List.countP_append, ih, Nat.count_succ]
      simp only [List.countP_cons, List.countP_nil, decide_eq_true_eq, Nat.zero_add]
  rw [hcount, Nat.count_eq_card_filter_range, Nat.card_multiples]

theorem countP_leaders_by_group (M : Nat) (hM : 1 ≤ M) (q : Nat → Bool) :
    ∀ N : Nat, List.countP (fun i => q i && decide (M ∣ i + 1)) (List.range N)
      = List.countP (fun g => q (g * M + M - 1)) (List.range (N / M)) := by
  intro N
  induction N with
  | zero => simp
  | succ N ih =>
    rw [List.range_succ, List.countP_append, ih, Nat.succ_div]
    by_cases hd : M ∣ N + 1
    · obtain ⟨c, hc⟩ := hd
      have hc1 : 1 ≤ c := by
        rcases Nat.eq_zero_or_pos c with h0 | h0
        · rw [h0, Nat.mul_zero] at hc; omega
        · exact h0
      have hdiv : N / M = c - 1 := by
        apply Nat.div_eq_of_lt_le
        · have : (c - 1) * M = M * c - M := by
            rw [Nat.sub_mul, Nat.one_mul, Nat.mul_comm]
          omega
        · have : (c - 1 + 1) * M = M * c := by
            rw [Nat.sub_add_cancel hc1, Nat.mul_comm]
          omega
      have hlast : N / M * M + M - 1 = N := by
        rw [hdiv]
        have : (c - 1) * M = M * c - M := by
          rw [Nat.sub_mul, Nat.one_mul, Nat.mul_comm]
        have hMc : M ≤ M * c := Nat.le_mul_of_pos_right M hc1
        omega
      have hd' : M ∣ N + 1 := ⟨c, hc⟩
      simp only [hd', if_true, List.range_succ, List.countP_append, List.countP_cons,
        List.countP_nil, hlast, decide_True, Bool.and_true, Nat.zero_add]
    · simp only [hd, if_false, Nat.add_zero, List.countP_cons, List.countP_nil,
        decide_False, Bool.and_false, Bool.false_eq_true]

/-! ## The sequential schedule -/

theorem wakeAll_none {α : Type} (sel : Nat → α → Bool) (wake : α → α) (pcs : List α)
    (h : ∀ (j : Nat) (p : α), pcs[j]? = some p → sel j p = false) :
    wakeAll sel wake pcs = pcs := by
  apply List.ext_getElem?
  intro j
  simp only [wakeAll, List.getElem?_mapIdx]
  cases hp : pcs[j]? with
  | none => rfl
  | some p => simp [h j p hp]

theorem wakeOne_none {α : Type} (sel : Nat → α → Bool) (wake : α → α) (w : Nat)
    (pcs : List α) (h : ∀ (j : Nat) (p : α), pcs[j]? = some p → sel j p = false) :
    wakeOne sel wake w pcs = some pcs := by
  unfold wakeOne
  have : (pcs.mapIdx sel).any id = false := by
    rw [List.any_eq_false]
    intro x hx
    obtain ⟨j, hj⟩ := List.mem_iff_getElem?.mp hx
    rw [List.getElem?_mapIdx] at hj
    obtain ⟨p, hp, rfl⟩ := Option.map_eq_some'.mp hj
    simp [h j p hp]
  simp [this]

theorem station_index_range (i : Nat) :
    0 ≤ station_index ((i : Int) + 1) ∧ (station_index ((i : Int) + 1)).toNat < 4 := by
  unfold station_index
  rw [Int.tmod_eq_emod (by omega) (by omega)]
  omega

theorem group_index_nat (i M : Nat) :
    group_index ((i : Int) + 1) (M : Int) = ((i / M : Nat) : Int) := by
  unfold group_index
  rw [add_sub_cancel_right, Int.tdiv_eq_ediv (by omega) (by omega)]
  rfl

theorem set_quiet (ops : List OpPc) (i : Nat) (q x : OpPc)
    (h : ∀ (j : Nat) (p : OpPc), ops[j]? = some p → p = OpPc.done ∨ p = OpPc.start)
    (hq : q ≠ x) (hd : OpPc.done ≠ x) (hs : OpPc.start ≠ x) :
    ∀ (j : Nat) (p : OpPc), (ops.set i q)[j]? = some p → p ≠ x := by
  intro j p hp
  by_cases hpq : p = q
  · rw [hpq]; exact hq
  · rcases h j p (set_origin ops i j q p hp hpq) with rfl | rfl
    · exact hd
    · exact hs

theorem World.opStep_acquire_free (W : World) (i : Nat) (h0 : W.ops[i]? = some OpPc.start)
    (hst : W.stations = List.replicate 4 Station.new) :
    W.opStep i 0 = some { W with
      stations := (List.replicate 4 Station.new).set (station_index ((i : Int) + 1)).toNat
        { in_use := true }
      ops := W.ops.set i OpPc.holding } := by
  obtain ⟨hk0, hk4⟩ := station_index_range i
  unfold World.opStep
  simp only [h0, hst, getAt, hk0, if_true, List.getElem?_replicate, hk4, Option.map_some',
    Station.acquire, Station.new, Bool.false_eq_true, if_false, setAt]

theorem World.opStep_release_quiet (W : World) (i : Nat)
    (h0 : W.ops[i]? = some OpPc.holding)
    (hst : W.stations = (List.replicate 4 Station.new).set
      (station_index ((i : Int) + 1)).toNat { in_use := true })
    (hq : ∀ (j : Nat) (p : OpPc), (W.ops.set i OpPc.released)[j]? = some p → p ≠ OpPc.stAsleep) :
    W.opStep i 0 = some { W with
      stations := List.replicate 4 Station.new
      ops := W.ops.set i OpPc.released } := by
  obtain ⟨hk0, hk4⟩ := station_index_range i
  have hback : ((List.replicate 4 Station.new).set (station_index ((i : Int) + 1)).toNat
      { in_use := true }).set (station_index ((i : Int) + 1)).toNat { in_use := false }
      = List.replicate 4 Station.new := by
    generalize (station_index ((i : Int) + 1)).toNat = k at hk4
    interval_cases k <;> rfl
  have hw := wakeAll_none
    (fun (j : Nat) (p : OpPc) => decide (p = OpPc.stAsleep ∧
      station_index ((j : Int) + 1) = station_index ((i : Int) + 1)))
    OpPc.wake (W.ops.set i OpPc.released) (fun j p hp => by simp [hq j p hp])
  unfold World.opStep
  simp only [h0, hst, getAt, hk0, if_true, List.length_set, List.length_replicate, hk4,
    List.getElem?_set_self, Option.map_some', Station.release, setAt, hback, hw]

theorem World.opStep_member_quiet (W : World) (i : Nat) (c : Int)
    (h0 : W.ops[i]? = some OpPc.released) (hl : isLeader i W.m = false)
    (hg : getAt W.groups (group_index ((i : Int) + 1) W.m) = some { counter := c })
    (hq : ∀ (j : Nat) (p : OpPc), (W.ops.set i OpPc.done)[j]? = some p → p ≠ OpPc.barAsleep) :
    W.opStep i 0 = some { W with
      groups := setAt W.groups (group_index ((i : Int) + 1) W.m) { counter := c + 1 }
      ops := W.ops.set i OpPc.done } := by
  have hne : ¬ ((i : Int) + 1 = leader_id ((i : Int) + 1) W.m) := by
    simpa [isLeader] using hl
  have hw := wakeOne_none
    (fun (j : Nat) (p : OpPc) => decide (p = OpPc.barAsleep ∧
      group_index ((j : Int) + 1) W.m = group_index ((i : Int) + 1) W.m))
    OpPc.wake 0 (W.ops.set i OpPc.done) (fun j p hp => by simp [hq j p hp])
  unfold World.opStep
  simp only [h0, hg, Option.some_bind, hne, if_false, hw, Option.map_some',
    Group.non_leader_completed]

theorem World.opStep_leader_last (W : World) (i : Nat) (c : Int)
    (h0 : W.ops[i]? = some OpPc.released) (hl : isLeader i W.m = true)
    (hg : getAt W.groups (group_index ((i : Int) + 1) W.m) = some { counter := c })
    (hc : c + 1 = W.m) :
    W.opStep i 0 = some { W with
      groups := setAt W.groups (group_index ((i : Int) + 1) W.m) { counter := c + 1 }
      ops := W.ops.set i OpPc.passed } := by
  have hid : (i : Int) + 1 = leader_id ((i : Int) + 1) W.m := by
    simpa [isLeader] using hl
  have hw : (({ counter := c } : Group).leader_completed_and_wait W.m).2 = true := by
    simp [Group.leader_completed_and_wait, Group.must_wait, hc]
  unfold World.opStep
  simp only [h0, hg, Option.some_bind, ← hid, if_true, hw]
  rfl

theorem World.opStep_start_writing_free (W : World) (i : Nat) (co : Int)
    (h0 : W.ops[i]? = some OpPc.passed)
    (hlb : W.logbook = { reader_count := 0, writing := false, completed_operations := co,
                         waiting_writers := 0 }) :
    W.opStep i 0 = some { W with
      logbook := { reader_count := 0, writing := true, completed_operations := co,
                   waiting_writers := 0 }
      ops := W.ops.set i OpPc.writing } := by
  unfold World.opStep
  simp only [h0, hlb]
  rfl

theorem World.opStep_stop_writing_alone (W : World) (i : Nat) (co : Int)
    (h0 : W.ops[i]? = some OpPc.writing)
    (hlb : W.logbook = { reader_count := 0, writing := true, completed_operations := co,
                         waiting_writers := 0 })
    (hstaff : W.staff = List.replicate 2 { iter := 0, pc := StaffPc.idle }) :
    W.opStep i 0 = some { W with
      logbook := { reader_count := 0, writing := false, completed_operations := co + 1,
                   waiting_writers := 0 }
      ops := W.ops.set i OpPc.done } := by
  unfold World.opStep
  simp only [h0, hlb, hstaff]
  rfl

theorem isLeader_iff_mod (i M : Nat) : isLeader i M = true ↔ i % M + 1 = M := by
  have hdm := Nat.div_add_mod i M
  have hcomm : M * (i / M) = i / M * M := Nat.mul_comm _ _
  simp only [isLeader, leader_id, group_index_nat, decide_eq_true_eq]
  constructor
  · intro h
    have h' : i + 1 = i / M * M + M := by exact_mod_cast h
    omega
  · intro h
    have h' : i + 1 = i / M * M + M := by omega
    exact_mod_cast h'

theorem SeqInv.run_op (N M i : Nat) (hM : 1 ≤ M) (hdiv : M ∣ N) (hi : i < N) (W : World)
    (h : SeqInv N M i W) :
    ∃ W' : World,
      runFrom World.step W (List.replicate (if isLeader i M then 5 else 3) (WorldEv.op i 0))
        = some W' ∧ SeqInv N M (i + 1) W' := by
  obtain ⟨hm, hst, hlb, hsf, hrows, hops, hgr⟩ := h
  have hiL : i < W.ops.length := by omega
  have h0 : W.ops[i]? = some OpPc.start := by
    have := hops i hi
    simpa using this
  have hquiet : ∀ (j : Nat) (p : OpPc), W.ops[j]? = some p → p = OpPc.done ∨ p = OpPc.start := by
    intro j p hp
    have hj : j < N := hrows ▸ (List.getElem?_eq_some_iff.mp hp).1
    rw [hops j hj] at hp
    split at hp
    · exact Or.inl (Option.some.inj hp).symm
    · exact Or.inr (Option.some.inj hp).symm
  have hgN : i / M < N / M := Nat.div_lt_div_of_lt_of_dvd hdiv hi
  have hdm := Nat.div_add_mod i M
  have hcomm : M * (i / M) = i / M * M := Nat.mul_comm _ _
  have hmod := Nat.mod_lt i (by omega : M > 0)
  have hgL : i / M < W.groups.length := (List.getElem?_eq_some_iff.mp (hgr _ hgN)).1
  have hgetg : getAt W.groups (group_index ((i : Int) + 1) W.m)
      = some { counter := ((i % M : Nat) : Int) } := by
    rw [hm, group_index_nat]
    simp only [getAt, Int.natCast_nonneg, if_true, Int.toNat_ofNat]
    rw [hgr _ hgN]
    congr 3
    omega
  have hsetg : setAt W.groups (group_index ((i : Int) + 1) W.m)
      { counter := ((i % M : Nat) : Int) + 1 }
      = W.groups.set (i / M) { counter := ((i % M + 1 : Nat) : Int) } := by
    rw [hm, group_index_nat]
    simp only [setAt, Int.toNat_ofNat]
    congr 2
  -- the two steps at the station
  have e1 := World.opStep_acquire_free W i h0 hst
  have e2 := World.opStep_release_quiet
    { W with
      stations := (List.replicate 4 Station.new).set (station_index ((i : Int) + 1)).toNat
        { in_use := true }
      ops := W.ops.set i OpPc.holding } i
    (List.getElem?_set_self hiL) rfl
    (by
      simp only [List.set_set]
      exact set_quiet W.ops i _ _ hquiet (by decide) (by decide) (by decide))
  simp only [List.set_set] at e2
  -- the state reached in the end, up to the logbook
  have hinv : ∀ co : Int, co = (((i + 1) / M : Nat) : Int) → SeqInv N M (i + 1)
      { m := W.m, stations := List.replicate 4 Station.new,
        groups := W.groups.set (i / M) { counter := ((i % M + 1 : Nat) : Int) },
        logbook := { reader_count := 0, writing := false, completed_operations := co,
                     waiting_writers := 0 },
        ops := W.ops.set i OpPc.done, staff := W.staff } := by
    intro co hco
    refine ⟨hm, rfl, by rw [hco], hsf, by rw [List.length_set]; exact hrows, ?_, ?_⟩
    · intro j hj
      by_cases hji : i = j
      · subst hji
        simp only [List.getElem?_set_self hiL, Nat.lt_succ_self, if_true]
      · simp only [List.getElem?_set_ne hji, hops j hj]
        have : (j < i + 1) ↔ (j < i) := by omega
        simp only [this]
    · intro g hg
      by_cases hgi : i / M = g
      · subst hgi
        simp only [List.getElem?_set_self hgL]
        congr 3
        omega
      · simp only [List.getElem?_set_ne hgi, hgr g hg]
        congr 3
        rcases Nat.lt_or_gt_of_ne hgi with hlt | hgt
        · have h1 : (i / M + 1) * M ≤ g * M := Nat.mul_le_mul_right M hlt
          rw [Nat.add_mul, Nat.one_mul] at h1
          omega
        · have h1 : (g + 1) * M ≤ i / M * M := Nat.mul_le_mul_right M hgt
          rw [Nat.add_mul, Nat.one_mul] at h1
          omega
  cases hl : isLeader i M with
  | false =>
    have hl' : isLeader i W.m = false := by rw [hm]; exact hl
    have e3 := World.opStep_member_quiet
      { W with stations := List.replicate 4 Station.new, ops := W.ops.set i OpPc.released }
      i _ (List.getElem?_set_self hiL) hl' hgetg
      (by
        simp only [List.set_set]
        exact set_quiet W.ops i _ _ hquiet (by decide) (by decide) (by decide))
    simp only [List.set_set, hsetg] at e3
    refine ⟨_, ?_, hinv ((i / M : Nat) : Int) ?_⟩
    · have hrep : List.replicate (if false = true then 5 else 3) (WorldEv.op i 0)
          = [WorldEv.op i 0, WorldEv.op i 0, WorldEv.op i 0] := rfl
      rw [hrep]
      simp only [runFrom, World.step, e1, e2, e3]
      rw [hlb]
    · have hnd : ¬ M ∣ i + 1 := by
        intro hd
        have := (isLeader_iff_mod i M).not.mp (by rw [hl]; decide)
        rw [Nat.dvd_iff_mod_eq_zero, ← hdm, Nat.add_assoc, Nat.mul_add_mod] at hd
        by_cases hlt : i % M + 1 < M
        · rw [Nat.mod_eq_of_lt hlt] at hd
          omega
        · omega
      rw [Nat.succ_div]
      simp only [hnd, if_false, Nat.add_zero]
  | true =>
    have hl' : isLeader i W.m = true := by rw [hm]; exact hl
    have hmodM := (isLeader_iff_mod i M).mp hl
    have e3 := World.opStep_leader_last
      { W with stations := List.replicate 4 Station.new, ops := W.ops.set i OpPc.released }
      i _ (List.getElem?_set_self hiL) hl' hgetg
      (by
        show ((i % M : Nat) : Int) + 1 = W.m
        rw [hm]
        exact_mod_cast hmodM)
    simp only [List.set_set, hsetg] at e3
    have e4 := World.opStep_start_writing_free
      { W with stations := List.replicate 4 Station.new,
               groups := W.groups.set (i / M) { counter := ((i % M + 1 : Nat) : Int) },
               ops := W.ops.set i OpPc.passed }
      i _ (List.getElem?_set_self hiL) hlb
    simp only [List.set_set] at e4
    have e5 := World.opStep_stop_writing_alone
      { W with stations := List.replicate 4 Station.new,
               groups := W.groups.set (i / M) { counter := ((i % M + 1 : Nat) : Int) },
               logbook := { reader_count := 0, writing := true,
                            completed_operations := ((i / M : Nat) : Int),
                            waiting_writers := 0 },
               ops := W.ops.set i OpPc.writing }
      i _ (List.getElem?_set_self hiL) rfl hsf
    simp only [List.set_set] at e5
    refine ⟨_, ?_, hinv (((i / M : Nat) : Int) + 1) ?_⟩
    · have hrep : List.replicate (if true = true then 5 else 3) (WorldEv.op i 0)
          = [WorldEv.op i 0, WorldEv.op i 0, WorldEv.op i 0, WorldEv.op i 0,
             WorldEv.op i 0] := rfl
      rw [hrep]
      simp only [runFrom, World.step, e1, e2, e3, e4, e5]
    · have hd : M ∣ i + 1 := by
        rw [Nat.dvd_iff_mod_eq_zero, ← hdm, Nat.add_assoc, Nat.mul_add_mod, hmodM,
          Nat.mod_self]
      rw [Nat.succ_div]
      simp only [hd, if_true]
      push_cast
      rfl

theorem runFrom_append_some {σ ε : Type} (step : σ → ε → Option σ) :
    ∀ (pre post : List ε) (s m s' : σ), runFrom step s pre = some m →
      runFrom step m post = some s' → runFrom step s (pre ++ post) = some s' := by
  intro pre
  induction pre with
  | nil =>
    intro post s m s' h1 h2
    simp only [runFrom, Option.some.injEq] at h1
    subst h1
    exact h2
  | cons e es ih =>
    intro post s m s' h1 h2
    simp only [List.cons_append, runFrom] at h1 ⊢
    cases hse : step s e with
    | none => simp [hse] at h1
    | some s1 =>
      simp only [hse] at h1 ⊢
      exact ih post s1 m s' h1 h2

theorem SeqInv.start (N M : Nat) : SeqInv N M 0 (World.init N M) := by
  have hdivc : ((N : Int).tdiv (M : Int)).toNat = N / M := by
    rw [Int.tdiv_eq_ediv (by omega) (by omega)]
    rfl
  refine ⟨rfl, rfl, ?_, rfl, by simp [World.init], ?_, ?_⟩
  · simp only [World.init, Logbook.new, Nat.zero_div]
    rfl
  · intro j hj
    simp only [World.init, Int.toNat_ofNat, List.getElem?_replicate, hj, if_true,
      Nat.not_lt_zero, if_false]
  · intro g hg
    simp only [World.init, hdivc, List.getElem?_replicate, hg, if_true, Nat.zero_sub,
      Nat.min_zero, Group.new]
    rfl

theorem SeqInv.run (N M : Nat) (hM : 1 ≤ M) (hdiv : M ∣ N) :
    ∀ i : Nat, i ≤ N → ∃ W : World,
      runFrom World.step (World.init N M) (World.sequential M i) = some W ∧ SeqInv N M i W := by
  intro i
  induction i with
  | zero => intro _; exact ⟨World.init N M, rfl, SeqInv.start N M⟩
  | succ i ih =>
    intro hi
    obtain ⟨W, hrun, hinv⟩ := ih (by omega)
    obtain ⟨W', hrun', hinv'⟩ := SeqInv.run_op N M i hM hdiv (by omega) W hinv
    exact ⟨W', runFrom_append_some World.step _ _ _ W W' hrun hrun', hinv'⟩

theorem SeqInv.all_returned (N M : Nat) (W : World) (h : SeqInv N M N W) : W.allDone = true := by
  unfold World.allDone
  rw [List.all_eq_true]
  intro x hx
  obtain ⟨j, hj⟩ := List.mem_iff_getElem?.mp hx
  have hjN : j < N := h.rows ▸ (List.getElem?_eq_some_iff.mp hj).1
  rw [h.ops j hjN] at hj
  simp only [hjN, if_true, Option.some.injEq] at hj
  rw [← hj]
  rfl

/-! ## The claims on stations and on the logbook -/

/-- C1. In every state reachable from a free station (`in_use = false`, nobody inside),
at most one thread holds the station, and `in_use` is true exactly when some thread
holds it. -/
theorem station_mutual_exclusion (k : Nat) (tr : List StationEv) (σ : StationSys)
    (h : runFrom StationSys.step (StationSys.init k) tr = some σ) :
    (∀ t u : Nat, σ.pc[t]? = some StationPc.holding → σ.pc[u]? = some StationPc.holding →
      t = u) ∧
    (σ.station.in_use = true ↔ ∃ t : Nat, σ.pc[t]? = some StationPc.holding) := by
  have hinv := StationSys.reachable_holders k tr σ h
  unfold StationSys.holders at hinv
  constructor
  · intro t u ht hu
    refine countP_le_one_unique (fun p => decide (p = StationPc.holding)) σ.pc t u _ _ ?_
      ht (by simp) hu (by simp)
    rw [hinv]
    split <;> omega
  · constructor
    · intro hu
      rw [hu] at hinv
      have hpos : 0 < List.countP (fun p => decide (p = StationPc.holding)) σ.pc := by
        rw [hinv]; simp
      obtain ⟨i, a, hi, ha⟩ := (countP_pos_index _ _).mp hpos
      simp only [decide_eq_true_eq] at ha
      exact ⟨i, ha ▸ hi⟩
    · rintro ⟨t, ht⟩
      have hpos : 0 < List.countP (fun p => decide (p = StationPc.holding)) σ.pc :=
        (countP_pos_index _ _).mpr ⟨t, _, ht, by simp⟩
      rw [hinv] at hpos
      by_contra hne
      simp [hne] at hpos

/-- Witness for C1: three threads; thread 1 finds the station busy, sleeps, is woken by
the release of thread 0 and then holds the station alone. -/
theorem station_mutual_exclusion_witness :
    runFrom StationSys.step (StationSys.init 3)
        [.acquire 0, .acquire 1, .release 0, .recheck 1]
      = some { station := { in_use := true }, pc := [.idle, .holding, .idle] } ∧
    ((∀ t u : Nat, [StationPc.idle, .holding, .idle][t]? = some StationPc.holding →
        [StationPc.idle, .holding, .idle][u]? = some StationPc.holding → t = u) ∧
      (true = true ↔ ∃ t : Nat, [StationPc.idle, .holding, .idle][t]? = some StationPc.holding)) :=
  ⟨by decide,
   station_mutual_exclusion 3 [.acquire 0, .acquire 1, .release 0, .recheck 1]
     { station := { in_use := true }, pc := [.idle, .holding, .idle] } (by decide)⟩

/-- C2. In every state reachable from the initial logbook by `start_reading`,
`stop_reading`, `start_writing` and `stop_writing` steps (with wake-ups and re-tests),
`writing` and `reader_count > 0` never hold together, and `reader_count >= 0`. -/
theorem logbook_writer_excludes_readers (k : Nat) (tr : List LogbookEv) (σ : LogbookSys)
    (h : runFrom LogbookSys.step (LogbookSys.init k) tr = some σ) :
    ¬ (σ.book.writing = true ∧ σ.book.reader_count > 0) ∧ σ.book.reader_count ≥ 0 := by
  have hinv := LogbookSys.book_reachable_inv k tr σ h
  constructor
  · rintro ⟨hw, hr⟩
    have := hinv.excl hw
    omega
  · have := hinv.readers
    omega

/-- Witness for C2: a reader is inside, a writer waits for it, a second reader is kept
out, and the writer gets in when the first reader leaves. -/
theorem logbook_writer_excludes_readers_witness :
    runFrom LogbookSys.step (LogbookSys.init 3)
        [.start_reading 0, .start_writing 1, .start_reading 2, .stop_reading 0 1,
         .recheck_write 1]
      = some { book := { reader_count := 0, writing := true, completed_operations := 0,
                         waiting_writers := 0 },
               pc := [.idle, .writing, .rAsleep] } ∧
    (¬ (true = true ∧ (0 : Int) > 0) ∧ (0 : Int) ≥ 0) :=
  ⟨by decide,
   logbook_writer_excludes_readers 3
     [.start_reading 0, .start_writing 1, .start_reading 2, .stop_reading 0 1,
      .recheck_write 1]
     { book := { reader_count := 0, writing := true, completed_operations := 0,
                 waiting_writers := 0 },
       pc := [.idle, .writing, .rAsleep] } (by decide)⟩

/-- C3. From a reachable state, read access is newly granted to a thread only by its own
`start_reading` (first test or re-test after a wake-up), only when `writing` is false
and `waiting_writers` is 0, and it adds one to `reader_count`; no other step raises
`reader_count`; and while a writer is active or waiting, a reader that runs
`start_reading` goes (back) to sleep on `reader_cv` and `reader_count` is unchanged. -/
theorem start_reading_grant_condition (k : Nat) (tr : List LogbookEv) (σ σ' : LogbookSys)
    (e : LogbookEv) (hreach : runFrom LogbookSys.step (LogbookSys.init k) tr = some σ)
    (hstep : σ.step e = some σ') :
    (∀ t : Nat, σ'.pc[t]? = some LogbookPc.reading → σ.pc[t]? ≠ some LogbookPc.reading →
      (e = .start_reading t ∨ e = .recheck_read t) ∧ σ.book.writing = false ∧
        σ.book.waiting_writers = 0 ∧ σ'.book.reader_count = σ.book.reader_count + 1) ∧
    (σ.book.reader_count < σ'.book.reader_count →
      ∃ t : Nat, (e = .start_reading t ∨ e = .recheck_read t) ∧
        σ'.pc[t]? = some LogbookPc.reading ∧ σ.pc[t]? ≠ some LogbookPc.reading) ∧
    (∀ t : Nat, (e = .start_reading t ∨ e = .recheck_read t) →
      (σ.book.writing = true ∨ σ.book.waiting_writers > 0) →
        σ'.pc[t]? = some LogbookPc.rAsleep ∧ σ'.book = σ.book) := by
  have hinv := LogbookSys.book_reachable_inv k tr σ hreach
  have hbook := LogbookSys.step_book σ σ' e hstep
  refine ⟨?_, ?_, ?_⟩
  · intro t hnew hold
    rcases LogbookSys.step_gain σ σ' e hstep t _ (Or.inl rfl) hnew hold with
      ⟨_, he, hg⟩ | ⟨hx, _⟩
    · obtain ⟨hw, hww, hb⟩ := Logbook.start_reading_granted σ.book hg
      have hww0 := hinv.waiters
      refine ⟨he, hw, by omega, ?_⟩
      rcases he with rfl | rfl <;> simp only [] at hbook <;> rw [hbook, hb]
    · cases hx
  · intro hlt
    cases e with
    | start_reading t =>
      simp only [] at hbook
      obtain ⟨hσ', hlen⟩ := LogbookSys.step_read_self σ σ' t _ (Or.inl rfl) hstep
      cases hg : σ.book.start_reading.2 with
      | false =>
        exfalso
        unfold Logbook.start_reading at hg hbook
        split at hg
        · rename_i hc
          simp only [hc, if_true] at hbook
          rw [hbook] at hlt
          omega
        · cases hg
      | true =>
        have hpc : σ'.pc[t]? = some LogbookPc.reading := by
          rw [hσ']
          simp only [LogbookSys.readPass, hg, if_true, List.getElem?_set_self hlen]
        refine ⟨t, Or.inl rfl, hpc, ?_⟩
        simp only [LogbookSys.step] at hstep
        split at hstep
        · rename_i ht
          rw [ht]; decide
        · cases hstep
    | recheck_read t =>
      simp only [] at hbook
      obtain ⟨hσ', hlen⟩ := LogbookSys.step_read_self σ σ' t _ (Or.inr rfl) hstep
      cases hg : σ.book.start_reading.2 with
      | false =>
        exfalso
        unfold Logbook.start_reading at hg hbook
        split at hg
        · rename_i hc
          simp only [hc, if_true] at hbook
          rw [hbook] at hlt
          omega
        · cases hg
      | true =>
        have hpc : σ'.pc[t]? = some LogbookPc.reading := by
          rw [hσ']
          simp only [LogbookSys.readPass, hg, if_true, List.getElem?_set_self hlen]
        refine ⟨t, Or.inr rfl, hpc, ?_⟩
        simp only [LogbookSys.step] at hstep
        split at hstep
        · rename_i ht
          rw [ht]; decide
        · cases hstep
    | stop_reading t w =>
      exfalso
      simp only [Logbook.stop_reading] at hbook
      rw [hbook] at hlt
      simp only at hlt
      omega
    | start_writing t =>
      exfalso
      simp only [] at hbook
      cases hg : σ.book.start_writing_enter.start_writing_pass.2 with
      | false =>
        rw [Logbook.start_writing_pass_blocked _ hg] at hbook
        rw [hbook] at hlt
        simp only [Logbook.start_writing_enter] at hlt
        omega
      | true =>
        rw [(Logbook.start_writing_pass_granted _ hg).2.2] at hbook
        rw [hbook] at hlt
        simp only [Logbook.start_writing_enter] at hlt
        omega
    | recheck_write t =>
      exfalso
      simp only [] at hbook
      cases hg : σ.book.start_writing_pass.2 with
      | false =>
        rw [Logbook.start_writing_pass_blocked _ hg] at hbook
        rw [hbook] at hlt
        omega
      | true =>
        rw [(Logbook.start_writing_pass_granted _ hg).2.2] at hbook
        rw [hbook] at hlt
        simp only at hlt
        omega
    | stop_writing t w =>
      exfalso
      simp only [Logbook.stop_writing] at hbook
      rw [hbook] at hlt
      simp only at hlt
      omega
    | spurious t =>
      exfalso
      simp only [] at hbook
      rw [hbook] at hlt
      omega
  · intro t he hblock
    obtain ⟨hσ', hlen⟩ := LogbookSys.step_read_self σ σ' t e he hstep
    rw [hσ']
    simp only [LogbookSys.readPass, Logbook.start_reading_blocked σ.book hblock,
      Bool.false_eq_true, if_false, List.getElem?_set_self hlen, and_self]

/-- Witness for C3: with a reader inside and a writer waiting for it, a new reader that
calls `start_reading` is put to sleep and the logbook is left as it was. -/
theorem start_reading_grant_condition_witness :
    runFrom LogbookSys.step (LogbookSys.init 3) [.start_reading 0, .start_writing 1]
      = some { book := { reader_count := 1, writing := false, completed_operations := 0,
                         waiting_writers := 1 },
               pc := [.reading, .wAsleep, .idle] } ∧
    [LogbookPc.reading, .wAsleep, .rAsleep][2]? = some LogbookPc.rAsleep ∧
    ({ reader_count := 1, writing := false, completed_operations := 0,
       waiting_writers := 1 } : Logbook)
      = { reader_count := 1, writing := false, completed_operations := 0,
          waiting_writers := 1 } :=
  ⟨by decide,
   (start_reading_grant_condition 3 [.start_reading 0, .start_writing 1]
      { book := { reader_count := 1, writing := false, completed_operations := 0,
                  waiting_writers := 1 },
        pc := [.reading, .wAsleep, .idle] }
      { book := { reader_count := 1, writing := false, completed_operations := 0,
                  waiting_writers := 1 },
        pc := [.reading, .wAsleep, .rAsleep] }
      (.start_reading 2) (by decide) (by decide)).2.2 2 (Or.inl rfl) (Or.inr (by decide))⟩

/-- C4. In every reachable state of the logbook at most one thread holds write access,
and `writing` is true exactly when some thread holds it; write access is newly granted
to a thread only by its own `start_writing` (first test or re-test after a wake-up),
in a state where `reader_count` is 0 and `writing` is false, and the grant sets
`writing`. -/
theorem logbook_single_writer (k : Nat) (tr : List LogbookEv) (σ : LogbookSys)
    (h : runFrom LogbookSys.step (LogbookSys.init k) tr = some σ) :
    (∀ t u : Nat, σ.pc[t]? = some LogbookPc.writing → σ.pc[u]? = some LogbookPc.writing →
      t = u) ∧
    (σ.book.writing = true ↔ ∃ t : Nat, σ.pc[t]? = some LogbookPc.writing) ∧
    (∀ (e : LogbookEv) (σ' : LogbookSys) (t : Nat), σ.step e = some σ' →
      σ'.pc[t]? = some LogbookPc.writing → σ.pc[t]? ≠ some LogbookPc.writing →
        (e = .start_writing t ∨ e = .recheck_write t) ∧ σ.book.reader_count = 0 ∧
          σ.book.writing = false ∧ σ'.book.writing = true) := by
  have hinv := LogbookSys.book_reachable_inv k tr σ h
  have hwr := hinv.writers
  have hiw : ∀ a : LogbookPc, a.isWriting = true ↔ a = LogbookPc.writing := by
    intro a; cases a <;> simp [LogbookPc.isWriting]
  refine ⟨?_, ?_, ?_⟩
  · intro t u ht hu
    refine countP_le_one_unique LogbookPc.isWriting σ.pc t u _ _ ?_ ht rfl hu rfl
    rw [hwr]
    split <;> omega
  · constructor
    · intro hw
      rw [hw] at hwr
      have hpos : 0 < List.countP LogbookPc.isWriting σ.pc := by rw [hwr]; simp
      obtain ⟨i, a, hi, ha⟩ := (countP_pos_index _ _).mp hpos
      exact ⟨i, (hiw a).mp ha ▸ hi⟩
    · rintro ⟨t, ht⟩
      have hpos : 0 < List.countP LogbookPc.isWriting σ.pc :=
        (countP_pos_index _ _).mpr ⟨t, _, ht, rfl⟩
      rw [hwr] at hpos
      by_contra hne
      simp [hne] at hpos
  · intro e σ' t hstep hnew hold
    have hbook := LogbookSys.step_book σ σ' e hstep
    have hrc := hinv.readers
    rcases LogbookSys.step_gain σ σ' e hstep t _ (Or.inr rfl) hnew hold with
      ⟨hx, _⟩ | ⟨_, ⟨rfl, hg⟩ | ⟨rfl, hg⟩⟩
    · cases hx
    · obtain ⟨h1, h2, h3⟩ := Logbook.start_writing_pass_granted _ hg
      simp only [Logbook.start_writing_enter] at h1 h2
      simp only [] at hbook
      refine ⟨Or.inl rfl, by omega, h2, ?_⟩
      rw [hbook, h3]
    · obtain ⟨h1, h2, h3⟩ := Logbook.start_writing_pass_granted _ hg
      simp only [] at hbook
      refine ⟨Or.inr rfl, by omega, h2, ?_⟩
      rw [hbook, h3]

/-- Witness for C4: a second writer arrives while the first one writes and is put to
sleep; the first writer is the only holder of write access. -/
theorem logbook_single_writer_witness :
    (∀ t u : Nat, [LogbookPc.writing, .wAsleep][t]? = some LogbookPc.writing →
      [LogbookPc.writing, .wAsleep][u]? = some LogbookPc.writing → t = u) ∧
    (true = true ↔ ∃ t : Nat, [LogbookPc.writing, .wAsleep][t]? = some LogbookPc.writing) :=
  have h := logbook_single_writer 2 [.start_writing 0, .start_writing 1]
    { book := { reader_count := 0, writing := true, completed_operations := 0,
                waiting_writers := 1 },
      pc := [.writing, .wAsleep] } (by decide)
  ⟨h.1, h.2.1⟩

/-- C5, as the source behaves. In every reachable state `waiting_writers` is the number
of threads that have entered `start_writing` and have not been granted write access, so
it is never negative; a `start_writing` call changes it by one increment on entry and
one decrement on grant (both in one step when the call does not block), and no other
step changes it. -/
theorem waiting_writers_counts_blocked_writers (k : Nat) (tr : List LogbookEv)
    (σ : LogbookSys) (h : runFrom LogbookSys.step (LogbookSys.init k) tr = some σ) :
    σ.book.waiting_writers = (σ.pc.countP LogbookPc.isWaitingWriter : Nat) ∧
    σ.book.waiting_writers ≥ 0 ∧
    (∀ (t : Nat) (σ' : LogbookSys), σ.step (.start_writing t) = some σ' →
      σ'.book.waiting_writers = σ.book.waiting_writers +
        (if σ'.pc[t]? = some LogbookPc.writing then 0 else 1)) ∧
    (∀ (t : Nat) (σ' : LogbookSys), σ.step (.recheck_write t) = some σ' →
      σ'.book.waiting_writers = σ.book.waiting_writers +
        (if σ'.pc[t]? = some LogbookPc.writing then -1 else 0)) ∧
    (∀ (e : LogbookEv) (σ' : LogbookSys), σ.step e = some σ' →
      (∀ t : Nat, e ≠ .start_writing t) → (∀ t : Nat, e ≠ .recheck_write t) →
        σ'.book.waiting_writers = σ.book.waiting_writers) := by
  have hinv := LogbookSys.book_reachable_inv k tr σ h
  have hw := hinv.waiters
  refine ⟨hw, by omega, ?_, ?_, ?_⟩
  · intro t σ' hstep
    exact LogbookSys.step_waiting σ σ' _ hstep
  · intro t σ' hstep
    exact LogbookSys.step_waiting σ σ' _ hstep
  · intro e σ' hstep h1 h2
    have := LogbookSys.step_waiting σ σ' e hstep
    cases e with
    | start_writing t => exact absurd rfl (h1 t)
    | recheck_write t => exact absurd rfl (h2 t)
    | _ => simpa using this

/-- Witness for C5: two writers wait behind a third one that writes, and
`waiting_writers` is 2. -/
theorem waiting_writers_counts_blocked_writers_witness :
    (2 : Int) = ([LogbookPc.writing, .wAsleep, .wAsleep].countP LogbookPc.isWaitingWriter : Nat) ∧
    (2 : Int) ≥ 0 :=
  have h := waiting_writers_counts_blocked_writers 3
    [.start_writing 0, .start_writing 1, .start_writing 2]
    { book := { reader_count := 0, writing := true, completed_operations := 0,
                waiting_writers := 2 },
      pc := [.writing, .wAsleep, .wAsleep] } (by decide)
  ⟨h.1, h.2.1⟩

/-- Counterexample to C5 as stated. Thread 1 calls `start_writing` in a state with
`waiting_writers = 0` (thread 0 is writing). While it sleeps, thread 2 also calls
`start_writing`. When thread 0 has left and thread 1 is granted write access, its call
is complete and `waiting_writers` is 1, not the 0 it had before the call began. -/
theorem start_writing_leaves_other_waiters :
    runFrom LogbookSys.step (LogbookSys.init 3) [.start_writing 0]
      = some { book := { reader_count := 0, writing := true, completed_operations := 0,
                         waiting_writers := 0 },
               pc := [.writing, .idle, .idle] } ∧
    runFrom LogbookSys.step
        { book := { reader_count := 0, writing := true, completed_operations := 0,
                    waiting_writers := 0 },
          pc := [.writing, .idle, .idle] }
        [.start_writing 1, .start_writing 2, .stop_writing 0 1, .recheck_write 1]
      = some { book := { reader_count := 0, writing := true, completed_operations := 1,
                         waiting_writers := 1 },
               pc := [.idle, .writing, .wAsleep] } ∧
    (1 : Int) ≠ 0 := by
  decide

/-- C6. Along every run of the logbook, `completed_operations` grows by exactly the
number of `stop_writing` steps of the run (one per call, nothing from any other step),
so it never decreases; every `stop_writing` step of the run is taken by a thread that
holds write access at that moment; and in the simulation of x.cpp the only step that
changes `completed_operations` is the `stop_writing` of an operative that stands between
its `start_writing` and its `stop_writing`, which adds one. -/
theorem completed_operations_frame (σ σ' : LogbookSys) (tr : List LogbookEv)
    (h : runFrom LogbookSys.step σ tr = some σ') :
    σ'.book.completed_operations
      = σ.book.completed_operations + (tr.countP LogbookEv.isStopWriting : Nat) ∧
    σ.book.completed_operations ≤ σ'.book.completed_operations ∧
    (∀ (pre post : List LogbookEv) (t w : Nat), tr = pre ++ LogbookEv.stop_writing t w :: post →
      ∃ σa : LogbookSys, runFrom LogbookSys.step σ pre = some σa ∧
        σa.pc[t]? = some LogbookPc.writing) ∧
    (∀ (W W' : World) (e : WorldEv), W.step e = some W' →
      W'.logbook.completed_operations ≠ W.logbook.completed_operations →
        ∃ i w : Nat, e = WorldEv.op i w ∧ W.ops[i]? = some OpPc.writing ∧
          W'.logbook.completed_operations = W.logbook.completed_operations + 1) := by
  have h1 := LogbookSys.run_completed tr σ σ' h
  refine ⟨h1, by omega, ?_, ?_⟩
  · intro pre post t w htr
    subst htr
    obtain ⟨m, hm, hpost⟩ := runFrom_append LogbookSys.step pre _ σ σ' h
    refine ⟨m, hm, ?_⟩
    simp only [runFrom] at hpost
    cases hse : m.step (.stop_writing t w) with
    | none => simp [hse] at hpost
    | some s1 =>
      simp only [LogbookSys.step] at hse
      split at hse
      · assumption
      · cases hse
  · intro W W' e hstep hne
    obtain ⟨_, hcase⟩ := World.step_summary W W' e hstep
    rcases hcase with ⟨_, hco⟩ | ⟨i, p, q, hp, _, _, hco⟩
    · exact absurd hco hne
    · by_cases hpw : p = OpPc.writing
      · subst hpw
        cases e with
        | op j w =>
          obtain ⟨_, p', _, hp', _, _, hco'⟩ := World.opStep_summary W W' j w hstep
          by_cases hpw' : p' = OpPc.writing
          · subst hpw'
            exact ⟨j, w, rfl, hp', by simpa using hco'⟩
          · simp only [hpw', if_false, add_zero] at hco'
            exact absurd hco' hne
        | staff j w =>
          exact absurd (World.staffStep_summary W W' j w hstep).2.2 hne
        | spuriousOp j =>
          exfalso
          simp only [World.step] at hstep
          split at hstep
          · split at hstep
            · simp only [Option.some.injEq] at hstep
              subst hstep
              exact hne rfl
            · cases hstep
          · cases hstep
        | spuriousStaff j =>
          exfalso
          simp only [World.step] at hstep
          split at hstep
          · split at hstep
            · simp only [Option.some.injEq] at hstep
              subst hstep
              exact hne rfl
            · cases hstep
          · cases hstep
      · simp only [hpw, if_false, add_zero] at hco
        exact absurd hco hne

/-- Witness for C6: two writers write one after the other while a reader comes and
goes; the counter ends at 2. -/
theorem completed_operations_frame_witness :
    (2 : Int) = 0 + ([LogbookEv.start_writing 0, .start_reading 1, .stop_writing 0 0,
        .recheck_read 1, .stop_reading 1 0, .start_writing 0, .stop_writing 0 0].countP
          LogbookEv.isStopWriting : Nat) ∧
    (0 : Int) ≤ 2 :=
  have h := completed_operations_frame (LogbookSys.init 2)
    { book := { reader_count := 0, writing := false, completed_operations := 2,
                waiting_writers := 0 },
      pc := [.idle, .idle] }
    [.start_writing 0, .start_reading 1, .stop_writing 0 0, .recheck_read 1,
     .stop_reading 1 0, .start_writing 0, .stop_writing 0 0] (by decide)
  ⟨h.1, h.2.1⟩

/-! ## The claim on the whole simulation -/

/-- C7. For `N` operatives in groups of `M >= 1`, along every interleaving of the steps
of x.cpp `completed_operations` is the number of leaders that have returned, which is
the number of groups whose leader (row `g*M + M - 1`, identity `g*M + M`) has returned:
each group causes one increment.  In a state where all operatives have returned it is
`N / M`; hence two complete runs for the same `N` and `M` end with the same count.
When `M` divides `N` such a state is reached, for one by the schedule that runs the
operatives one after the other. -/
theorem completed_operations_final (N M : Nat) (hM : 1 ≤ M) (tr tr' : List WorldEv)
    (W W' : World) (h : runFrom World.step (World.init N M) tr = some W)
    (h' : runFrom World.step (World.init N M) tr' = some W') :
    W.logbook.completed_operations = (leadersDone W.ops M : Nat) ∧
    W.logbook.completed_operations
      = ((List.range (N / M)).countP
          (fun g => decide (W.ops[g * M + M - 1]? = some OpPc.done)) : Nat) ∧
    (W.allDone = true → W.logbook.completed_operations = ((N / M : Nat) : Int)) ∧
    (W.allDone = true → W'.allDone = true →
      W.logbook.completed_operations = W'.logbook.completed_operations) ∧
    (M ∣ N → ∃ V : World,
      runFrom World.step (World.init N M) (World.sequential M N) = some V ∧
        V.allDone = true) := by
  have hgroups : ∀ (t : List WorldEv) (V : World),
      runFrom World.step (World.init N M) t = some V →
        V.logbook.completed_operations
          = ((List.range (N / M)).countP
              (fun g => decide (V.ops[g * M + M - 1]? = some OpPc.done)) : Nat) := by
    intro t V hV
    obtain ⟨_, h2, _, h4⟩ := World.world_reachable_inv N M t V hV
    rw [h4, ← countP_leaders_by_group M hM (fun i => decide (V.ops[i]? = some OpPc.done)) N]
    congr 1
    unfold leadersDone
    rw [h2]
    apply List.countP_congr
    intro i _
    simp only [Bool.and_eq_true, decide_eq_true_eq, isLeader_iff_dvd i M hM]
  have hfinal : ∀ (t : List WorldEv) (V : World),
      runFrom World.step (World.init N M) t = some V → V.allDone = true →
        V.logbook.completed_operations = ((N / M : Nat) : Int) := by
    intro t V hV hdone
    obtain ⟨_, h2, _, h4⟩ := World.world_reachable_inv N M t V hV
    rw [h4, ← countP_range_multiples N M]
    congr 1
    unfold leadersDone
    rw [h2]
    apply List.countP_congr
    intro i hi
    have hiN : i < V.ops.length := by rw [h2]; exact List.mem_range.mp hi
    have hd : V.ops[i]? = some OpPc.done := by
      rw [List.getElem?_eq_getElem hiN]
      have hall := List.all_eq_true.mp hdone _ (List.getElem_mem hiN)
      generalize V.ops[i] = x at hall
      cases x <;> first | rfl | cases hall
    simp only [hd, decide_True, Bool.true_and, decide_eq_true_eq]
    exact isLeader_iff_dvd i M hM
  refine ⟨(World.world_reachable_inv N M tr W h).count, hgroups tr W h, hfinal tr W h, ?_, ?_⟩
  · intro hd hd'
    rw [hfinal tr W h hd, hfinal tr' W' h' hd']
  · intro hdiv
    obtain ⟨V, hV, hinv⟩ := SeqInv.run N M hM hdiv N (le_refl N)
    exact ⟨V, hV, SeqInv.all_returned N M V hinv⟩

/-- Witness for C7.  `N = 4`, `M = 2`: in the first run the operatives go one after the
other; in the second both leaders reach the barrier first and sleep there, a staff
member reads meanwhile, and the second leader waits for the logbook behind the first;
both runs end with all operatives returned and `completed_operations == 2`.
`N = 15`, `M = 5`: the sequential schedule ends with all operatives returned and
`completed_operations == 3`. -/
theorem completed_operations_final_witness :
    ((2 : Int) = ((4 / 2 : Nat) : Int) ∧ (2 : Int) = 2) ∧
    ∃ V : World,
      runFrom World.step (World.init 15 5) (World.sequential 5 15) = some V ∧
        V.allDone = true ∧ V.logbook.completed_operations = 3 := by
  have h := completed_operations_final 4 2 (by decide)
    [.op 0 0, .op 0 0, .op 0 0, .op 1 0, .op 1 0, .op 1 0, .op 1 0, .op 1 0,
     .op 2 0, .op 2 0, .op 2 0, .op 3 0, .op 3 0, .op 3 0, .op 3 0, .op 3 0]
    [.op 1 0, .op 3 0, .staff 0 0, .op 1 0, .op 3 0, .op 1 0, .op 3 0, .op 0 0, .op 2 0,
     .op 0 0, .op 2 0, .op 0 1, .op 2 3, .op 1 0, .op 3 0, .op 1 0, .op 3 0, .staff 1 0,
     .staff 0 1, .op 1 0, .op 1 3, .op 3 0, .op 3 0, .staff 1 0]
    { m := 2
      stations := [{ in_use := false }, { in_use := false }, { in_use := false },
                   { in_use := false }]
      groups := [{ counter := 2 }, { counter := 2 }]
      logbook := { reader_count := 0, writing := false, completed_operations := 2,
                   waiting_writers := 0 }
      ops := [.done, .done, .done, .done]
      staff := [{ iter := 0, pc := .idle }, { iter := 0, pc := .idle }] }
    { m := 2
      stations := [{ in_use := false }, { in_use := false }, { in_use := false },
                   { in_use := false }]
      groups := [{ counter := 2 }, { counter := 2 }]
      logbook := { reader_count := 1, writing := false, completed_operations := 2,
                   waiting_writers := 0 }
      ops := [.done, .done, .done, .done]
      staff := [{ iter := 1, pc := .idle }, { iter := 0, pc := .reading }] }
    (by decide) (by decide)
  refine ⟨⟨h.2.2.1 (by decide), h.2.2.2.1 (by decide) (by decide)⟩, ?_⟩
  obtain ⟨V, hV, hd⟩ :=
    (completed_operations_final 15 5 (by decide) [] [] (World.init 15 5) (World.init 15 5)
      rfl rfl).2.2.2.2 (by decide)
  exact ⟨V, hV, hd,
    (completed_operations_final 15 5 (by decide) _ _ V V hV hV).2.2.1 hd⟩

/-! ## The claims on the barrier and on the group index -/

/-- C8. For a group of `M` members that arrive once each, `M - 1` through
`non_leader_completed` and the leader through `leader_completed_and_wait`: in every
reachable state `counter` is the number of members that have arrived, lies between 0 and
`M`, no step decreases it, and whenever the leader is past the barrier `counter == M` and
all `M` members, the leader included, have arrived. -/
theorem group_barrier_counts (M l : Nat) (tr : List GroupEv) (σ : GroupSys)
    (h : runFrom GroupSys.step (GroupSys.init M l) tr = some σ) :
    0 ≤ σ.group.counter ∧ σ.group.counter ≤ M ∧
    σ.group.counter = (σ.pc.countP GroupPc.arrived : Nat) ∧
    (∀ (e : GroupEv) (σ' : GroupSys), σ.step e = some σ' →
      σ.group.counter ≤ σ'.group.counter) ∧
    (∀ t : Nat, σ.pc[t]? = some GroupPc.passed →
      σ.group.counter = M ∧
        ∀ u : Nat, u < M → ∃ p : GroupPc, σ.pc[u]? = some p ∧ p.arrived = true) := by
  obtain ⟨h1, h2, h3, h4⟩ := GroupSys.group_reachable_inv M l tr σ h
  have hle : List.countP GroupPc.arrived σ.pc ≤ σ.pc.length := List.countP_le_length _
  refine ⟨by omega, by omega, h3, fun e σ' hs => GroupSys.step_counter σ σ' e hs, ?_⟩
  intro t ht
  have hge := h4 t ht
  rw [h1] at hge
  refine ⟨by omega, ?_⟩
  intro u hu
  have hall : List.countP GroupPc.arrived σ.pc = σ.pc.length := by omega
  have hul : u < σ.pc.length := by omega
  refine ⟨σ.pc[u], List.getElem?_eq_getElem hul, ?_⟩
  exact (List.countP_eq_length.mp hall) _ (List.getElem_mem hul)

/-- Witness for C8: three members; the leader (member 2) arrives first and sleeps, is
woken by the signal of member 0, and passes the barrier once member 1 has arrived too. -/
theorem group_barrier_counts_witness :
    runFrom GroupSys.step (GroupSys.init 3 2)
        [.leader_completed_and_wait 2, .non_leader_completed 0 2,
         .non_leader_completed 1 2, .recheck 2]
      = some { group := { counter := 3 }, m := 3, leader := 2,
               pc := [.finished, .finished, .passed] } ∧
    (3 : Int) ≤ (3 : Nat) ∧
    (3 : Int) = ([GroupPc.finished, .finished, .passed].countP GroupPc.arrived : Nat) :=
  have h := group_barrier_counts 3 2
    [.leader_completed_and_wait 2, .non_leader_completed 0 2, .non_leader_completed 1 2,
     .recheck 2]
    { group := { counter := 3 }, m := 3, leader := 2, pc := [.finished, .finished, .passed] }
    (by decide)
  ⟨by decide, h.2.1, h.2.2.1⟩

/-- C9. When `counter == m - 1` at the entry of `leader_completed_and_wait(m)`, the call
increments `counter` to `m`, finds `counter < m` false at its first test and returns
without calling `pthread_cond_wait`: the leader goes straight past the barrier. -/
theorem leader_last_does_not_wait (σ σ' : GroupSys) (t : Nat)
    (hlast : σ.group.counter = σ.m - 1)
    (hstep : σ.step (.leader_completed_and_wait t) = some σ') :
    σ.group.leader_completed_and_wait σ.m = ({ counter := σ.m }, true) ∧
    σ'.group.counter = σ.m ∧ σ'.pc[t]? = some GroupPc.passed := by
  have hf : σ.group.leader_completed_and_wait σ.m = ({ counter := σ.m }, true) := by
    simp only [Group.leader_completed_and_wait, Group.must_wait, hlast, sub_add_cancel,
      lt_self_iff_false, decide_False, Bool.not_false]
  refine ⟨hf, ?_⟩
  simp only [GroupSys.step] at hstep
  split at hstep
  · rename_i ht
    simp only [Option.some.injEq] at hstep
    subst hstep
    simp only [hf, if_true, List.getElem?_set_self (List.getElem?_eq_some_iff.mp ht.1).1,
      and_self]
  · cases hstep

/-- Witness for C9: two members; member 0 has arrived, so `counter` is 1 when the leader
(member 1) enters, and the leader passes at once with `counter == 2`. -/
theorem leader_last_does_not_wait_witness :
    ({ counter := 1 } : Group).leader_completed_and_wait 2 = ({ counter := 2 }, true) ∧
    (2 : Int) = 2 ∧ [GroupPc.finished, .passed][1]? = some GroupPc.passed :=
  leader_last_does_not_wait
    { group := { counter := 1 }, m := 2, leader := 1, pc := [.finished, .before] }
    { group := { counter := 2 }, m := 2, leader := 1, pc := [.finished, .passed] }
    1 (by decide) (by decide)

theorem group_index_eq_iff (id M g : Int) (hid : 1 ≤ id) (hM : 1 ≤ M) :
    group_index id M = g ↔ g * M + 1 ≤ id ∧ id ≤ g * M + M := by
  unfold group_index
  rw [Int.tdiv_eq_ediv (by omega) (by omega)]
  constructor
  · intro h
    have h1 := Int.emod_add_ediv (id - 1) M
    have h2 := Int.emod_nonneg (id - 1) (by omega : M ≠ 0)
    have h3 := Int.emod_lt_of_pos (id - 1) (by omega : 0 < M)
    rw [h] at h1
    have h4 : g * M = M * g := mul_comm _ _
    constructor <;> omega
  · rintro ⟨h1, h2⟩
    have h4 : g * M = M * g := mul_comm _ _
    have := (Int.ediv_emod_unique (a := id - 1) (r := id - 1 - M * g) (q := g)
      (by omega : 0 < M)).mpr ⟨by omega, by omega, by omega⟩
    exact this.1

/-- C10. For `M >= 1` and `N` divisible by `M`, every group index `g` with
`0 <= g < N / M` is the value of `(id - 1) / M` for the identities `g*M+1 .. g*M+M` and
for no other identity in `1..N`; these identities all lie in `1..N` and there are
exactly `M` of them. -/
theorem group_index_partition (M N g : Int) (hM : 1 ≤ M) (hdiv : M ∣ N) (hg0 : 0 ≤ g)
    (hg : g < N.tdiv M) :
    (∀ id : Int, 1 ≤ id → id ≤ N →
      (group_index id M = g ↔ g * M + 1 ≤ id ∧ id ≤ g * M + M)) ∧
    (∀ id : Int, g * M + 1 ≤ id → id ≤ g * M + M → 1 ≤ id ∧ id ≤ N) ∧
    (Finset.Icc 1 N).filter (fun id => group_index id M = g)
      = Finset.Icc (g * M + 1) (g * M + M) ∧
    (((Finset.Icc 1 N).filter (fun id => group_index id M = g)).card : Int) = M := by
  obtain ⟨c, rfl⟩ := hdiv
  have hc : (M * c).tdiv M = c := Int.mul_tdiv_cancel_left c (by omega)
  rw [hc] at hg
  have hgM : 0 ≤ g * M := Int.mul_nonneg hg0 (by omega)
  have hle : (g + 1) * M ≤ c * M := Int.mul_le_mul_of_nonneg_right (by omega) (by omega)
  have hNe : M * c = c * M := mul_comm _ _
  have hexp : (g + 1) * M = g * M + M := by ring
  have hin : ∀ id : Int, g * M + 1 ≤ id → id ≤ g * M + M → 1 ≤ id ∧ id ≤ M * c := by
    intro id h1 h2
    constructor <;> omega
  have hset : (Finset.Icc 1 (M * c)).filter (fun id => group_index id M = g)
      = Finset.Icc (g * M + 1) (g * M + M) := by
    ext id
    simp only [Finset.mem_filter, Finset.mem_Icc]
    constructor
    · rintro ⟨⟨h1, _⟩, h3⟩
      exact (group_index_eq_iff id M g h1 hM).mp h3
    · rintro ⟨h1, h2⟩
      obtain ⟨h3, h4⟩ := hin id h1 h2
      exact ⟨⟨h3, h4⟩, (group_index_eq_iff id M g h3 hM).mpr ⟨h1, h2⟩⟩
  refine ⟨fun id h1 _ => group_index_eq_iff id M g h1 hM, hin, hset, ?_⟩
  rw [hset, Int.card_Icc]
  have : g * M + M + 1 - (g * M + 1) = M := by ring
  rw [this, Int.toNat_of_nonneg (by omega)]

/-- Witness for C10: with 15 operatives in groups of 5, group index 1 belongs to the
identities 6..10. -/
theorem group_index_partition_witness :
    (Finset.Icc 1 15).filter (fun id => group_index id 5 = 1) = Finset.Icc (1 * 5 + 1) (1 * 5 + 5) ∧
    (((Finset.Icc 1 15).filter (fun id => group_index id 5 = 1)).card : Int) = 5 :=
  (group_index_partition 5 15 1 (by decide) (by decide) (by decide) (by decide)).2.2


/-! ## Leaders and indices -/

theorem leader_id_iff_tmod (id M : Int) (h1 : 1 ≤ id) (hM : 1 ≤ M) :
    id = leader_id id M ↔ id.tmod M = 0 := by
  obtain ⟨hlo, hhi⟩ := (group_index_eq_iff id M (group_index id M) h1 hM).mp rfl
  rw [Int.tmod_eq_emod (by omega) (by omega)]
  unfold leader_id
  constructor
  · intro h
    rw [h]
    have : group_index id M * M + M = M * (group_index id M + 1) := by ring
    rw [this]
    exact Int.mul_emod_right _ _
  · intro h
    obtain ⟨q, hq⟩ := Int.dvd_of_emod_eq_zero h
    have h2 : group_index id M * M + M = M * (group_index id M + 1) := by ring
    have h3 : group_index id M * M = M * group_index id M := by ring
    have hq1 : q ≤ group_index id M + 1 := by
      apply Int.le_of_mul_le_mul_left (a := M) _ (by omega)
      omega
    have hq2 : group_index id M < q := by
      apply Int.lt_of_mul_lt_mul_left (a := M) _ (by omega)
      omega
    have hq3 : q = group_index id M + 1 := by omega
    have hid : id = M * (group_index id M + 1) := by rw [← hq3]; exact hq
    exact hid.trans h2.symm

theorem group_top_le (M N id : Int) (hM : 1 ≤ M) (hdiv : M ∣ N) (h1 : 1 ≤ id) (hN : id ≤ N) :
    0 ≤ group_index id M ∧ group_index id M + 1 ≤ N.tdiv M ∧
      group_index id M * M + M ≤ N := by
  obtain ⟨hlo, hhi⟩ := (group_index_eq_iff id M (group_index id M) h1 hM).mp rfl
  obtain ⟨c, rfl⟩ := hdiv
  have hc : (M * c).tdiv M = c := Int.mul_tdiv_cancel_left c (by omega)
  have h3 : group_index id M * M = M * group_index id M := by ring
  have hg0 : 0 ≤ group_index id M := by
    unfold group_index
    exact Int.tdiv_nonneg (by omega) (by omega)
  have hlt : group_index id M < c := by
    apply Int.lt_of_mul_lt_mul_left (a := M) _ (by omega)
    omega
  have hle : M * (group_index id M + 1) ≤ M * c :=
    Int.mul_le_mul_of_nonneg_left (by omega) (by omega)
  have h4 : M * (group_index id M + 1) = M * group_index id M + M := by ring
  rw [hc]
  refine ⟨hg0, by omega, by omega⟩

/-- C11. For `M >= 1`, `N` divisible by `M` and an identity `id` in `1..N`, the leader
test `id == group_index * m + m` of x.cpp holds exactly when no identity of `1..N` with
the same group index is larger than `id`; `(group_id + 1) * M` of
Shadows_of_Small_Health.cpp is the same `leader_id`; and every group index `g` with
`0 <= g < N / M` has exactly one identity in `1..N` that passes the leader test. -/
theorem leader_is_largest_in_group (M N id : Int) (hM : 1 ≤ M) (hdiv : M ∣ N) (h1 : 1 ≤ id)
    (hN : id ≤ N) :
    (id = leader_id id M ↔
      ∀ j : Int, 1 ≤ j → j ≤ N → group_index j M = group_index id M → j ≤ id) ∧
    leader_id id M = Shadows.leader_id id M ∧
    (∀ g : Int, 0 ≤ g → g < N.tdiv M →
      ∃! l : Int, 1 ≤ l ∧ l ≤ N ∧ group_index l M = g ∧ l = leader_id l M) := by
  obtain ⟨hlo, hhi⟩ := (group_index_eq_iff id M (group_index id M) h1 hM).mp rfl
  obtain ⟨hg0, _, htop⟩ := group_top_le M N id hM hdiv h1 hN
  have hgM : 0 ≤ group_index id M * M := Int.mul_nonneg hg0 (by omega)
  refine ⟨?_, ?_, ?_⟩
  · constructor
    · intro hl j hj1 _ hj
      have := ((group_index_eq_iff j M (group_index id M) hj1 hM).mp hj).2
      unfold leader_id at hl
      omega
    · intro hmax
      have hin : group_index (group_index id M * M + M) M = group_index id M :=
        (group_index_eq_iff _ M _ (by omega) hM).mpr ⟨by omega, by omega⟩
      have := hmax (group_index id M * M + M) (by omega) htop hin
      unfold leader_id
      omega
  · unfold leader_id Shadows.leader_id
    ring
  · intro g hg0' hg
    obtain ⟨c, rfl⟩ := hdiv
    have hc : (M * c).tdiv M = c := Int.mul_tdiv_cancel_left c (by omega)
    rw [hc] at hg
    have hgM' : 0 ≤ g * M := Int.mul_nonneg hg0' (by omega)
    have hle : M * (g + 1) ≤ M * c := Int.mul_le_mul_of_nonneg_left (by omega) (by omega)
    have h4 : M * (g + 1) = g * M + M := by ring
    have hin : group_index (g * M + M) M = g :=
      (group_index_eq_iff _ M g (by omega) hM).mpr ⟨by omega, by omega⟩
    refine ⟨g * M + M, ⟨by omega, by omega, hin, ?_⟩, ?_⟩
    · unfold leader_id
      rw [hin]
    · rintro l ⟨hl1, _, hlg, hll⟩
      unfold leader_id at hll
      rw [hlg] at hll
      exact hll

/-- Witness for C11: with 15 operatives in groups of 5, identity 10 passes the leader
test and is the largest identity with group index 1. -/
theorem leader_is_largest_in_group_witness :
    ((10 : Int) = leader_id 10 5 ↔
      ∀ j : Int, 1 ≤ j → j ≤ 15 → group_index j 5 = group_index 10 5 → j ≤ 10) ∧
    leader_id 10 5 = Shadows.leader_id 10 5 :=
  have h := leader_is_largest_in_group 5 15 10 (by decide) (by decide) (by decide) (by decide)
  ⟨h.1, h.2.1⟩


theorem World.opStep_shape (W W' : World) (i w : Nat) (h : W.opStep i w = some W') :
    W'.m = W.m ∧ W'.stations.length = W.stations.length ∧
      W'.groups.length = W.groups.length := by
  unfold World.opStep at h
  simp only [] at h
  split at h
  · obtain ⟨s, _, rfl⟩ := Option.map_eq_some'.mp h
    exact ⟨rfl, by simp [setAt], rfl⟩
  · obtain ⟨s, _, rfl⟩ := Option.map_eq_some'.mp h
    exact ⟨rfl, by simp [setAt], rfl⟩
  · obtain ⟨s, _, rfl⟩ := Option.map_eq_some'.mp h
    exact ⟨rfl, by simp [setAt], rfl⟩
  · obtain ⟨gr, _, hgr⟩ := Option.bind_eq_some.mp h
    split at hgr
    · simp only [Option.some.injEq] at hgr
      subst hgr
      exact ⟨rfl, rfl, by simp [setAt]⟩
    · obtain ⟨q, _, rfl⟩ := Option.map_eq_some'.mp hgr
      exact ⟨rfl, rfl, by simp [setAt]⟩
  · obtain ⟨gr, _, rfl⟩ := Option.map_eq_some'.mp h
    exact ⟨rfl, rfl, rfl⟩
  · simp only [Option.some.injEq] at h
    subst h
    exact ⟨rfl, rfl, rfl⟩
  · simp only [Option.some.injEq] at h
    subst h
    exact ⟨rfl, rfl, rfl⟩
  · split at h
    · obtain ⟨q, _, rfl⟩ := Option.map_eq_some'.mp h
      exact ⟨rfl, rfl, rfl⟩
    · simp only [Option.some.injEq] at h
      subst h
      exact ⟨rfl, rfl, rfl⟩
  · cases h

theorem World.staffStep_shape (W W' : World) (j w : Nat) (h : W.staffStep j w = some W') :
    W'.m = W.m ∧ W'.stations = W.stations ∧ W'.groups = W.groups := by
  unfold World.staffStep at h
  split at h
  · cases h
  · split at h
    · simp only [Option.some.injEq] at h
      subst h
      exact ⟨rfl, rfl, rfl⟩
    · simp only [Option.some.injEq] at h
      subst h
      exact ⟨rfl, rfl, rfl⟩
    · simp only [] at h
      split at h
      · obtain ⟨q, _, rfl⟩ := Option.map_eq_some'.mp h
        exact ⟨rfl, rfl, rfl⟩
      · simp only [Option.some.injEq] at h
        subst h
        exact ⟨rfl, rfl, rfl⟩
    · cases h

theorem World.step_shape (W W' : World) (e : WorldEv) (h : W.step e = some W') :
    W'.m = W.m ∧ W'.stations.length = W.stations.length ∧
      W'.groups.length = W.groups.length := by
  cases e with
  | op i w => exact World.opStep_shape W W' i w h
  | staff j w =>
    obtain ⟨h1, h2, h3⟩ := World.staffStep_shape W W' j w h
    exact ⟨h1, by rw [h2], by rw [h3]⟩
  | spuriousOp i =>
    simp only [World.step] at h
    split at h
    · split at h
      · simp only [Option.some.injEq] at h
        subst h
        exact ⟨rfl, rfl, rfl⟩
      · cases h
    · cases h
  | spuriousStaff j =>
    simp only [World.step] at h
    split at h
    · split at h
      · simp only [Option.some.injEq] at h
        subst h
        exact ⟨rfl, rfl, rfl⟩
      · cases h
    · cases h

theorem World.reachable_shape (n m : Int) (tr : List WorldEv) (W : World)
    (h : runFrom World.step (World.init n m) tr = some W) :
    W.m = m ∧ W.stations.length = 4 ∧ W.groups.length = (n.tdiv m).toNat := by
  refine runFrom_invariant World.step
    (fun V => V.m = m ∧ V.stations.length = 4 ∧ V.groups.length = (n.tdiv m).toNat)
    ?_ tr _ W ?_ h
  · intro s e s' ⟨h1, h2, h3⟩ hstep
    obtain ⟨g1, g2, g3⟩ := World.step_shape s s' e hstep
    exact ⟨g1.trans h1, g2.trans h2, g3.trans h3⟩
  · simp [World.init]

/-- C12. For `M >= 1`, `N` divisible by `M` and an identity `id` in `1..N`: `id % 4`
lies in `0..3` and `(id - 1) / M` lies in `0..N/M - 1`; and in every state that the
simulation started by `main` on `N` and `M` can reach, `stations` still has its 4
elements and `groups` its `N / M` elements, so `stations[station_index]` and
`groups[group_index]` are inside the vectors. -/
theorem indices_in_range (M N id : Int) (hM : 1 ≤ M) (hdiv : M ∣ N) (h1 : 1 ≤ id)
    (hN : id ≤ N) :
    (0 ≤ station_index id ∧ station_index id ≤ 3) ∧
    (0 ≤ group_index id M ∧ group_index id M ≤ N.tdiv M - 1) ∧
    (∀ (tr : List WorldEv) (W : World), runFrom World.step (World.init N M) tr = some W →
      (getAt W.stations (station_index id)).isSome = true ∧
        (getAt W.groups (group_index id W.m)).isSome = true) := by
  obtain ⟨hg0, hg1, _⟩ := group_top_le M N id hM hdiv h1 hN
  have hs : 0 ≤ station_index id ∧ station_index id ≤ 3 := by
    unfold station_index
    rw [Int.tmod_eq_emod (by omega) (by omega)]
    omega
  refine ⟨hs, ⟨hg0, by omega⟩, ?_⟩
  intro tr W hW
  obtain ⟨hm, h4, hG⟩ := World.reachable_shape N M tr W hW
  rw [hm]
  constructor
  · simp only [getAt, hs.1, if_true]
    rw [Option.isSome_iff_exists]
    exact ⟨_, List.getElem?_eq_getElem (by omega)⟩
  · simp only [getAt, hg0, if_true]
    rw [Option.isSome_iff_exists]
    exact ⟨_, List.getElem?_eq_getElem (by omega)⟩

/-- Witness for C12: identity 15 of 15 operatives in groups of 5 uses station index 3
and group index 2, the last element of each vector. -/
theorem indices_in_range_witness :
    ((0 : Int) ≤ station_index 15 ∧ station_index 15 ≤ 3) ∧
    ((0 : Int) ≤ group_index 15 5 ∧ group_index 15 5 ≤ (15 : Int).tdiv 5 - 1) :=
  have h := indices_in_range 5 15 15 (by decide) (by decide) (by decide) (by decide)
  ⟨h.1, h.2.1⟩

/-! ## The leader rules of the variants -/

theorem leader_rules_same (M id : Int) (hM : 1 ≤ M) (h1 : 1 ≤ id) :
    (id = leader_id id M ↔ is_leader id M = true) ∧
    (id = Shadows.leader_id id M ↔ is_leader id M = true) := by
  have h := leader_id_iff_tmod id M h1 hM
  have he : Shadows.leader_id id M = leader_id id M := by
    unfold leader_id Shadows.leader_id
    ring
  simp only [is_leader, decide_eq_true_eq, he]
  exact ⟨h, h⟩

/-- C19, as the sources behave. The leader rules of the variants agree on every identity
the programs use: for all `M >= 1` and `id >= 1`, the rule of x.cpp
(`id == group_index * m + m`), the rule of Shadows_of_Small_Health.cpp
(`id == (group_id + 1) * M`) and the rule `id % M == 0` of y.cpp and z.cpp give the same
answer. -/
theorem leader_rules_agree (M id : Int) (hM : 1 ≤ M) (h1 : 1 ≤ id) :
    (decide (id = leader_id id M) = is_leader id M) ∧
    (decide (id = Shadows.leader_id id M) = is_leader id M) := by
  obtain ⟨ha, hb⟩ := leader_rules_same M id hM h1
  constructor
  · cases hl : is_leader id M with
    | true => simp only [decide_eq_true_eq]; exact ha.mpr hl
    | false =>
      simp only [decide_eq_false_iff_not]
      intro hc
      rw [ha.mp hc] at hl
      cases hl
  · cases hl : is_leader id M with
    | true => simp only [decide_eq_true_eq]; exact hb.mpr hl
    | false =>
      simp only [decide_eq_false_iff_not]
      intro hc
      rw [hb.mp hc] at hl
      cases hl

/-- Witness for C19: for `M = 5`, identity 10 is a leader and identity 7 is not, under
all three rules. -/
theorem leader_rules_agree_witness :
    ((decide ((10 : Int) = leader_id 10 5) = is_leader 10 5) ∧
      (decide ((10 : Int) = Shadows.leader_id 10 5) = is_leader 10 5)) ∧
    ((decide ((7 : Int) = leader_id 7 5) = is_leader 7 5) ∧
      (decide ((7 : Int) = Shadows.leader_id 7 5) = is_leader 7 5)) :=
  ⟨leader_rules_agree 5 10 (by decide) (by decide),
   leader_rules_agree 5 7 (by decide) (by decide)⟩

/-- Counterexample to C19 as stated: there is no `M >= 1` and identity `id >= 1` on
which the rule `id == ((id-1)/M + 1) * M` and the rule `id % M == 0` differ, nor one on
which `id == group_index * m + m` and `id % M == 0` differ. -/
theorem leader_rules_never_differ :
    ¬ ∃ M id : Int, 1 ≤ M ∧ 1 ≤ id ∧
      (decide (id = Shadows.leader_id id M) ≠ is_leader id M ∨
        decide (id = leader_id id M) ≠ is_leader id M) := by
  rintro ⟨M, id, hM, h1, hne⟩
  obtain ⟨ha, hb⟩ := leader_rules_same M id hM h1
  have e1 : decide (id = leader_id id M) = is_leader id M := by
    cases hl : is_leader id M with
    | true => simp only [decide_eq_true_eq]; exact ha.mpr hl
    | false =>
      simp only [decide_eq_false_iff_not]
      intro hc
      rw [ha.mp hc] at hl
      cases hl
  have e2 : decide (id = Shadows.leader_id id M) = is_leader id M := by
    cases hl : is_leader id M with
    | true => simp only [decide_eq_true_eq]; exact hb.mpr hl
    | false =>
      simp only [decide_eq_false_iff_not]
      intro hc
      rw [hb.mp hc] at hl
      cases hl
  rcases hne with h | h
  · exact h e2
  · exact h e1


/-! ## Start-up and permission checks -/

/-- C13, as the sources behave. `main` of x.cpp and `main` of
Shadows_of_Small_Health.cpp do not test whether `N` is divisible by `M`: called with
`argc == 3` and reading `N >= 0` and `M >= 1`, they build `N / M` groups (truncating
division) and create all `N` operative threads and both staff threads, whatever the
remainder of `N` by `M`. -/
theorem main_spawns_without_validation (n m : Int) (hn : 0 ≤ n) (hm : 1 ≤ m) :
    World.main 3 n m = MainResult.spawned (World.init n m) ∧
    (World.init n m).ops.length = n.toNat ∧ (World.init n m).staff.length = 2 ∧
    (World.init n m).groups.length = (n.tdiv m).toNat ∧
    Shadows.main 3 n m = MainResult.spawned
      { G := n.tdiv m, group_counter := List.replicate (n.tdiv m).toNat 0,
        op_threads := n.toNat, staff_threads := 2 } := by
  have hm0 : m ≠ 0 := by omega
  have hq : ¬ n.tdiv m < 0 := by
    rw [Int.tdiv_eq_ediv hn (by omega)]
    exact not_lt.mpr (Int.ediv_nonneg hn (by omega))
  have hn0 : ¬ n < 0 := not_lt.mpr hn
  refine ⟨?_, ?_, ?_, ?_, ?_⟩
  · simp [World.main, hm0, hq, hn0]
  · simp [World.init]
  · simp [World.init]
  · simp [World.init]
  · simp [Shadows.main, hm0, hq, hn0]

/-- Witness for C13: `N = 5`, `M = 2`. -/
theorem main_spawns_without_validation_witness :
    World.main 3 5 2 = MainResult.spawned (World.init 5 2) ∧
    (World.init 5 2).ops.length = (5 : Int).toNat ∧ (World.init 5 2).staff.length = 2 ∧
    (World.init 5 2).groups.length = ((5 : Int).tdiv 2).toNat ∧
    Shadows.main 3 5 2 = MainResult.spawned
      { G := (5 : Int).tdiv 2, group_counter := List.replicate ((5 : Int).tdiv 2).toNat 0,
        op_threads := (5 : Int).toNat, staff_threads := 2 } :=
  main_spawns_without_validation 5 2 (by decide) (by decide)

/-- Counterexample to C13 as stated: for `N = 5` and `M = 2`, where 2 does not divide 5,
`main` of x.cpp ends its start-up with 5 operative threads, 2 staff threads and 2
groups, and `main` of Shadows_of_Small_Health.cpp with 5 operative threads and 2 staff
threads; neither stops with an error. -/
theorem main_accepts_five_by_two :
    ¬ ((2 : Int) ∣ 5) ∧
    World.main 3 5 2 = MainResult.spawned
      { m := 2
        stations := [{ in_use := false }, { in_use := false }, { in_use := false },
                     { in_use := false }]
        groups := [{ counter := 0 }, { counter := 0 }]
        logbook := { reader_count := 0, writing := false, completed_operations := 0,
                     waiting_writers := 0 }
        ops := [.start, .start, .start, .start, .start]
        staff := [{ iter := 0, pc := .idle }, { iter := 0, pc := .idle }] } ∧
    Shadows.main 3 5 2 = MainResult.spawned
      { G := 2, group_counter := [0, 0], op_threads := 5, staff_threads := 2 } := by
  decide

/-- C14, as the source behaves. The accounting operations of the `Logbook` of x.cpp make
no permission check and never fail: in every state of the logbook `stop_reading`
decrements `reader_count`, `stop_writing` clears `writing` and increments
`completed_operations`, and `get_completed_operations` returns the counter. -/
theorem logbook_operations_unchecked (b : Logbook) :
    b.stop_reading.1 = { b with reader_count := b.reader_count - 1 } ∧
    b.stop_writing.1
      = { b with writing := false, completed_operations := b.completed_operations + 1 } ∧
    b.get_completed_operations = b.completed_operations :=
  ⟨rfl, rfl, rfl⟩

/-- Counterexample to C14 as stated: on the fresh logbook, where nobody holds read or
write access, `stop_reading` sets `reader_count` to -1, `stop_writing` sets
`completed_operations` to 1, and `get_completed_operations` returns 0. -/
theorem logbook_operations_without_permission :
    Logbook.new.reader_count = 0 ∧ Logbook.new.writing = false ∧
    Logbook.new.stop_reading.1
      = { reader_count := -1, writing := false, completed_operations := 0,
          waiting_writers := 0 } ∧
    Logbook.new.stop_writing.1
      = { reader_count := 0, writing := false, completed_operations := 1,
          waiting_writers := 0 } ∧
    Logbook.new.get_completed_operations = 0 := by
  decide


/-! ## Wake-ups of the logbook -/

theorem condSignal_cases {α : Type} [DecidableEq α] (asleep woken : α) (w : Nat)
    (l l' : List α) (h : condSignal asleep woken w l = some l') :
    (asleep ∈ l ∧ l[w]? = some asleep ∧ l' = l.set w woken) ∨ (asleep ∉ l ∧ l' = l) := by
  unfold condSignal at h
  split at h
  · rename_i hmem
    split at h
    · rename_i hw
      simp only [Option.some.injEq] at h
      exact Or.inl ⟨hmem, hw, h.symm⟩
    · cases h
  · rename_i hmem
    simp only [Option.some.injEq] at h
    exact Or.inr ⟨hmem, h.symm⟩

theorem condBroadcast_get {α : Type} [DecidableEq α] (asleep woken : α) (l : List α)
    (u : Nat) :
    (condBroadcast asleep woken l)[u]?
      = (l[u]?).map (fun p => if p = asleep then woken else p) := by
  unfold condBroadcast
  rw [List.getElem?_map]

theorem condBroadcast_not_asleep {α : Type} [DecidableEq α] (asleep woken : α)
    (hne : woken ≠ asleep) (l : List α) (u : Nat) :
    (condBroadcast asleep woken l)[u]? ≠ some asleep := by
  rw [condBroadcast_get]
  cases hl : l[u]? with
  | none => simp
  | some p =>
    simp only [Option.map_some', ne_eq, Option.some.injEq]
    by_cases hp : p = asleep
    · simp only [hp, if_true]; exact hne
    · simp only [hp, if_false, not_false_eq_true]

theorem signal_wakes_waiter (w : Nat) (pcs q : List LogbookPc)
    (h : condSignal LogbookPc.wAsleep LogbookPc.wWoken w pcs = some q)
    (hpos : 0 < pcs.countP LogbookPc.isWaitingWriter) :
    ∃ u : Nat, q[u]? = some LogbookPc.wWoken := by
  rcases condSignal_cases _ _ w pcs q h with ⟨_, hw, rfl⟩ | ⟨hno, rfl⟩
  · exact ⟨w, List.getElem?_set_self (List.getElem?_eq_some_iff.mp hw).1⟩
  · obtain ⟨i, a, hi, ha⟩ := (countP_pos_index _ _).mp hpos
    refine ⟨i, ?_⟩
    cases a <;> simp [LogbookPc.isWaitingWriter] at ha
    · exact absurd (List.getElem?_mem hi) hno
    · exact hi

theorem LogbookSys.awake_init (k : Nat) : (LogbookSys.init k).Awake := by
  constructor
  · intro u hu
    simp only [LogbookSys.init, List.getElem?_replicate] at hu
    split at hu <;> cases hu
  · intro h
    simp [LogbookSys.init, Logbook.new] at h


theorem Logbook.start_reading_refused (b : Logbook) (h : b.start_reading.2 = false) :
    b.start_reading.1 = b ∧ (b.writing = true ∨ b.waiting_writers > 0) := by
  unfold Logbook.start_reading at h ⊢
  split at h
  · rename_i hg
    simp only [Bool.or_eq_true, decide_eq_true_eq] at hg
    exact ⟨by simp only [Bool.or_eq_true, decide_eq_true_eq, hg, if_true], hg⟩
  · cases h

theorem Logbook.start_writing_pass_refused (b : Logbook) (h : b.start_writing_pass.2 = false) :
    b.reader_count > 0 ∨ b.writing = true := by
  unfold Logbook.start_writing_pass at h
  split at h
  · rename_i hg
    simpa only [Bool.or_eq_true, decide_eq_true_eq] using hg
  · cases h

theorem woken_kept (pcs : List LogbookPc) (t : Nat) (a b : LogbookPc)
    (ht : pcs[t]? = some a) (ha : a ≠ LogbookPc.wWoken)
    (h : ∃ u : Nat, pcs[u]? = some LogbookPc.wWoken) :
    ∃ u : Nat, (pcs.set t b)[u]? = some LogbookPc.wWoken := by
  obtain ⟨u, hu⟩ := h
  refine ⟨u, ?_⟩
  have hne : t ≠ u := by
    rintro rfl
    rw [ht] at hu
    exact ha (Option.some.inj hu)
  rw [List.getElem?_set_ne hne]
  exact hu

theorem LogbookSys.awake_readPass (σ : LogbookSys) (t : Nat) (a : LogbookPc)
    (hinv : σ.Inv) (ha : σ.Awake) (ht : σ.pc[t]? = some a)
    (hidle : a = LogbookPc.idle ∨ a = LogbookPc.rWoken) : (σ.readPass t).Awake := by
  have hlen : t < σ.pc.length := (List.getElem?_eq_some_iff.mp ht).1
  have hrc := hinv.readers
  have hnw : a ≠ LogbookPc.wWoken := by rcases hidle with rfl | rfl <;> decide
  cases hg : σ.book.start_reading.2 with
  | false =>
    obtain ⟨hb, hguard⟩ := Logbook.start_reading_refused σ.book hg
    constructor
    · intro u hu
      simp only [LogbookSys.readPass, hg, hb, Bool.false_eq_true, if_false] at hu ⊢
      by_cases hut : t = u
      · exact hguard
      · rw [List.getElem?_set_ne hut] at hu
        exact ha.reader u hu
    · intro hw
      simp only [LogbookSys.readPass, hg, hb, Bool.false_eq_true, if_false] at hw ⊢
      rcases ha.writer hw with h1 | h1 | h1
      · exact Or.inl h1
      · exact Or.inr (Or.inl h1)
      · exact Or.inr (Or.inr (woken_kept σ.pc t a _ ht hnw h1))
  | true =>
    obtain ⟨_, _, hb⟩ := Logbook.start_reading_granted σ.book hg
    constructor
    · intro u hu
      simp only [LogbookSys.readPass, hg, hb, if_true] at hu ⊢
      exact ha.reader u (set_origin σ.pc t u _ _ hu (by decide))
    · intro _
      simp only [LogbookSys.readPass, hg, hb, if_true]
      exact Or.inr (Or.inl (by omega))

theorem LogbookSys.awake_writePass (σ : LogbookSys) (t : Nat)
    (hreader : ∀ u : Nat, σ.pc[u]? = some LogbookPc.rAsleep →
      σ.book.writing = true ∨ σ.book.waiting_writers > 0) : (σ.writePass t).Awake := by
  cases hg : σ.book.start_writing_pass.2 with
  | false =>
    have hb := Logbook.start_writing_pass_blocked σ.book hg
    have hguard := Logbook.start_writing_pass_refused σ.book hg
    constructor
    · intro u hu
      simp only [LogbookSys.writePass, hg, hb, Bool.false_eq_true, if_false] at hu ⊢
      exact hreader u (set_origin σ.pc t u _ _ hu (by decide))
    · intro _
      simp only [LogbookSys.writePass, hg, hb, Bool.false_eq_true, if_false]
      rcases hguard with h1 | h1
      · exact Or.inr (Or.inl h1)
      · exact Or.inl h1
  | true =>
    obtain ⟨_, _, hb⟩ := Logbook.start_writing_pass_granted σ.book hg
    constructor
    · intro u _
      simp only [LogbookSys.writePass, hg, hb, if_true]
      exact Or.inl trivial
    · intro _
      simp only [LogbookSys.writePass, hg, hb, if_true]
      exact Or.inl trivial


theorem LogbookSys.awake_step (σ σ' : LogbookSys) (e : LogbookEv) (hinv : σ.Inv)
    (ha : σ.Awake) (h : σ.step e = some σ') : σ'.Awake := by
  have hinv' := LogbookSys.book_step_inv σ σ' e hinv h
  have hww := hinv.waiters
  cases e with
  | start_reading t =>
    simp only [LogbookSys.step] at h
    split at h
    · rename_i ht
      simp only [Option.some.injEq] at h
      exact h ▸ LogbookSys.awake_readPass σ t _ hinv ha ht (Or.inl rfl)
    · cases h
  | recheck_read t =>
    simp only [LogbookSys.step] at h
    split at h
    · rename_i ht
      simp only [Option.some.injEq] at h
      exact h ▸ LogbookSys.awake_readPass σ t _ hinv ha ht (Or.inr rfl)
    · cases h
  | start_writing t =>
    simp only [LogbookSys.step] at h
    split at h
    · simp only [Option.some.injEq] at h
      refine h ▸ LogbookSys.awake_writePass _ t ?_
      intro u _
      simp only [Logbook.start_writing_enter]
      exact Or.inr (by omega)
    · cases h
  | recheck_write t =>
    simp only [LogbookSys.step] at h
    split at h
    · simp only [Option.some.injEq] at h
      exact h ▸ LogbookSys.awake_writePass σ t ha.reader
    · cases h
  | stop_reading t w =>
    simp only [LogbookSys.step] at h
    split at h
    · rename_i ht
      have eW := countP_set_add LogbookPc.isWaitingWriter σ.pc t _ LogbookPc.idle ht
      simp only [LogbookPc.isWaitingWriter, Bool.false_eq_true, if_false, Nat.add_zero] at eW
      split at h
      · obtain ⟨q, hq, rfl⟩ := Option.map_eq_some'.mp h
        constructor
        · intro u hu
          have ho := set_origin σ.pc t u _ _
            (condSignal_origin _ _ w _ q hq u _ hu (by decide)) (by decide)
          exact ha.reader u ho
        · intro hw
          simp only [Logbook.stop_reading] at hw
          exact Or.inr (Or.inr (signal_wakes_waiter w _ q hq (by rw [eW]; omega)))
      · rename_i hz
        simp only [Option.some.injEq] at h
        subst h
        constructor
        · intro u hu
          exact ha.reader u (set_origin σ.pc t u _ _ hu (by decide))
        · intro _
          have hr := hinv'.readers
          simp only [Logbook.stop_reading, decide_eq_true_eq] at hz hr ⊢
          exact Or.inr (Or.inl (by omega))
    · cases h
  | stop_writing t w =>
    simp only [LogbookSys.step] at h
    split at h
    · rename_i ht
      have eW := countP_set_add LogbookPc.isWaitingWriter σ.pc t _ LogbookPc.idle ht
      simp only [LogbookPc.isWaitingWriter, Bool.false_eq_true, if_false, Nat.add_zero] at eW
      split at h
      · rename_i hz
        obtain ⟨q, hq, rfl⟩ := Option.map_eq_some'.mp h
        simp only [Logbook.stop_writing, decide_eq_true_eq] at hz
        constructor
        · intro u _
          exact Or.inr hz
        · intro _
          exact Or.inr (Or.inr (signal_wakes_waiter w _ q hq (by rw [eW]; omega)))
      · rename_i hz
        simp only [Option.some.injEq] at h
        subst h
        simp only [Logbook.stop_writing, decide_eq_true_eq] at hz
        constructor
        · intro u hu
          exact absurd hu (condBroadcast_not_asleep _ _ (by decide) _ u)
        · intro hw
          exact absurd hw hz
    · cases h
  | spurious t =>
    simp only [LogbookSys.step] at h
    split at h
    · rename_i ht
      simp only [Option.some.injEq] at h
      subst h
      constructor
      · intro u hu
        exact ha.reader u (set_origin σ.pc t u _ _ hu (by decide))
      · intro hw
        rcases ha.writer hw with h1 | h1 | h1
        · exact Or.inl h1
        · exact Or.inr (Or.inl h1)
        · exact Or.inr (Or.inr (woken_kept σ.pc t _ _ ht (by decide) h1))
    · rename_i ht
      simp only [Option.some.injEq] at h
      subst h
      constructor
      · intro u hu
        exact ha.reader u (set_origin σ.pc t u _ _ hu (by decide))
      · intro _
        exact Or.inr (Or.inr
          ⟨t, List.getElem?_set_self (List.getElem?_eq_some_iff.mp ht).1⟩)
    · cases h

theorem LogbookSys.reachable_awake (k : Nat) (tr : List LogbookEv) (σ : LogbookSys)
    (h : runFrom LogbookSys.step (LogbookSys.init k) tr = some σ) : σ.Inv ∧ σ.Awake :=
  runFrom_invariant LogbookSys.step (fun s => s.Inv ∧ s.Awake)
    (fun s e s' hs hstep =>
      ⟨LogbookSys.book_step_inv s s' e hs.1 hstep,
       LogbookSys.awake_step s s' e hs.1 hs.2 hstep⟩)
    tr _ σ ⟨LogbookSys.book_inv_init k, LogbookSys.awake_init k⟩ h

/-- C20. The logbook of x.cpp loses no wake-up: in every reachable state with
`reader_count == 0`, `writing == false` and no thread that has been woken and has its
re-test still to come, no thread is asleep on `reader_cv` and none on `writer_cv`. -/
theorem logbook_no_lost_wakeup (k : Nat) (tr : List LogbookEv) (σ : LogbookSys)
    (h : runFrom LogbookSys.step (LogbookSys.init k) tr = some σ)
    (hrc : σ.book.reader_count = 0) (hw : σ.book.writing = false)
    (hnow : ∀ u : Nat, σ.pc[u]? ≠ some LogbookPc.rWoken ∧ σ.pc[u]? ≠ some LogbookPc.wWoken) :
    ∀ u : Nat, σ.pc[u]? ≠ some LogbookPc.rAsleep ∧ σ.pc[u]? ≠ some LogbookPc.wAsleep := by
  obtain ⟨hinv, ha⟩ := LogbookSys.reachable_awake k tr σ h
  have hww0 : ¬ σ.book.waiting_writers > 0 := by
    intro hpos
    rcases ha.writer hpos with h1 | h1 | ⟨u, hu⟩
    · rw [hw] at h1; cases h1
    · omega
    · exact (hnow u).2 hu
  intro u
  constructor
  · intro hu
    rcases ha.reader u hu with h1 | h1
    · rw [hw] at h1; cases h1
    · exact hww0 h1
  · intro hu
    have hpos : 0 < List.countP LogbookPc.isWaitingWriter σ.pc :=
      (countP_pos_index _ _).mpr ⟨u, _, hu, rfl⟩
    have := hinv.waiters
    omega

/-- Witness for C20: a reader is put to sleep behind a writer, is woken by the
broadcast of `stop_writing`, reads and leaves; the logbook is idle and nobody sleeps. -/
theorem logbook_no_lost_wakeup_witness :
    runFrom LogbookSys.step (LogbookSys.init 2)
        [.start_writing 0, .start_reading 1, .stop_writing 0 0, .recheck_read 1,
         .stop_reading 1 0] =
      some { book := { reader_count := 0, writing := false, completed_operations := 1,
                       waiting_writers := 0 },
             pc := [.idle, .idle] } ∧
    ∀ u : Nat, [LogbookPc.idle, LogbookPc.idle][u]? ≠ some LogbookPc.rAsleep ∧
      [LogbookPc.idle, LogbookPc.idle][u]? ≠ some LogbookPc.wAsleep :=
  ⟨by decide,
   logbook_no_lost_wakeup 2
    [.start_writing 0, .start_reading 1, .stop_writing 0 0, .recheck_read 1,
     .stop_reading 1 0]
    { book := { reader_count := 0, writing := false, completed_operations := 1,
                waiting_writers := 0 },
      pc := [.idle, .idle] }
    (by decide) rfl rfl
    (by
      intro u
      rcases u with _ | _ | u <;> simp)⟩


theorem signal_effect (pcs : List LogbookPc) (t w : Nat) (a : LogbookPc)
    (ht : pcs[t]? = some a) (hna : a ≠ LogbookPc.wAsleep) (q : List LogbookPc)
    (hq : condSignal LogbookPc.wAsleep LogbookPc.wWoken w (pcs.set t LogbookPc.idle) = some q) :
    q[t]? = some LogbookPc.idle ∧
    ((∃ u : Nat, pcs[u]? = some LogbookPc.wAsleep) →
      pcs[w]? = some LogbookPc.wAsleep ∧ q[w]? = some LogbookPc.wWoken ∧
        ∀ u : Nat, u ≠ t → u ≠ w → q[u]? = pcs[u]?) ∧
    ((¬ ∃ u : Nat, pcs[u]? = some LogbookPc.wAsleep) →
      ∀ u : Nat, u ≠ t → q[u]? = pcs[u]?) := by
  have hlen : t < pcs.length := (List.getElem?_eq_some_iff.mp ht).1
  have hmem : LogbookPc.wAsleep ∈ pcs.set t LogbookPc.idle ↔
      ∃ u : Nat, pcs[u]? = some LogbookPc.wAsleep := by
    rw [List.mem_iff_getElem?]
    constructor
    · rintro ⟨u, hu⟩
      exact ⟨u, set_origin pcs t u _ _ hu (by decide)⟩
    · rintro ⟨u, hu⟩
      refine ⟨u, ?_⟩
      have hne : t ≠ u := by
        rintro rfl
        rw [ht] at hu
        exact hna (Option.some.inj hu)
      rw [List.getElem?_set_ne hne]
      exact hu
  rcases condSignal_cases _ _ w _ q hq with ⟨hin, hw, rfl⟩ | ⟨hno, rfl⟩
  · have hwt : t ≠ w := by
      rintro rfl
      rw [List.getElem?_set_self hlen] at hw
      cases hw
    have hw0 : pcs[w]? = some LogbookPc.wAsleep := by
      rw [List.getElem?_set_ne hwt] at hw
      exact hw
    have hwl : w < (pcs.set t LogbookPc.idle).length := (List.getElem?_eq_some_iff.mp hw).1
    refine ⟨?_, ?_, ?_⟩
    · rw [List.getElem?_set_ne (fun h => hwt h.symm), List.getElem?_set_self hlen]
    · intro _
      refine ⟨hw0, List.getElem?_set_self hwl, ?_⟩
      intro u hut huw
      rw [List.getElem?_set_ne (fun h => huw h.symm), List.getElem?_set_ne (fun h => hut h.symm)]
    · intro hnone
      exact absurd (hmem.mp hin) hnone
  · refine ⟨List.getElem?_set_self hlen, ?_, ?_⟩
    · intro hsome
      exact absurd (hmem.mpr hsome) hno
    · intro _ u hut
      rw [List.getElem?_set_ne (fun h => hut h.symm)]

/-- C16. `Logbook::stop_writing` clears `writing`, adds exactly one to
`completed_operations` and leaves the other fields alone.  Then, if
`waiting_writers > 0`, it signals `writer_cv`: when some writer is asleep in
`start_writing`, exactly one such writer is woken and no other thread is touched (when
every waiting writer is awake already, nobody is).  Otherwise it broadcasts on
`reader_cv`: every reader asleep in `start_reading` is woken, and no other thread, in
particular no writer, is touched. -/
theorem stop_writing_wakes (σ σ' : LogbookSys) (t w : Nat)
    (hstep : σ.step (.stop_writing t w) = some σ') :
    σ'.book = { σ.book with
      writing := false, completed_operations := σ.book.completed_operations + 1 } ∧
    σ'.pc[t]? = some LogbookPc.idle ∧
    (σ.book.waiting_writers > 0 →
      ((∃ u : Nat, σ.pc[u]? = some LogbookPc.wAsleep) →
        σ.pc[w]? = some LogbookPc.wAsleep ∧ σ'.pc[w]? = some LogbookPc.wWoken ∧
          ∀ u : Nat, u ≠ t → u ≠ w → σ'.pc[u]? = σ.pc[u]?) ∧
      ((¬ ∃ u : Nat, σ.pc[u]? = some LogbookPc.wAsleep) →
        ∀ u : Nat, u ≠ t → σ'.pc[u]? = σ.pc[u]?)) ∧
    (¬ σ.book.waiting_writers > 0 →
      (∀ u : Nat, σ.pc[u]? = some LogbookPc.rAsleep → σ'.pc[u]? = some LogbookPc.rWoken) ∧
      (∀ (u : Nat) (p : LogbookPc), u ≠ t → σ.pc[u]? = some p → p ≠ LogbookPc.rAsleep →
        σ'.pc[u]? = some p)) := by
  have hbook : σ'.book = { σ.book with
      writing := false, completed_operations := σ.book.completed_operations + 1 } :=
    LogbookSys.step_book σ σ' _ hstep
  simp only [LogbookSys.step] at hstep
  split at hstep
  · rename_i ht
    have hlen : t < σ.pc.length := (List.getElem?_eq_some_iff.mp ht).1
    split at hstep
    · rename_i hz
      simp only [Logbook.stop_writing, decide_eq_true_eq] at hz
      obtain ⟨q, hq, rfl⟩ := Option.map_eq_some'.mp hstep
      obtain ⟨e1, e2, e3⟩ := signal_effect σ.pc t w _ ht (by decide) q hq
      exact ⟨hbook, e1, fun _ => ⟨e2, e3⟩, fun hno => absurd hz hno⟩
    · rename_i hz
      simp only [Logbook.stop_writing, decide_eq_true_eq] at hz
      simp only [Option.some.injEq] at hstep
      subst hstep
      have hother : ∀ (u : Nat) (p : LogbookPc), u ≠ t → σ.pc[u]? = some p →
          (condBroadcast LogbookPc.rAsleep LogbookPc.rWoken (σ.pc.set t LogbookPc.idle))[u]?
            = some (if p = LogbookPc.rAsleep then LogbookPc.rWoken else p) := by
        intro u p hut hp
        rw [condBroadcast_get, List.getElem?_set_ne (fun h => hut h.symm), hp]
        rfl
      refine ⟨hbook, ?_, fun hpos => absurd hpos hz, fun _ => ⟨?_, ?_⟩⟩
      · rw [condBroadcast_get, List.getElem?_set_self hlen]
        rfl
      · intro u hu
        have hut : u ≠ t := by
          rintro rfl
          rw [ht] at hu
          cases hu
        rw [hother u _ hut hu]
        rfl
      · intro u p hut hp hne
        rw [hother u p hut hp]
        simp only [hne, if_false]
  · cases hstep

/-- Witness for C16: a writer writes, a second writer and a reader sleep behind it; the
first `stop_writing` finds `waiting_writers == 1` and wakes the writer only. -/
theorem stop_writing_wakes_witness :
    [LogbookPc.writing, .wAsleep, .rAsleep][1]? = some LogbookPc.wAsleep ∧
    [LogbookPc.idle, .wWoken, .rAsleep][1]? = some LogbookPc.wWoken ∧
    ∀ u : Nat, u ≠ 0 → u ≠ 1 →
      [LogbookPc.idle, .wWoken, .rAsleep][u]? = [LogbookPc.writing, .wAsleep, .rAsleep][u]? :=
  ((stop_writing_wakes
    { book := { reader_count := 0, writing := true, completed_operations := 0,
                waiting_writers := 1 },
      pc := [.writing, .wAsleep, .rAsleep] }
    { book := { reader_count := 0, writing := false, completed_operations := 1,
                waiting_writers := 1 },
      pc := [.idle, .wWoken, .rAsleep] }
    0 1 (by decide)).2.2.1 (by decide)).1 ⟨1, rfl⟩


theorem wakeAll_get {α : Type} (sel : Nat → α → Bool) (wake : α → α) (pcs : List α) (j : Nat) :
    (wakeAll sel wake pcs)[j]? = (pcs[j]?).map (fun p => if sel j p then wake p else p) := by
  simp only [wakeAll, List.getElem?_mapIdx]

theorem getAt_setAt_self {α : Type} (l : List α) (k : Int) (s a : α)
    (h : getAt l k = some s) : getAt (setAt l k a) k = some a := by
  unfold getAt at h ⊢
  split at h
  · rename_i hk
    have hlen : k.toNat < l.length := (List.getElem?_eq_some_iff.mp h).1
    simp only [hk, if_true, setAt, List.getElem?_set_self hlen]
  · cases h

theorem getAt_setAt_ne {α : Type} (l : List α) (k k' : Int) (a : α) (hk : 0 ≤ k)
    (hne : k' ≠ k) : getAt (setAt l k a) k' = getAt l k' := by
  unfold getAt
  split
  · rename_i hk'
    have : k.toNat ≠ k'.toNat := by omega
    simp only [setAt, List.getElem?_set_ne this]
  · rfl

theorem World.opStep_release (W W' : World) (i w : Nat)
    (hi : W.ops[i]? = some OpPc.holding) (hstep : W.opStep i w = some W') :
    ∃ s : Station, getAt W.stations (station_index ((i : Int) + 1)) = some s ∧
      W' = { W with
        stations := setAt W.stations (station_index ((i : Int) + 1)) s.release
        ops := wakeAll (fun j p => decide (p = OpPc.stAsleep ∧
                  station_index ((j : Int) + 1) = station_index ((i : Int) + 1)))
                OpPc.wake (W.ops.set i OpPc.released) } := by
  unfold World.opStep at hstep
  simp only [hi] at hstep
  obtain ⟨s, hs, rfl⟩ := Option.map_eq_some'.mp hstep
  exact ⟨s, hs, rfl⟩

theorem World.opStep_recheck (V : World) (j v : Nat) (s : Station)
    (hj : V.ops[j]? = some OpPc.stWoken)
    (hs : getAt V.stations (station_index ((j : Int) + 1)) = some s) :
    V.opStep j v = some { V with
      stations := setAt V.stations (station_index ((j : Int) + 1)) s.acquire.1
      ops := V.ops.set j (if s.acquire.2 then OpPc.holding else OpPc.stAsleep) } := by
  unfold World.opStep
  simp only [hj, hs, Option.map_some']


/-- C17. When operative `i` (holding its station) runs `Station::release`, the station's
`in_use` becomes false and the other stations are left alone; every operative asleep in
`acquire` on that same station is woken, and no other operative is touched, in
particular none asleep on another station.  A woken operative that re-tests
`while (in_use)` completes `acquire` exactly when `in_use` is false, and sets it.  So
after the release any one woken waiter that re-tests first gets the station, and every
other woken waiter of this release that re-tests after it goes back to sleep. -/
theorem release_wakes_station_waiters (W W' : World) (i w : Nat)
    (hi : W.ops[i]? = some OpPc.holding) (hstep : W.opStep i w = some W') :
    getAt W'.stations (station_index ((i : Int) + 1)) = some { in_use := false } ∧
    (∀ k : Int, k ≠ station_index ((i : Int) + 1) →
      getAt W'.stations k = getAt W.stations k) ∧
    W'.ops[i]? = some OpPc.released ∧
    (∀ j : Nat, W.ops[j]? = some OpPc.stAsleep →
      station_index ((j : Int) + 1) = station_index ((i : Int) + 1) →
      W'.ops[j]? = some OpPc.stWoken) ∧
    (∀ j : Nat, j ≠ i →
      ¬ (W.ops[j]? = some OpPc.stAsleep ∧
          station_index ((j : Int) + 1) = station_index ((i : Int) + 1)) →
      W'.ops[j]? = W.ops[j]?) ∧
    (∀ (V : World) (j v : Nat) (s : Station), V.ops[j]? = some OpPc.stWoken →
      getAt V.stations (station_index ((j : Int) + 1)) = some s →
      ∃ V2 : World, V.opStep j v = some V2 ∧
        V2.ops[j]? = some (if s.in_use then OpPc.stAsleep else OpPc.holding) ∧
        getAt V2.stations (station_index ((j : Int) + 1)) = some { in_use := true }) ∧
    (∀ j v : Nat, W'.ops[j]? = some OpPc.stWoken →
      station_index ((j : Int) + 1) = station_index ((i : Int) + 1) →
      ∃ W2 : World, W'.opStep j v = some W2 ∧ W2.ops[j]? = some OpPc.holding ∧
        ∀ j2 v2 : Nat, j2 ≠ j → W'.ops[j2]? = some OpPc.stWoken →
          station_index ((j2 : Int) + 1) = station_index ((i : Int) + 1) →
          ∃ W3 : World, W2.opStep j2 v2 = some W3 ∧ W3.ops[j2]? = some OpPc.stAsleep ∧
            W3.ops[j]? = some OpPc.holding) := by
  obtain ⟨s, hs, hW⟩ := World.opStep_release W W' i w hi hstep
  obtain ⟨hk0, _⟩ := station_index_range i
  have hlen : i < W.ops.length := (List.getElem?_eq_some_iff.mp hi).1
  have hfree : getAt W'.stations (station_index ((i : Int) + 1)) = some { in_use := false } := by
    rw [hW]
    exact getAt_setAt_self _ _ s _ hs
  have hre : ∀ (V : World) (j v : Nat) (s : Station), V.ops[j]? = some OpPc.stWoken →
      getAt V.stations (station_index ((j : Int) + 1)) = some s →
      ∃ V2 : World, V.opStep j v = some V2 ∧
        V2.ops[j]? = some (if s.in_use then OpPc.stAsleep else OpPc.holding) ∧
        getAt V2.stations (station_index ((j : Int) + 1)) = some { in_use := true } ∧
        (∀ u : Nat, u ≠ j → V2.ops[u]? = V.ops[u]?) ∧
        (∀ k : Int, k ≠ station_index ((j : Int) + 1) →
          getAt V2.stations k = getAt V.stations k) ∧
        (s.in_use = true → V2.stations = setAt V.stations (station_index ((j : Int) + 1)) s) := by
    intro V j v s hj hs
    have hjl : j < V.ops.length := (List.getElem?_eq_some_iff.mp hj).1
    refine ⟨_, World.opStep_recheck V j v s hj hs, ?_, ?_, ?_, ?_, ?_⟩
    · rw [List.getElem?_set_self hjl]
      cases s with
      | mk b => cases b <;> rfl
    · have hacq : s.acquire.1 = { in_use := true } := by
        cases s with
        | mk b => cases b <;> rfl
      simp only [hacq]
      exact getAt_setAt_self _ _ s _ hs
    · intro u hu
      simp only [List.getElem?_set_ne (fun h => hu h.symm)]
    · intro k hk
      exact getAt_setAt_ne _ _ _ _ (station_index_range j).1 hk
    · intro hin
      simp only [Station.acquire, hin, if_true]
  refine ⟨hfree, ?_, ?_, ?_, ?_, ?_, ?_⟩
  · intro k hk
    rw [hW]
    exact getAt_setAt_ne _ _ _ _ hk0 hk
  · rw [hW]
    simp only [wakeAll_get, List.getElem?_set_self hlen, Option.map_some']
    simp
  · intro j hj hk
    have hji : i ≠ j := by
      rintro rfl
      rw [hi] at hj
      cases hj
    rw [hW]
    simp only [wakeAll_get, List.getElem?_set_ne hji, hj, Option.map_some', hk]
    simp [OpPc.wake]
  · intro j hji hnot
    rw [hW]
    simp only [wakeAll_get, List.getElem?_set_ne (fun h => hji h.symm)]
    cases hp : W.ops[j]? with
    | none => rfl
    | some p =>
      have hsel : ¬ (p = OpPc.stAsleep ∧
          station_index ((j : Int) + 1) = station_index ((i : Int) + 1)) := by
        rintro ⟨rfl, hk⟩
        exact hnot ⟨hp, hk⟩
      simp only [Option.map_some', hsel, decide_False, Bool.false_eq_true, if_false]
  · intro V j v s hj hs
    obtain ⟨V2, h1, h2, h3, _⟩ := hre V j v s hj hs
    exact ⟨V2, h1, h2, h3⟩
  · intro j v hj hk
    obtain ⟨W2, h1, h2, h3, h4, _⟩ := hre W' j v _ hj (hk ▸ hfree)
    refine ⟨W2, h1, h2, ?_⟩
    intro j2 v2 hne hj2 hk2
    have hj2w : W2.ops[j2]? = some OpPc.stWoken := (h4 j2 hne).trans hj2
    have hst : getAt W2.stations (station_index ((j2 : Int) + 1)) = some { in_use := true } := by
      rw [hk2, ← hk]
      exact h3
    obtain ⟨W3, g1, g2, _, g4, _⟩ := hre W2 j2 v2 _ hj2w hst
    exact ⟨W3, g1, g2, (g4 j (fun h => hne h.symm)).trans h2⟩

/-- Witness for C17: operatives 1 and 2 hold stations 1 and 2, operatives 5 and 9 sleep
on station 1 and operative 6 on station 2; the release by operative 1 wakes 5 and 9 and
leaves 6 asleep. -/
theorem release_wakes_station_waiters_witness :
    runFrom World.step (World.init 9 3)
        [.op 0 0, .op 1 0, .op 4 0, .op 5 0, .op 8 0, .op 0 0] =
      some { m := 3
             stations := [{ in_use := false }, { in_use := false }, { in_use := true },
                          { in_use := false }]
             groups := List.replicate 3 Group.new
             logbook := Logbook.new
             ops := [.released, .holding, .start, .start, .stWoken, .stAsleep, .start, .start,
                     .stWoken]
             staff := List.replicate 2 { iter := 0, pc := StaffPc.idle } } ∧
    [OpPc.released, .holding, .start, .start, .stWoken, .stAsleep, .start, .start,
      .stWoken][4]? = some OpPc.stWoken :=
  ⟨by decide,
   (release_wakes_station_waiters
    { m := 3
      stations := [{ in_use := false }, { in_use := true }, { in_use := true },
                   { in_use := false }]
      groups := List.replicate 3 Group.new
      logbook := Logbook.new
      ops := [.holding, .holding, .start, .start, .stAsleep, .stAsleep, .start, .start,
              .stAsleep]
      staff := List.replicate 2 { iter := 0, pc := StaffPc.idle } }
    { m := 3
      stations := [{ in_use := false }, { in_use := false }, { in_use := true },
                   { in_use := false }]
      groups := List.replicate 3 Group.new
      logbook := Logbook.new
      ops := [.released, .holding, .start, .start, .stWoken, .stAsleep, .start, .start,
              .stWoken]
      staff := List.replicate 2 { iter := 0, pc := StaffPc.idle } }
    0 0 (by decide) (by decide)).2.2.2.1 4 (by decide) (by decide)⟩


theorem SemBarrier.sem_inv_init (M l : Nat) : (SemBarrier.init M l).Inv M l := by
  refine ⟨rfl, rfl, by simp [SemBarrier.init], by simp [SemBarrier.init], ?_, ?_, ?_⟩
  · have h0 : List.countP SemPc.posted (List.replicate M SemPc.before) = 0 := by
      rw [List.countP_eq_zero]
      intro a ha
      rw [List.eq_of_mem_replicate ha]
      decide
    have ht : (SemBarrier.init M l).taken = 0 := by
      simp only [SemBarrier.taken, SemBarrier.init, List.getElem?_replicate]
      split
      · rename_i p hp
        split at hp
        · cases hp
          rfl
        · cases hp
      · rfl
    rw [ht]
    simp only [SemBarrier.init, h0]
    rfl
  · intro i hi
    simp only [SemBarrier.init, List.getElem?_replicate] at hi
    split at hi <;> cases hi
  · intro t p _ hp
    simp only [SemBarrier.init, List.getElem?_replicate] at hp
    split at hp
    · cases hp
      exact Or.inl rfl
    · cases hp


theorem SemBarrier.sem_step_inv (M l : Nat) (σ σ' : SemBarrier) (e : SemEv)
    (hinv : σ.Inv M l) (h : σ.step e = some σ') : σ'.Inv M l := by
  obtain ⟨h1, h2, h3, h4, h5, h6, h7⟩ := hinv
  cases e with
  | post t =>
    simp only [SemBarrier.step] at h
    split at h
    · rename_i ht
      simp only [Option.some.injEq] at h
      subst h
      have hlen : t < σ.pc.length := (List.getElem?_eq_some_iff.mp ht).1
      have hcnt := countP_set_add SemPc.posted σ.pc t SemPc.before
        (if t = σ.leader then SemPc.loop 0 else SemPc.finished) ht
      have hq : SemPc.posted (if t = σ.leader then SemPc.loop 0 else SemPc.finished) = true := by
        split <;> rfl
      have hb : SemPc.posted SemPc.before = false := rfl
      rw [hq, hb] at hcnt
      simp only [if_true, Bool.false_eq_true, if_false, add_zero] at hcnt
      refine ⟨h1, h2, by simpa using h3, by simp only; omega, ?_, ?_, ?_⟩
      · have htk : SemBarrier.taken
            { σ with sem := σ.sem + 1
                     pc := σ.pc.set t (if t = σ.leader then SemPc.loop 0 else SemPc.finished) }
            = σ.taken := by
          unfold SemBarrier.taken
          by_cases htl : t = σ.leader
          · subst htl
            simp only [List.getElem?_set_self hlen, if_true, ht]
            rfl
          · simp only [List.getElem?_set_ne htl]
        rw [htk]
        simp only [hcnt]
        push_cast
        omega
      · intro i hi
        simp only at hi
        by_cases htl : t = l
        · subst htl
          rw [List.getElem?_set_self hlen, h2] at hi
          simp only [if_true, Option.some.injEq, SemPc.loop.injEq] at hi
          subst hi
          omega
        · rw [List.getElem?_set_ne htl] at hi
          exact h6 i hi
      · intro u p hul hp
        simp only at hp
        by_cases htu : t = u
        · subst htu
          rw [List.getElem?_set_self hlen, h2] at hp
          simp only [hul, if_false, Option.some.injEq] at hp
          exact Or.inr hp.symm
        · rw [List.getElem?_set_ne htu] at hp
          exact h7 u p hul hp
    · cases h
  | next t =>
    simp only [SemBarrier.step] at h
    split at h
    · rename_i i ht
      have htl : t = l := by
        by_contra hne
        rcases h7 t _ hne ht with hc | hc <;> cases hc
      subst htl
      have hlen : t < σ.pc.length := (List.getElem?_eq_some_iff.mp ht).1
      obtain ⟨hi0, hiM⟩ := h6 i ht
      have htk : σ.taken = i := by
        unfold SemBarrier.taken
        rw [h2, ht]
        rfl
      split at h
      · rename_i hlt
        split at h
        · rename_i hpos
          simp only [Option.some.injEq] at h
          subst h
          have hcnt := countP_set_add SemPc.posted σ.pc t (SemPc.loop i) (SemPc.loop (i + 1)) ht
          simp only [SemPc.posted, if_true, add_left_inj] at hcnt
          refine ⟨h1, h2, by simpa using h3, by simp only; omega, ?_, ?_, ?_⟩
          · have htk2 : SemBarrier.taken
                { σ with sem := σ.sem - 1, pc := σ.pc.set t (SemPc.loop (i + 1)) } = i + 1 := by
              unfold SemBarrier.taken
              simp only [h2, List.getElem?_set_self hlen]
              rfl
            rw [htk2]
            simp only [hcnt]
            omega
          · intro j hj
            simp only [List.getElem?_set_self hlen, Option.some.injEq, SemPc.loop.injEq] at hj
            subst hj
            rw [h1] at hlt
            omega
          · intro u p hul hp
            simp only at hp
            rw [List.getElem?_set_ne (fun hc => hul hc.symm)] at hp
            exact h7 u p hul hp
        · cases h
      · rename_i hge
        simp only [Option.some.injEq] at h
        subst h
        have hcnt := countP_set_add SemPc.posted σ.pc t (SemPc.loop i) SemPc.passed ht
        simp only [SemPc.posted, if_true, add_left_inj] at hcnt
        refine ⟨h1, h2, by simpa using h3, h4, ?_, ?_, ?_⟩
        · have htk2 : SemBarrier.taken { σ with pc := σ.pc.set t SemPc.passed } = σ.M := by
            unfold SemBarrier.taken
            simp only [h2, List.getElem?_set_self hlen]
            rfl
          rw [htk2]
          simp only [hcnt]
          rw [h1] at hge ⊢
          omega
        · intro j hj
          simp only [List.getElem?_set_self hlen, Option.some.injEq] at hj
          cases hj
        · intro u p hul hp
          simp only at hp
          rw [List.getElem?_set_ne (fun hc => hul hc.symm)] at hp
          exact h7 u p hul hp
    · cases h

theorem SemBarrier.sem_reachable_inv (M l : Nat) (tr : List SemEv) (σ : SemBarrier)
    (h : runFrom SemBarrier.step (SemBarrier.init M l) tr = some σ) : σ.Inv M l :=
  runFrom_invariant SemBarrier.step (SemBarrier.Inv M l)
    (fun s e s' hs hstep => SemBarrier.sem_step_inv M l s s' e hs hstep) tr _ σ
    (SemBarrier.sem_inv_init M l) h


/-- C23. The semaphore barrier of y.cpp and z.cpp for a group of exactly `M` members
(value 0 at the start, one `sem_post` per member, then `M` `sem_wait`s by the leader):
in every reachable state the value is the number of posts minus the number of the
leader's completed waits and is not negative.  When the leader has completed its `M`
waits, all `M` members, the leader included, have posted and the value is 0; and once
all have posted, no round of the leader's loop blocks.  The counter barrier of x.cpp
releases its leader in the same states: only when all `M` members have arrived, and
then the guard `counter < m` lets the leader through. -/
theorem semaphore_barrier_release (M l : Nat) (tr : List SemEv) (σ : SemBarrier)
    (h : runFrom SemBarrier.step (SemBarrier.init M l) tr = some σ) :
    0 ≤ σ.sem ∧ σ.sem + σ.taken = (σ.pc.countP SemPc.posted : Nat) ∧
    (σ.pc[l]? = some (SemPc.loop M) ∨ σ.pc[l]? = some SemPc.passed →
      σ.sem = 0 ∧ ∀ u : Nat, u < M → ∃ p : SemPc, σ.pc[u]? = some p ∧ p.posted = true) ∧
    (σ.pc.countP SemPc.posted = M → ∀ i : Int, σ.pc[l]? = some (SemPc.loop i) →
      ∃ σ' : SemBarrier, σ.step (.next l) = some σ') ∧
    (∀ (tr' : List GroupEv) (τ : GroupSys),
      runFrom GroupSys.step (GroupSys.init M l) tr' = some τ →
      (τ.pc[l]? = some GroupPc.passed →
        ∀ u : Nat, u < M → ∃ p : GroupPc, τ.pc[u]? = some p ∧ p.arrived = true) ∧
      (τ.pc.countP GroupPc.arrived = M → τ.group.must_wait τ.m = false)) := by
  obtain ⟨h1, h2, h3, h4, h5, h6, _⟩ := SemBarrier.sem_reachable_inv M l tr σ h
  have hle : List.countP SemPc.posted σ.pc ≤ σ.pc.length := List.countP_le_length _
  refine ⟨h4, h5, ?_, ?_, ?_⟩
  · intro hp
    have htk : σ.taken = M := by
      unfold SemBarrier.taken
      rw [h2]
      rcases hp with hp | hp
      · rw [hp]
        rfl
      · rw [hp]
        exact h1
    rw [htk] at h5
    refine ⟨by omega, ?_⟩
    intro u hu
    have hall : List.countP SemPc.posted σ.pc = σ.pc.length := by omega
    have hul : u < σ.pc.length := by omega
    exact ⟨σ.pc[u], List.getElem?_eq_getElem hul,
      (List.countP_eq_length.mp hall) _ (List.getElem_mem hul)⟩
  · intro hall i hi
    have htk : σ.taken = i := by
      unfold SemBarrier.taken
      rw [h2, hi]
      rfl
    rw [htk, hall] at h5
    simp only [SemBarrier.step, hi]
    by_cases hlt : i < σ.M
    · have hpos : 0 < σ.sem := by
        rw [h1] at hlt
        omega
      simp only [hlt, hpos, if_true]
      exact ⟨_, rfl⟩
    · simp only [hlt, if_false]
      exact ⟨_, rfl⟩
  · intro tr' τ hτ
    obtain ⟨g1, g2, g3, g4⟩ := GroupSys.group_reachable_inv M l tr' τ hτ
    have gle : List.countP GroupPc.arrived τ.pc ≤ τ.pc.length := List.countP_le_length _
    constructor
    · intro hp u hu
      have hge := g4 l hp
      rw [g1] at hge
      have hall : List.countP GroupPc.arrived τ.pc = τ.pc.length := by omega
      have hul : u < τ.pc.length := by omega
      exact ⟨τ.pc[u], List.getElem?_eq_getElem hul,
        (List.countP_eq_length.mp hall) _ (List.getElem_mem hul)⟩
    · intro hall
      simp only [Group.must_wait, decide_eq_false_iff_not, not_lt]
      rw [g1, g3, hall]

/-- Witness for C23: a group of two; both members post, then the leader (member 1)
completes its two waits and leaves the loop with the semaphore at 0. -/
theorem semaphore_barrier_release_witness :
    runFrom SemBarrier.step (SemBarrier.init 2 1)
        [.post 1, .next 1, .post 0, .next 1, .next 1] =
      some { sem := 0, M := 2, leader := 1, pc := [.finished, .passed] } ∧
    (0 : Int) = 0 ∧
    ∀ u : Nat, u < 2 →
      ∃ p : SemPc, [SemPc.finished, SemPc.passed][u]? = some p ∧ p.posted = true :=
  ⟨by decide,
   (semaphore_barrier_release 2 1 [.post 1, .next 1, .post 0, .next 1, .next 1]
      { sem := 0, M := 2, leader := 1, pc := [.finished, .passed] }
      (by decide)).2.2.1 (Or.inr rfl)⟩


/-! ## Producer and consumer -/

theorem Stage.holds_atWait : Stage.atWait.holds = 0 := rfl

theorem Stage.holds_atLock : Stage.atLock.holds = 1 := rfl

theorem Stage.holds_atQueue : Stage.atQueue.holds = 1 := rfl

theorem Stage.holds_atUnlock : Stage.atUnlock.holds = 0 := rfl

theorem Stage.holds_atPost : Stage.atPost.holds = 0 := rfl

theorem Stage.holds_returned : Stage.returned.holds = 0 := rfl

theorem Stage.owes_atWait : Stage.atWait.owes = 0 := rfl

theorem Stage.owes_atLock : Stage.atLock.owes = 0 := rfl

theorem Stage.owes_atQueue : Stage.atQueue.owes = 0 := rfl

theorem Stage.owes_atUnlock : Stage.atUnlock.owes = 1 := rfl

theorem Stage.owes_atPost : Stage.atPost.owes = 1 := rfl

theorem Stage.owes_returned : Stage.returned.owes = 0 := rfl

theorem items_succ (n : Nat) : items (n + 1) = items n ++ [(n : Int) + 1] := by
  simp [items, List.range_succ]

theorem items_length (n : Nat) : (items n).length = n := by
  simp only [items, List.length_map, List.length_range]

theorem ProdCons.pc_inv_init : init_semaphore.Inv := by
  constructor <;> simp [init_semaphore, Stage.holds, Stage.owes, items]

theorem ProdCons.producer_inv (σ σ' : ProdCons) (hinv : σ.Inv) (h : ProducerFunc σ = some σ') :
    σ'.Inv := by
  obtain ⟨a1, a2, a3, a4, a5, a6, a7, a8, a9, a10, a11, a12, a13, a14⟩ := hinv
  unfold ProducerFunc at h
  split at h
  · rename_i hst
    rw [hst] at a3 a4 a6
    split at h
    · split at h
      · simp only [Option.some.injEq] at h
        subst h
        refine ⟨?_, a2, ?_, ?_, a5, ?_, a7, a8, a9, ?_, a11, a12, a13, a14⟩ <;>
          simp only [Stage.holds_atWait, Stage.holds_atLock, Stage.holds_atQueue,
              Stage.holds_atUnlock, Stage.holds_atPost, Stage.holds_returned, Stage.owes_atWait,
              Stage.owes_atLock, Stage.owes_atQueue, Stage.owes_atUnlock, Stage.owes_atPost,
              Stage.owes_returned, List.length_append, List.length_singleton, List.length_cons,
              List.length_nil, Nat.cast_add, Nat.cast_one, Nat.cast_zero,
              zero_add] at * <;> first | omega | assumption
      · cases h
    · simp only [Option.some.injEq] at h
      subst h
      refine ⟨a1, a2, ?_, ?_, a5, ?_, a7, a8, a9, ?_, a11, a12, a13, a14⟩ <;>
        simp only [Stage.holds_atWait, Stage.holds_atLock, Stage.holds_atQueue,
            Stage.holds_atUnlock, Stage.holds_atPost, Stage.holds_returned, Stage.owes_atWait,
            Stage.owes_atLock, Stage.owes_atQueue, Stage.owes_atUnlock, Stage.owes_atPost,
            Stage.owes_returned, List.length_append, List.length_singleton, List.length_cons,
            List.length_nil, Nat.cast_add, Nat.cast_one, Nat.cast_zero,
            zero_add] at * <;> first | omega | assumption | (intro _ hc; exact absurd rfl hc)
  · rename_i hst
    rw [hst] at a3 a4 a6
    split at h
    · cases h
    · simp only [Option.some.injEq] at h
      subst h
      have hr := a10 (by rw [hst]; decide) (by rw [hst]; decide)
      refine ⟨a1, a2, ?_, ?_, a5, ?_, a7, a8, a9, ?_, a11, a12, a13, a14⟩ <;>
        simp only [Stage.holds_atWait, Stage.holds_atLock, Stage.holds_atQueue,
            Stage.holds_atUnlock, Stage.holds_atPost, Stage.holds_returned, Stage.owes_atWait,
            Stage.owes_atLock, Stage.owes_atQueue, Stage.owes_atUnlock, Stage.owes_atPost,
            Stage.owes_returned, List.length_append, List.length_singleton, List.length_cons,
            List.length_nil, Nat.cast_add, Nat.cast_one, Nat.cast_zero,
            zero_add] at * <;> first | omega | assumption
  · rename_i hst
    rw [hst] at a3 a4 a6
    simp only [Option.some.injEq] at h
    subst h
    have hr := a10 (by rw [hst]; decide) (by rw [hst]; decide)
    refine ⟨a1, a2, ?_, ?_, ?_, ?_, a7, a8, a9, ?_, a11, a12, a13, a14⟩
    · simp only [Stage.holds_atWait, Stage.holds_atLock, Stage.holds_atQueue,
        Stage.holds_atUnlock, Stage.holds_atPost, Stage.holds_returned, Stage.owes_atWait,
        Stage.owes_atLock, Stage.owes_atQueue, Stage.owes_atUnlock, Stage.owes_atPost,
        Stage.owes_returned, List.length_append, List.length_singleton, List.length_cons,
        List.length_nil, Nat.cast_add, Nat.cast_one, Nat.cast_zero, zero_add] at *
      omega
    · simp only [Stage.holds_atWait, Stage.holds_atLock, Stage.holds_atQueue,
        Stage.holds_atUnlock, Stage.holds_atPost, Stage.holds_returned, Stage.owes_atWait,
        Stage.owes_atLock, Stage.owes_atQueue, Stage.owes_atUnlock, Stage.owes_atPost,
        Stage.owes_returned, List.length_append, List.length_singleton, List.length_cons,
        List.length_nil, Nat.cast_add, Nat.cast_one, Nat.cast_zero, zero_add] at *
      omega
    · simp only
      rw [← List.append_assoc, a5]
    · simp only [Stage.holds_atWait, Stage.holds_atLock, Stage.holds_atQueue,
        Stage.holds_atUnlock, Stage.holds_atPost, Stage.holds_returned, Stage.owes_atWait,
        Stage.owes_atLock, Stage.owes_atQueue, Stage.owes_atUnlock, Stage.owes_atPost,
        Stage.owes_returned, List.length_append, List.length_singleton, List.length_cons,
        List.length_nil, Nat.cast_add, Nat.cast_one, Nat.cast_zero, zero_add] at *
      have e1 : (σ.producer.i - 1 + 1).toNat = (σ.producer.i - 1 + 0).toNat + 1 := by omega
      have e2 : (((σ.producer.i - 1 + 0).toNat : Nat) : Int) + 1 = σ.producer.i := by omega
      rw [e1, items_succ, e2, ← a6]
    · intros
      exact hr
  · rename_i hst
    rw [hst] at a3 a4 a6
    simp only [Option.some.injEq] at h
    subst h
    have hr := a10 (by rw [hst]; decide) (by rw [hst]; decide)
    refine ⟨a1, a2, ?_, ?_, a5, ?_, a7, a8, a9, ?_, a11, a12, a13, a14⟩ <;>
      simp only [Stage.holds_atWait, Stage.holds_atLock, Stage.holds_atQueue,
          Stage.holds_atUnlock, Stage.holds_atPost, Stage.holds_returned, Stage.owes_atWait,
          Stage.owes_atLock, Stage.owes_atQueue, Stage.owes_atUnlock, Stage.owes_atPost,
          Stage.owes_returned, List.length_append, List.length_singleton, List.length_cons,
          List.length_nil, Nat.cast_add, Nat.cast_one, Nat.cast_zero,
          zero_add] at * <;> first | omega | assumption
  · rename_i hst
    rw [hst] at a3 a4 a6
    simp only [Option.some.injEq] at h
    subst h
    have hr := a10 (by rw [hst]; decide) (by rw [hst]; decide)
    refine ⟨a1, ?_, ?_, ?_, a5, ?_, a7, ?_, ?_, ?_, a11, a12, a13, a14⟩
    · simp only
      omega
    · simp only [Stage.holds_atWait, Stage.holds_atLock, Stage.holds_atQueue,
        Stage.holds_atUnlock, Stage.holds_atPost, Stage.holds_returned, Stage.owes_atWait,
        Stage.owes_atLock, Stage.owes_atQueue, Stage.owes_atUnlock, Stage.owes_atPost,
        Stage.owes_returned, List.length_append, List.length_singleton, List.length_cons,
        List.length_nil, Nat.cast_add, Nat.cast_one, Nat.cast_zero, zero_add] at *
      omega
    · simp only [Stage.holds_atWait, Stage.holds_atLock, Stage.holds_atQueue,
        Stage.holds_atUnlock, Stage.holds_atPost, Stage.holds_returned, Stage.owes_atWait,
        Stage.owes_atLock, Stage.owes_atQueue, Stage.owes_atUnlock, Stage.owes_atPost,
        Stage.owes_returned, List.length_append, List.length_singleton, List.length_cons,
        List.length_nil, Nat.cast_add, Nat.cast_one, Nat.cast_zero, zero_add] at *
      omega
    · simp only [Stage.holds_atWait, Stage.holds_atLock, Stage.holds_atQueue,
        Stage.holds_atUnlock, Stage.holds_atPost, Stage.holds_returned, Stage.owes_atWait,
        Stage.owes_atLock, Stage.owes_atQueue, Stage.owes_atUnlock, Stage.owes_atPost,
        Stage.owes_returned, List.length_append, List.length_singleton, List.length_cons,
        List.length_nil, Nat.cast_add, Nat.cast_one, Nat.cast_zero, zero_add] at *
      have e1 : (σ.producer.i + 1 - 1 + 0).toNat = (σ.producer.i - 1 + 1).toNat := by omega
      rw [e1]
      exact a6
    · simp only
      omega
    · simp only
      omega
    · intro hc
      exact absurd rfl hc
  · cases h


theorem ProdCons.consumer_inv (σ σ' : ProdCons) (hinv : σ.Inv) (h : ConsumerFunc σ = some σ') :
    σ'.Inv := by
  obtain ⟨a1, a2, a3, a4, a5, a6, a7, a8, a9, a10, a11, a12, a13, a14⟩ := hinv
  unfold ConsumerFunc at h
  split at h
  · rename_i hst
    rw [hst] at a3 a4 a7
    split at h
    · split at h
      · simp only [Option.some.injEq] at h
        subst h
        refine ⟨a1, ?_, ?_, ?_, a5, a6, ?_, a8, a9, a10, a11, a12, ?_, ?_⟩ <;>
          simp only [Stage.holds_atWait, Stage.holds_atLock, Stage.holds_atQueue,
              Stage.holds_atUnlock, Stage.holds_atPost, Stage.holds_returned, Stage.owes_atWait,
              Stage.owes_atLock, Stage.owes_atQueue, Stage.owes_atUnlock, Stage.owes_atPost,
              Stage.owes_returned, List.length_append, List.length_singleton, List.length_cons,
              List.length_nil, Nat.cast_add, Nat.cast_one, Nat.cast_zero,
              zero_add] at * <;> first | omega | assumption | (intro hc; cases hc)
      · cases h
    · simp only [Option.some.injEq] at h
      subst h
      refine ⟨a1, a2, ?_, ?_, a5, a6, ?_, a8, a9, a10, a11, a12, ?_, ?_⟩ <;>
        simp only [Stage.holds_atWait, Stage.holds_atLock, Stage.holds_atQueue,
            Stage.holds_atUnlock, Stage.holds_atPost, Stage.holds_returned, Stage.owes_atWait,
            Stage.owes_atLock, Stage.owes_atQueue, Stage.owes_atUnlock, Stage.owes_atPost,
            Stage.owes_returned, List.length_append, List.length_singleton, List.length_cons,
            List.length_nil, Nat.cast_add, Nat.cast_one, Nat.cast_zero,
            zero_add] at * <;> first | omega | assumption | (intro _ hc; exact absurd rfl hc)
  · rename_i hst
    rw [hst] at a3 a4 a7
    split at h
    · cases h
    · simp only [Option.some.injEq] at h
      subst h
      have hr := a13 (by rw [hst]; decide) (by rw [hst]; decide)
      refine ⟨a1, a2, ?_, ?_, a5, a6, ?_, a8, a9, a10, a11, a12, ?_, ?_⟩ <;>
        simp only [Stage.holds_atWait, Stage.holds_atLock, Stage.holds_atQueue,
            Stage.holds_atUnlock, Stage.holds_atPost, Stage.holds_returned, Stage.owes_atWait,
            Stage.owes_atLock, Stage.owes_atQueue, Stage.owes_atUnlock, Stage.owes_atPost,
            Stage.owes_returned, List.length_append, List.length_singleton, List.length_cons,
            List.length_nil, Nat.cast_add, Nat.cast_one, Nat.cast_zero,
            zero_add] at * <;> first | omega | assumption | (intro hc; cases hc)
  · rename_i hst
    rw [hst] at a3 a4 a7
    have hr := a13 (by rw [hst]; decide) (by rw [hst]; decide)
    split at h
    · cases h
    · rename_i item rest hq
      simp only [Option.some.injEq] at h
      subst h
      rw [hq] at a3 a4 a5
      refine ⟨a1, a2, ?_, ?_, ?_, a6, ?_, a8, a9, a10, a11, a12, ?_, ?_⟩
      · simp only [Stage.holds_atWait, Stage.holds_atLock, Stage.holds_atQueue,
          Stage.holds_atUnlock, Stage.holds_atPost, Stage.holds_returned, Stage.owes_atWait,
          Stage.owes_atLock, Stage.owes_atQueue, Stage.owes_atUnlock, Stage.owes_atPost,
          Stage.owes_returned, List.length_append, List.length_singleton, List.length_cons,
          List.length_nil, Nat.cast_add, Nat.cast_one, Nat.cast_zero, zero_add] at *
        omega
      · simp only [Stage.holds_atWait, Stage.holds_atLock, Stage.holds_atQueue,
          Stage.holds_atUnlock, Stage.holds_atPost, Stage.holds_returned, Stage.owes_atWait,
          Stage.owes_atLock, Stage.owes_atQueue, Stage.owes_atUnlock, Stage.owes_atPost,
          Stage.owes_returned, List.length_append, List.length_singleton, List.length_cons,
          List.length_nil, Nat.cast_add, Nat.cast_one, Nat.cast_zero, zero_add] at *
        omega
      · simp only
        rw [List.append_assoc, List.singleton_append]
        exact a5
      · simp only [Stage.holds_atWait, Stage.holds_atLock, Stage.holds_atQueue,
          Stage.holds_atUnlock, Stage.holds_atPost, Stage.holds_returned, Stage.owes_atWait,
          Stage.owes_atLock, Stage.owes_atQueue, Stage.owes_atUnlock, Stage.owes_atPost,
          Stage.owes_returned, List.length_append, List.length_singleton, List.length_cons,
          List.length_nil, Nat.cast_add, Nat.cast_one, Nat.cast_zero, zero_add] at *
        omega
      · intros
        exact hr
      · intro hc
        cases hc
  · rename_i hst
    rw [hst] at a3 a4 a7
    simp only [Option.some.injEq] at h
    subst h
    have hr := a13 (by rw [hst]; decide) (by rw [hst]; decide)
    refine ⟨a1, a2, ?_, ?_, a5, a6, ?_, a8, a9, a10, a11, a12, ?_, ?_⟩ <;>
      simp only [Stage.holds_atWait, Stage.holds_atLock, Stage.holds_atQueue,
          Stage.holds_atUnlock, Stage.holds_atPost, Stage.holds_returned, Stage.owes_atWait,
          Stage.owes_atLock, Stage.owes_atQueue, Stage.owes_atUnlock, Stage.owes_atPost,
          Stage.owes_returned, List.length_append, List.length_singleton, List.length_cons,
          List.length_nil, Nat.cast_add, Nat.cast_one, Nat.cast_zero,
          zero_add] at * <;> first | omega | assumption | (intro hc; cases hc)
  · rename_i hst
    rw [hst] at a3 a4 a7
    simp only [Option.some.injEq] at h
    subst h
    have hr := a13 (by rw [hst]; decide) (by rw [hst]; decide)
    refine ⟨?_, a2, ?_, ?_, a5, a6, ?_, a8, a9, a10, ?_, ?_, ?_, ?_⟩ <;>
      simp only [Stage.holds_atWait, Stage.holds_atLock, Stage.holds_atQueue,
          Stage.holds_atUnlock, Stage.holds_atPost, Stage.holds_returned, Stage.owes_atWait,
          Stage.owes_atLock, Stage.owes_atQueue, Stage.owes_atUnlock, Stage.owes_atPost,
          Stage.owes_returned, List.length_append, List.length_singleton, List.length_cons,
          List.length_nil, Nat.cast_add, Nat.cast_one, Nat.cast_zero,
          zero_add] at * <;> first | omega | assumption | (intro hc; exact absurd rfl hc) | (intro hc; cases hc)
  · cases h

theorem ProdCons.pc_step_inv (σ σ' : ProdCons) (e : PcEv) (hinv : σ.Inv)
    (h : σ.step e = some σ') : σ'.Inv := by
  cases e with
  | producer => exact ProdCons.producer_inv σ σ' hinv h
  | consumer => exact ProdCons.consumer_inv σ σ' hinv h

theorem ProdCons.pc_reachable_inv (tr : List PcEv) (σ : ProdCons)
    (h : runFrom ProdCons.step init_semaphore tr = some σ) : σ.Inv :=
  runFrom_invariant ProdCons.step ProdCons.Inv
    (fun s e s' hs hstep => ProdCons.pc_step_inv s s' e hs hstep) tr _ σ
    ProdCons.pc_inv_init h


theorem Stage.holds_range (s : Stage) : 0 ≤ s.holds ∧ s.holds ≤ 1 := by
  cases s <;> decide

theorem Stage.owes_range (s : Stage) : 0 ≤ s.owes ∧ s.owes ≤ 1 := by
  cases s <;> decide

/-- C24. In every reachable state of prod_cons_with_mutex.cpp the queue holds at most 5
items (and at least 0, being a list); when the consumer stands before `q.front()` and
`q.pop()` the queue is not empty, so that the step is defined; the items consumed so
far followed by the queue are the items produced so far, which are `1, 2, ..., n` for
some `n <= 10`; and when the consumer has returned it has consumed exactly
`1, 2, ..., 10` in this order and the queue is empty. -/
theorem producer_consumer_fifo (tr : List PcEv) (σ : ProdCons)
    (h : runFrom ProdCons.step init_semaphore tr = some σ) :
    σ.q.length ≤ 5 ∧
    (σ.consumer.stage = Stage.atQueue →
      σ.q ≠ [] ∧ ∃ σ' : ProdCons, σ.step PcEv.consumer = some σ') ∧
    σ.consumed ++ σ.q = σ.produced ∧
    (∃ n : Nat, n ≤ 10 ∧ σ.produced = items n) ∧
    (σ.consumer.stage = Stage.returned →
      σ.consumed = [1, 2, 3, 4, 5, 6, 7, 8, 9, 10] ∧ σ.q = []) := by
  obtain ⟨a1, a2, a3, a4, a5, a6, a7, a8, a9, a10, a11, a12, a13, a14⟩ :=
    ProdCons.pc_reachable_inv tr σ h
  have hph := σ.producer.stage.holds_range
  have hpo := σ.producer.stage.owes_range
  have hch := σ.consumer.stage.holds_range
  have hco := σ.consumer.stage.owes_range
  have hn : (σ.producer.i - 1 + σ.producer.stage.owes).toNat ≤ 10 := by
    by_cases hw : σ.producer.stage = Stage.atWait
    · rw [hw, Stage.owes_atWait]
      omega
    · by_cases hr : σ.producer.stage = Stage.returned
      · rw [hr, Stage.owes_returned]
        omega
      · have := a10 hw hr
        omega
  refine ⟨by omega, ?_, a5, ⟨_, hn, a6⟩, ?_⟩
  · intro hst
    rw [hst, Stage.holds_atQueue] at a4
    have hne : σ.q ≠ [] := by
      intro hq
      rw [hq] at a4
      simp only [List.length_nil, Nat.cast_zero] at a4
      omega
    refine ⟨hne, ?_⟩
    simp only [ProdCons.step, ConsumerFunc, hst]
    cases hq : σ.q with
    | nil => exact absurd hq hne
    | cons item rest => exact ⟨_, rfl⟩
  · intro hst
    have hi := a14 hst
    rw [hst, Stage.owes_returned, hi] at a7
    have hlen : (σ.consumed ++ σ.q).length = (σ.producer.i - 1 + σ.producer.stage.owes).toNat := by
      rw [a5, a6, items_length]
    rw [List.length_append] at hlen
    have hq0 : σ.q.length = 0 := by omega
    have hq : σ.q = [] := List.length_eq_zero.mp hq0
    have hn10 : (σ.producer.i - 1 + σ.producer.stage.owes).toNat = 10 := by omega
    rw [hq, List.append_nil, a6, hn10] at a5
    exact ⟨a5.trans (by decide), hq⟩

/-- Witness for C24: the producer fills the queue with the items 1 to 5 and must stop,
the consumer takes them, and the same again for the items 6 to 10; then both return. -/
theorem producer_consumer_fifo_witness :
    runFrom ProdCons.step init_semaphore
        (List.replicate 25 PcEv.producer ++ List.replicate 25 PcEv.consumer ++
          List.replicate 25 PcEv.producer ++ List.replicate 25 PcEv.consumer ++
          [PcEv.producer, PcEv.consumer]) =
      some { sem_empty := 5, sem_full := 0, q := [], lock := false
             producer := { i := 11, stage := .returned }
             consumer := { i := 11, stage := .returned }
             produced := [1, 2, 3, 4, 5, 6, 7, 8, 9, 10]
             consumed := [1, 2, 3, 4, 5, 6, 7, 8, 9, 10] } ∧
    ([1, 2, 3, 4, 5, 6, 7, 8, 9, 10] : List Int) = [1, 2, 3, 4, 5, 6, 7, 8, 9, 10] ∧
    ([] : List Int) = [] :=
  ⟨by decide,
   (producer_consumer_fifo
      (List.replicate 25 PcEv.producer ++ List.replicate 25 PcEv.consumer ++
        List.replicate 25 PcEv.producer ++ List.replicate 25 PcEv.consumer ++
        [PcEv.producer, PcEv.consumer])
      { sem_empty := 5, sem_full := 0, q := [], lock := false
        producer := { i := 11, stage := .returned }
        consumer := { i := 11, stage := .returned }
        produced := [1, 2, 3, 4, 5, 6, 7, 8, 9, 10]
        consumed := [1, 2, 3, 4, 5, 6, 7, 8, 9, 10] }
      (by decide)).2.2.2.2 rfl⟩


/-! ## The semaphore protocol of the logbook of Shadows_of_Small_Health.cpp -/

theorem count_move {α : Type} [DecidableEq α] (l : List α) (t : Nat) (a b x : α)
    (ht : l[t]? = some a) :
    (((l.set t b).countP (fun p => decide (p = x)) : Nat) : Int)
      = ((l.countP (fun p => decide (p = x)) : Nat) : Int) + (if b = x then 1 else 0)
          - (if a = x then 1 else 0) := by
  have h := countP_set_add (fun p => decide (p = x)) l t a b ht
  simp only [decide_eq_true_eq] at h
  have h2 : (((l.set t b).countP (fun p => decide (p = x)) : Nat) : Int)
      + ((if a = x then 1 else 0 : Nat) : Int)
      = ((l.countP (fun p => decide (p = x)) : Nat) : Int)
      + ((if b = x then 1 else 0 : Nat) : Int) := by exact_mod_cast h
  have ha : ((if a = x then 1 else 0 : Nat) : Int) = if a = x then 1 else 0 := by
    split <;> rfl
  have hb : ((if b = x then 1 else 0 : Nat) : Int) = if b = x then 1 else 0 := by
    split <;> rfl
  rw [ha, hb] at h2
  omega

theorem ShadowsBook.reader_inv (σ σ' : ShadowsBook) (t : Nat) (hinv : σ.Inv)
    (h : σ.staff_function t = some σ') : σ'.Inv := by
  obtain ⟨a1, a2, a3, a4, a5, a6, a7, a8⟩ := hinv
  unfold ShadowsBook.staff_function at h
  split at h
  · rename_i ht
    cases hs : σ.simulation_running <;>
      simp only [hs, if_true, if_false, Bool.false_eq_true] at h
    · simp only [Option.some.injEq] at h
      subst h
      have e1 := count_move σ.readers t _ SemReaderPc.returned SemReaderPc.counting ht
      have e2 := count_move σ.readers t _ SemReaderPc.returned SemReaderPc.first ht
      have e3 := count_move σ.readers t _ SemReaderPc.returned SemReaderPc.admitted ht
      have e4 := count_move σ.readers t _ SemReaderPc.returned SemReaderPc.reading ht
      have e5 := count_move σ.readers t _ SemReaderPc.returned SemReaderPc.leaving ht
      have e6 := count_move σ.readers t _ SemReaderPc.returned SemReaderPc.last ht
      have e7 := count_move σ.readers t _ SemReaderPc.returned SemReaderPc.release ht
      simp only [reduceCtorEq, if_true, if_false, add_zero, sub_zero] at e1 e2 e3 e4 e5 e6 e7
      refine ⟨?_, ?_, ?_, ?_, ?_, ?_, ?_, ?_⟩ <;>
        simp only [ShadowsBook.n, ShadowsBook.w] at * <;> (try intro hh) <;> omega
    · simp only [Option.some.injEq] at h
      subst h
      have e1 := count_move σ.readers t _ SemReaderPc.slept SemReaderPc.counting ht
      have e2 := count_move σ.readers t _ SemReaderPc.slept SemReaderPc.first ht
      have e3 := count_move σ.readers t _ SemReaderPc.slept SemReaderPc.admitted ht
      have e4 := count_move σ.readers t _ SemReaderPc.slept SemReaderPc.reading ht
      have e5 := count_move σ.readers t _ SemReaderPc.slept SemReaderPc.leaving ht
      have e6 := count_move σ.readers t _ SemReaderPc.slept SemReaderPc.last ht
      have e7 := count_move σ.readers t _ SemReaderPc.slept SemReaderPc.release ht
      simp only [reduceCtorEq, if_true, if_false, add_zero, sub_zero] at e1 e2 e3 e4 e5 e6 e7
      refine ⟨?_, ?_, ?_, ?_, ?_, ?_, ?_, ?_⟩ <;>
        simp only [ShadowsBook.n, ShadowsBook.w] at * <;> (try intro hh) <;> omega
  · rename_i ht
    cases hs : σ.simulation_running <;>
      simp only [hs, Bool.not_true, Bool.not_false, if_true, if_false, Bool.false_eq_true] at h
    · simp only [Option.some.injEq] at h
      subst h
      have e1 := count_move σ.readers t _ SemReaderPc.returned SemReaderPc.counting ht
      have e2 := count_move σ.readers t _ SemReaderPc.returned SemReaderPc.first ht
      have e3 := count_move σ.readers t _ SemReaderPc.returned SemReaderPc.admitted ht
      have e4 := count_move σ.readers t _ SemReaderPc.returned SemReaderPc.reading ht
      have e5 := count_move σ.readers t _ SemReaderPc.returned SemReaderPc.leaving ht
      have e6 := count_move σ.readers t _ SemReaderPc.returned SemReaderPc.last ht
      have e7 := count_move σ.readers t _ SemReaderPc.returned SemReaderPc.release ht
      simp only [reduceCtorEq, if_true, if_false, add_zero, sub_zero] at e1 e2 e3 e4 e5 e6 e7
      refine ⟨?_, ?_, ?_, ?_, ?_, ?_, ?_, ?_⟩ <;>
        simp only [ShadowsBook.n, ShadowsBook.w] at * <;> (try intro hh) <;> omega
    · simp only [Option.some.injEq] at h
      subst h
      have e1 := count_move σ.readers t _ SemReaderPc.enter SemReaderPc.counting ht
      have e2 := count_move σ.readers t _ SemReaderPc.enter SemReaderPc.first ht
      have e3 := count_move σ.readers t _ SemReaderPc.enter SemReaderPc.admitted ht
      have e4 := count_move σ.readers t _ SemReaderPc.enter SemReaderPc.reading ht
      have e5 := count_move σ.readers t _ SemReaderPc.enter SemReaderPc.leaving ht
      have e6 := count_move σ.readers t _ SemReaderPc.enter SemReaderPc.last ht
      have e7 := count_move σ.readers t _ SemReaderPc.enter SemReaderPc.release ht
      simp only [reduceCtorEq, if_true, if_false, add_zero, sub_zero] at e1 e2 e3 e4 e5 e6 e7
      refine ⟨?_, ?_, ?_, ?_, ?_, ?_, ?_, ?_⟩ <;>
        simp only [ShadowsBook.n, ShadowsBook.w] at * <;> (try intro hh) <;> omega
  · rename_i ht
    split at h
    · simp only [Option.some.injEq] at h
      subst h
      have e1 := count_move σ.readers t _ SemReaderPc.counting SemReaderPc.counting ht
      have e2 := count_move σ.readers t _ SemReaderPc.counting SemReaderPc.first ht
      have e3 := count_move σ.readers t _ SemReaderPc.counting SemReaderPc.admitted ht
      have e4 := count_move σ.readers t _ SemReaderPc.counting SemReaderPc.reading ht
      have e5 := count_move σ.readers t _ SemReaderPc.counting SemReaderPc.leaving ht
      have e6 := count_move σ.readers t _ SemReaderPc.counting SemReaderPc.last ht
      have e7 := count_move σ.readers t _ SemReaderPc.counting SemReaderPc.release ht
      simp only [reduceCtorEq, if_true, if_false, add_zero, sub_zero] at e1 e2 e3 e4 e5 e6 e7
      refine ⟨?_, ?_, ?_, ?_, ?_, ?_, ?_, ?_⟩ <;>
        simp only [ShadowsBook.n, ShadowsBook.w] at * <;> (try intro hh) <;> omega
    · cases h
  · rename_i ht
    by_cases hc : σ.read_count + 1 = 1
    · rw [if_pos hc] at h
      simp only [Option.some.injEq] at h
      subst h
      have e1 := count_move σ.readers t _ SemReaderPc.first SemReaderPc.counting ht
      have e2 := count_move σ.readers t _ SemReaderPc.first SemReaderPc.first ht
      have e3 := count_move σ.readers t _ SemReaderPc.first SemReaderPc.admitted ht
      have e4 := count_move σ.readers t _ SemReaderPc.first SemReaderPc.reading ht
      have e5 := count_move σ.readers t _ SemReaderPc.first SemReaderPc.leaving ht
      have e6 := count_move σ.readers t _ SemReaderPc.first SemReaderPc.last ht
      have e7 := count_move σ.readers t _ SemReaderPc.first SemReaderPc.release ht
      simp only [reduceCtorEq, if_true, if_false, add_zero, sub_zero] at e1 e2 e3 e4 e5 e6 e7
      refine ⟨?_, ?_, ?_, ?_, ?_, ?_, ?_, ?_⟩ <;>
        simp only [ShadowsBook.n, ShadowsBook.w] at * <;> (try intro hh) <;> omega
    · rw [if_neg hc] at h
      simp only [Option.some.injEq] at h
      subst h
      have e1 := count_move σ.readers t _ SemReaderPc.admitted SemReaderPc.counting ht
      have e2 := count_move σ.readers t _ SemReaderPc.admitted SemReaderPc.first ht
      have e3 := count_move σ.readers t _ SemReaderPc.admitted SemReaderPc.admitted ht
      have e4 := count_move σ.readers t _ SemReaderPc.admitted SemReaderPc.reading ht
      have e5 := count_move σ.readers t _ SemReaderPc.admitted SemReaderPc.leaving ht
      have e6 := count_move σ.readers t _ SemReaderPc.admitted SemReaderPc.last ht
      have e7 := count_move σ.readers t _ SemReaderPc.admitted SemReaderPc.release ht
      simp only [reduceCtorEq, if_true, if_false, add_zero, sub_zero] at e1 e2 e3 e4 e5 e6 e7
      refine ⟨?_, ?_, ?_, ?_, ?_, ?_, ?_, ?_⟩ <;>
        simp only [ShadowsBook.n, ShadowsBook.w] at * <;> (try intro hh) <;> omega
  · rename_i ht
    split at h
    · simp only [Option.some.injEq] at h
      subst h
      have e1 := count_move σ.readers t _ SemReaderPc.admitted SemReaderPc.counting ht
      have e2 := count_move σ.readers t _ SemReaderPc.admitted SemReaderPc.first ht
      have e3 := count_move σ.readers t _ SemReaderPc.admitted SemReaderPc.admitted ht
      have e4 := count_move σ.readers t _ SemReaderPc.admitted SemReaderPc.reading ht
      have e5 := count_move σ.readers t _ SemReaderPc.admitted SemReaderPc.leaving ht
      have e6 := count_move σ.readers t _ SemReaderPc.admitted SemReaderPc.last ht
      have e7 := count_move σ.readers t _ SemReaderPc.admitted SemReaderPc.release ht
      simp only [reduceCtorEq, if_true, if_false, add_zero, sub_zero] at e1 e2 e3 e4 e5 e6 e7
      refine ⟨?_, ?_, ?_, ?_, ?_, ?_, ?_, ?_⟩ <;>
        simp only [ShadowsBook.n, ShadowsBook.w] at * <;> (try intro hh) <;> omega
    · cases h
  · rename_i ht
    simp only [Option.some.injEq] at h
    subst h
    have e1 := count_move σ.readers t _ SemReaderPc.reading SemReaderPc.counting ht
    have e2 := count_move σ.readers t _ SemReaderPc.reading SemReaderPc.first ht
    have e3 := count_move σ.readers t _ SemReaderPc.reading SemReaderPc.admitted ht
    have e4 := count_move σ.readers t _ SemReaderPc.reading SemReaderPc.reading ht
    have e5 := count_move σ.readers t _ SemReaderPc.reading SemReaderPc.leaving ht
    have e6 := count_move σ.readers t _ SemReaderPc.reading SemReaderPc.last ht
    have e7 := count_move σ.readers t _ SemReaderPc.reading SemReaderPc.release ht
    simp only [reduceCtorEq, if_true, if_false, add_zero, sub_zero] at e1 e2 e3 e4 e5 e6 e7
    refine ⟨?_, ?_, ?_, ?_, ?_, ?_, ?_, ?_⟩ <;>
      simp only [ShadowsBook.n, ShadowsBook.w] at * <;> (try intro hh) <;> omega
  · rename_i ht
    split at h
    · simp only [Option.some.injEq] at h
      subst h
      have e1 := count_move σ.readers t _ SemReaderPc.leaving SemReaderPc.counting ht
      have e2 := count_move σ.readers t _ SemReaderPc.leaving SemReaderPc.first ht
      have e3 := count_move σ.readers t _ SemReaderPc.leaving SemReaderPc.admitted ht
      have e4 := count_move σ.readers t _ SemReaderPc.leaving SemReaderPc.reading ht
      have e5 := count_move σ.readers t _ SemReaderPc.leaving SemReaderPc.leaving ht
      have e6 := count_move σ.readers t _ SemReaderPc.leaving SemReaderPc.last ht
      have e7 := count_move σ.readers t _ SemReaderPc.leaving SemReaderPc.release ht
      simp only [reduceCtorEq, if_true, if_false, add_zero, sub_zero] at e1 e2 e3 e4 e5 e6 e7
      refine ⟨?_, ?_, ?_, ?_, ?_, ?_, ?_, ?_⟩ <;>
        simp only [ShadowsBook.n, ShadowsBook.w] at * <;> (try intro hh) <;> omega
    · cases h
  · rename_i ht
    by_cases hc : σ.read_count - 1 = 0
    · rw [if_pos hc] at h
      simp only [Option.some.injEq] at h
      subst h
      have e1 := count_move σ.readers t _ SemReaderPc.last SemReaderPc.counting ht
      have e2 := count_move σ.readers t _ SemReaderPc.last SemReaderPc.first ht
      have e3 := count_move σ.readers t _ SemReaderPc.last SemReaderPc.admitted ht
      have e4 := count_move σ.readers t _ SemReaderPc.last SemReaderPc.reading ht
      have e5 := count_move σ.readers t _ SemReaderPc.last SemReaderPc.leaving ht
      have e6 := count_move σ.readers t _ SemReaderPc.last SemReaderPc.last ht
      have e7 := count_move σ.readers t _ SemReaderPc.last SemReaderPc.release ht
      simp only [reduceCtorEq, if_true, if_false, add_zero, sub_zero] at e1 e2 e3 e4 e5 e6 e7
      refine ⟨?_, ?_, ?_, ?_, ?_, ?_, ?_, ?_⟩ <;>
        simp only [ShadowsBook.n, ShadowsBook.w] at * <;> (try intro hh) <;> omega
    · rw [if_neg hc] at h
      simp only [Option.some.injEq] at h
      subst h
      have e1 := count_move σ.readers t _ SemReaderPc.release SemReaderPc.counting ht
      have e2 := count_move σ.readers t _ SemReaderPc.release SemReaderPc.first ht
      have e3 := count_move σ.readers t _ SemReaderPc.release SemReaderPc.admitted ht
      have e4 := count_move σ.readers t _ SemReaderPc.release SemReaderPc.reading ht
      have e5 := count_move σ.readers t _ SemReaderPc.release SemReaderPc.leaving ht
      have e6 := count_move σ.readers t _ SemReaderPc.release SemReaderPc.last ht
      have e7 := count_move σ.readers t _ SemReaderPc.release SemReaderPc.release ht
      simp only [reduceCtorEq, if_true, if_false, add_zero, sub_zero] at e1 e2 e3 e4 e5 e6 e7
      refine ⟨?_, ?_, ?_, ?_, ?_, ?_, ?_, ?_⟩ <;>
        simp only [ShadowsBook.n, ShadowsBook.w] at * <;> (try intro hh) <;> omega
  · rename_i ht
    simp only [Option.some.injEq] at h
    subst h
    have e1 := count_move σ.readers t _ SemReaderPc.release SemReaderPc.counting ht
    have e2 := count_move σ.readers t _ SemReaderPc.release SemReaderPc.first ht
    have e3 := count_move σ.readers t _ SemReaderPc.release SemReaderPc.admitted ht
    have e4 := count_move σ.readers t _ SemReaderPc.release SemReaderPc.reading ht
    have e5 := count_move σ.readers t _ SemReaderPc.release SemReaderPc.leaving ht
    have e6 := count_move σ.readers t _ SemReaderPc.release SemReaderPc.last ht
    have e7 := count_move σ.readers t _ SemReaderPc.release SemReaderPc.release ht
    simp only [reduceCtorEq, if_true, if_false, add_zero, sub_zero] at e1 e2 e3 e4 e5 e6 e7
    refine ⟨?_, ?_, ?_, ?_, ?_, ?_, ?_, ?_⟩ <;>
      simp only [ShadowsBook.n, ShadowsBook.w] at * <;> (try intro hh) <;> omega
  · rename_i ht
    simp only [Option.some.injEq] at h
    subst h
    have e1 := count_move σ.readers t _ SemReaderPc.top SemReaderPc.counting ht
    have e2 := count_move σ.readers t _ SemReaderPc.top SemReaderPc.first ht
    have e3 := count_move σ.readers t _ SemReaderPc.top SemReaderPc.admitted ht
    have e4 := count_move σ.readers t _ SemReaderPc.top SemReaderPc.reading ht
    have e5 := count_move σ.readers t _ SemReaderPc.top SemReaderPc.leaving ht
    have e6 := count_move σ.readers t _ SemReaderPc.top SemReaderPc.last ht
    have e7 := count_move σ.readers t _ SemReaderPc.top SemReaderPc.release ht
    simp only [reduceCtorEq, if_true, if_false, add_zero, sub_zero] at e1 e2 e3 e4 e5 e6 e7
    refine ⟨?_, ?_, ?_, ?_, ?_, ?_, ?_, ?_⟩ <;>
      simp only [ShadowsBook.n, ShadowsBook.w] at * <;> (try intro hh) <;> omega
  · cases h


theorem ShadowsBook.writer_inv (σ σ' : ShadowsBook) (t : Nat) (hinv : σ.Inv)
    (h : σ.operative_function t = some σ') : σ'.Inv := by
  obtain ⟨a1, a2, a3, a4, a5, a6, a7, a8⟩ := hinv
  unfold ShadowsBook.operative_function at h
  split at h
  · rename_i ht
    split at h
    · simp only [Option.some.injEq] at h
      subst h
      have e1 := count_move σ.writers t _ SemWriterPc.writing SemWriterPc.writing ht
      simp only [reduceCtorEq, if_true, if_false, add_zero, sub_zero] at e1
      refine ⟨?_, ?_, ?_, ?_, ?_, ?_, ?_, ?_⟩ <;>
        simp only [ShadowsBook.n, ShadowsBook.w] at * <;> (try intro hh) <;> omega
    · cases h
  · rename_i ht
    simp only [Option.some.injEq] at h
    subst h
    have e1 := count_move σ.writers t _ SemWriterPc.after SemWriterPc.writing ht
    simp only [reduceCtorEq, if_true, if_false, add_zero, sub_zero] at e1
    refine ⟨?_, ?_, ?_, ?_, ?_, ?_, ?_, ?_⟩ <;>
      simp only [ShadowsBook.n, ShadowsBook.w] at * <;> (try intro hh) <;> omega
  · cases h

theorem ShadowsBook.shadows_inv_init (g : Nat) : (ShadowsBook.init g).Inv := by
  have hr : ∀ x : SemReaderPc, x ≠ SemReaderPc.top → (ShadowsBook.init g).n x = 0 := by
    intro x hx
    simp only [ShadowsBook.n, ShadowsBook.init, List.countP_eq_zero, decide_eq_true_eq]
    intro a ha
    rw [List.eq_of_mem_replicate ha]
    exact fun hc => hx hc.symm
  have hw : (ShadowsBook.init g).w = 0 := by
    simp only [ShadowsBook.w, ShadowsBook.init, List.countP_eq_zero, decide_eq_true_eq]
    intro a ha
    rw [List.eq_of_mem_replicate ha]
    decide
  have r1 := hr .counting (by decide)
  have r2 := hr .first (by decide)
  have r3 := hr .admitted (by decide)
  have r4 := hr .reading (by decide)
  have r5 := hr .leaving (by decide)
  have r6 := hr .last (by decide)
  have r7 := hr .release (by decide)
  refine ⟨?_, ?_, ?_, ?_, ?_, ?_, ?_, ?_⟩ <;> rw [r1, r2, r3, r4, r5, r6, r7, hw] at * <;>
    simp [ShadowsBook.init]

theorem ShadowsBook.shadows_step_inv (σ σ' : ShadowsBook) (e : ShadowsEv) (hinv : σ.Inv)
    (h : σ.step e = some σ') : σ'.Inv := by
  cases e with
  | writer t => exact ShadowsBook.writer_inv σ σ' t hinv h
  | reader t => exact ShadowsBook.reader_inv σ σ' t hinv h
  | stop =>
    simp only [ShadowsBook.step] at h
    split at h
    · simp only [Option.some.injEq] at h
      subst h
      exact ⟨hinv.1, hinv.2, hinv.3, hinv.4, hinv.5, hinv.6, hinv.7, hinv.8⟩
    · cases h

theorem ShadowsBook.shadows_reachable_inv (g : Nat) (tr : List ShadowsEv) (σ : ShadowsBook)
    (h : runFrom ShadowsBook.step (ShadowsBook.init g) tr = some σ) : σ.Inv :=
  runFrom_invariant ShadowsBook.step ShadowsBook.Inv
    (fun s e s' hs hstep => ShadowsBook.shadows_step_inv s s' e hs hstep) tr _ σ
    (ShadowsBook.shadows_inv_init g) h


/-- C22. In every reachable state of the semaphore protocol of
Shadows_of_Small_Health.cpp (`wrt` and `mutex` initially 1, `read_count` initially 0):
the value of `wrt` is 0 or 1; at most one leader is between `sem_wait(&wrt)` and
`sem_post(&wrt)`; and no leader is there while a staff thread is in its read section,
between the entry and the exit protocol. -/
theorem semaphore_writer_excludes_readers (g : Nat) (tr : List ShadowsEv) (σ : ShadowsBook)
    (h : runFrom ShadowsBook.step (ShadowsBook.init g) tr = some σ) :
    (σ.wrt = 0 ∨ σ.wrt = 1) ∧
    σ.writers.countP (fun p => decide (p = SemWriterPc.writing)) ≤ 1 ∧
    (∀ t u : Nat, σ.writers[t]? = some SemWriterPc.writing →
      σ.writers[u]? = some SemWriterPc.writing → t = u) ∧
    (∀ t u : Nat, σ.writers[t]? = some SemWriterPc.writing →
      σ.readers[u]? = some SemReaderPc.reading → False) := by
  obtain ⟨_, _, _, a4, a5, a6, _, _⟩ := ShadowsBook.shadows_reachable_inv g tr σ h
  have hsum : σ.wrt + (σ.w : Int) ≤ 1 := by
    by_cases hG : 0 < σ.n .admitted + σ.n .reading + σ.n .leaving + σ.n .last
    · have := a5 hG
      omega
    · have := a6 (by omega)
      omega
  have hw1 : σ.writers.countP (fun p => decide (p = SemWriterPc.writing)) ≤ 1 := by
    have : (σ.w : Int) ≤ 1 := by omega
    simp only [ShadowsBook.w] at this
    omega
  refine ⟨by omega, hw1, ?_, ?_⟩
  · intro t u ht hu
    exact countP_le_one_unique _ σ.writers t u _ _ hw1 ht (by decide) hu (by decide)
  · intro t u ht hu
    have hwpos : 0 < σ.w :=
      (countP_pos_index _ _).mpr ⟨t, _, ht, by decide⟩
    have hrpos : 0 < σ.n .reading :=
      (countP_pos_index _ _).mpr ⟨u, _, hu, by decide⟩
    have := a5 (by omega)
    omega

/-- Witness for C22: with one leader, staff thread 0 goes through the entry protocol
and reads; it holds `wrt`, whose value is 0, and the leader is kept out. -/
theorem semaphore_writer_excludes_readers_witness :
    runFrom ShadowsBook.step (ShadowsBook.init 1)
        [.reader 0, .reader 0, .reader 0, .reader 0, .reader 0, .reader 0] =
      some { read_count := 1, wrt := 0, mutex := 1, completed_operations := 0
             simulation_running := true
             writers := [.before], readers := [.reading, .top] } ∧
    ((0 : Int) = 0 ∨ (0 : Int) = 1) :=
  ⟨by decide,
   (semaphore_writer_excludes_readers 1
      [.reader 0, .reader 0, .reader 0, .reader 0, .reader 0, .reader 0]
      { read_count := 1, wrt := 0, mutex := 1, completed_operations := 0
        simulation_running := true
        writers := [.before], readers := [.reading, .top] }
      (by decide)).1⟩


/-! ## The logbook of z.cpp -/

/-- C21, evaluated on the input `N = 1`, `M = 1`.  The only leader starts writing; staff
thread 0 finds `is_writer_active` set and unlocks `logbook_mutex`; before it reaches
`pthread_cond_wait` the leader finishes and broadcasts on `cond`, where nobody sleeps
yet; staff thread 0 then goes to sleep, and staff thread 1 sees
`operations_completed == N / M` and returns.  In the state reached staff thread 0 is
asleep on `cond`, every other thread has returned, and no thread has a step. -/
theorem z_reader_left_asleep :
    runFrom ZBook.step (ZBook.init 1 1)
        [.writer 0, .reader 0, .reader 0, .reader 0, .writer 0, .reader 0, .reader 1] =
      some { N := 1, M := 1, active_readers := 0, operations_completed := 1
             waiting_readers := 1, is_writer_active := false, logbook_mutex := false
             readers := [.asleep, .returned], writers := [.returned] } ∧
    ∀ t : Nat,
      ZBook.step { N := 1, M := 1, active_readers := 0, operations_completed := 1
                   waiting_readers := 1, is_writer_active := false, logbook_mutex := false
                   readers := [.asleep, .returned], writers := [.returned] }
          (.reader t) = none ∧
      ZBook.step { N := 1, M := 1, active_readers := 0, operations_completed := 1
                   waiting_readers := 1, is_writer_active := false, logbook_mutex := false
                   readers := [.asleep, .returned], writers := [.returned] }
          (.writer t) = none := by
  refine ⟨by decide, ?_⟩
  intro t
  rcases t with _ | _ | t
  · exact ⟨rfl, rfl⟩
  · exact ⟨rfl, rfl⟩
  · exact ⟨rfl, rfl⟩

end Sim
